import Mathlib

/-!
# SPZ gaussian-splat codec (go-spz): shallow embedding and verified properties

The Go sources `spz.go`, `utils.go`, `read.go` and `write.go` are embedded as
Lean functions.

* `uint8` / `uint32` values are natural numbers; every place where the Go code
  can wrap carries an explicit `% 2 ^ w`.
* Go `int` is the 64-bit integer of the usual targets.  The reader multiplies a
  `uint32` by at most 45 and adds six such products, which stays below `2 ^ 63`,
  so the size arithmetic of `readSpzDatas` is done on `Nat`.
* Byte slices are `List Nat`.  Slice expressions and index expressions are
  checked: an out-of-range access is the outcome `Fault.panic`.  The rows of a
  cloud are values (the Go slice holds non-nil pointers).
* `float32` / `float64` values are `GoFloat`: a rational (finite value) or one
  of the special values.  Every arithmetic operation rounds its exact result to
  the nearest representable value, ties to even, one operation at a time (no
  fused multiply-add).  The exponent and square-root helpers are structural
  loops, so that the codecs can be evaluated on concrete inputs.
* `ReadSpz` and `WriteSpz` are the parts of the Go functions between the file
  and the codec: file access and the gzip wrapper are outside the embedding.
-/

namespace Spz

/-! ## Constants (`spz.go`) -/

/-- Size of the file header in bytes. -/
def HeaderSizeSpz : Nat := 16

/-- Magic number `NGSP`. -/
def SPZ_MAGIC : Nat := 0x5053474e

/-- Nine-bit mask used by the version 3 rotation packing. -/
def CMask : Nat := 0x1FF

/-! ## Errors (`error.go`) -/

/-- The values of `SpzError` the codec creates, one constructor per message. -/
inductive SpzError where
  /-- `Invalid SPZ file: insufficient data for header` -/
  | insufficientHeader
  /-- `Invalid SPZ file: magic number mismatch` -/
  | magicMismatch
  /-- `Unsupported SPZ version: ` followed by the version -/
  | unsupportedVersion (version : Nat)
  /-- `Unsupported SH degree: ` followed by the degree -/
  | unsupportedShDegree (degree : Nat)
  /-- `Unsupported fractional bits: ` followed by the value -/
  | unsupportedFractionalBits (bits : Nat)
  /-- `Invalid SPZ data: incorrect data size` -/
  | dataSize
  /-- `Failed to parse SPZ header` -/
  | headerNil
  deriving DecidableEq, Repr

/-- How a call that does not return a value ends: with an `SpzError` or with a
run-time panic (index or slice bound out of range). -/
inductive Fault where
  | spz (e : SpzError)
  | panic
  deriving DecidableEq, Repr

/-- Equality of two outcomes is decidable. -/
instance instDecidableEqExcept (ε α : Type) [DecidableEq ε] [DecidableEq α] :
    DecidableEq (Except ε α)
  | .ok a, .ok b =>
    if h : a = b then isTrue (congrArg _ h) else isFalse (fun e => h (Except.ok.inj e))
  | .error a, .error b =>
    if h : a = b then isTrue (congrArg _ h) else isFalse (fun e => h (Except.error.inj e))
  | .ok _, .error _ => isFalse (fun e => Except.noConfusion e)
  | .error _, .ok _ => isFalse (fun e => Except.noConfusion e)

/-! ## Floating point values -/

/-- Value of a Go `float32` or `float64`: a finite number, an infinity or NaN.
The two zeros are identified; no operation of the codec tells them apart. -/
inductive GoFloat where
  | fin (q : ℚ)
  | pinf
  | ninf
  | nan
  deriving DecidableEq

namespace GoFloat

/-- Nearest integer, ties to the even neighbour. -/
def roundHalfEven (x : ℚ) : ℤ :=
  let f := ⌊x⌋
  if x - f < 1 / 2 then f
  else if 1 / 2 < x - f then f + 1
  else if f % 2 = 0 then f else f + 1

/-- A binary floating point format: precision in bits, exponent of the least
positive (subnormal) value, and the exponent at which values overflow. -/
structure Format where
  prec : ℕ
  emin : ℤ
  emax : ℤ

/-- IEEE 754 binary32 (`float32`). -/
def binary32 : Format := ⟨24, -149, 128⟩

/-- IEEE 754 binary64 (`float64`). -/
def binary64 : Format := ⟨53, -1074, 1024⟩

/-- Loop computing `⌊log₂ n⌋` (0 for `n < 2`); `fuel` bounds the iterations. -/
def log2Loop : Nat → Nat → Nat
  | 0, _ => 0
  | fuel + 1, n => if 2 ≤ n then log2Loop fuel (n / 2) + 1 else 0

/-- Loop computing `⌈log₂ n⌉` (0 for `n < 2`); `fuel` bounds the iterations. -/
def clog2Loop : Nat → Nat → Nat
  | 0, _ => 0
  | fuel + 1, n => if 2 ≤ n then clog2Loop fuel ((n + 1) / 2) + 1 else 0

/-- Newton iteration for the integer square root, from a guess above the root;
`fuel` bounds the iterations. -/
def sqrtLoop : Nat → Nat → Nat → Nat
  | 0, _, guess => guess
  | fuel + 1, n, guess =>
    let next := (guess + n / guess) / 2
    if next < guess then sqrtLoop fuel n next else guess

/-- Integer square root `⌊√n⌋`. -/
def natSqrt (n : Nat) : Nat := if n ≤ 1 then n else sqrtLoop n n (n / 2)

/-- Binary exponent of a positive rational: the `e` with `2 ^ e ≤ x < 2 ^ (e + 1)`. -/
def binExp (x : ℚ) : ℤ :=
  if 1 ≤ x then (log2Loop ⌊x⌋₊ ⌊x⌋₊ : ℕ) else -(clog2Loop ⌈x⁻¹⌉₊ ⌈x⁻¹⌉₊ : ℕ)

/-- Nearest value of the format with unbounded exponent range upwards, ties to
even. -/
def roundTo (fmt : Format) (x : ℚ) : ℚ :=
  if x = 0 then 0
  else
    let q := max (binExp |x| - (fmt.prec - 1)) fmt.emin
    roundHalfEven (x / 2 ^ q) * 2 ^ q

/-- Rounding of an exact result into the format, with overflow to infinity. -/
def ofRat (fmt : Format) (x : ℚ) : GoFloat :=
  let r := roundTo fmt x
  if 2 ^ fmt.emax ≤ r then pinf else if r ≤ -2 ^ fmt.emax then ninf else fin r

/-- Correctly rounded square root of a non-negative rational: with `q` the
exponent of the last place of the result and `t = x / 4 ^ q`, the root of `t`
lies in `[s, s + 1)` for `s = natSqrt ⌊t⌋₊` and is compared with `s + 1/2`
through the squares. -/
def sqrtRound (fmt : Format) (x : ℚ) : ℚ :=
  if x ≤ 0 then 0
  else
    let q := max (binExp x / 2 - (fmt.prec - 1)) fmt.emin
    let t := x / 4 ^ q
    let s := natSqrt ⌊t⌋₊
    let m : ℕ :=
      if 4 * t < (2 * s + 1) ^ 2 then s
      else if ((2 * s + 1) ^ 2 : ℚ) < 4 * t then s + 1
      else if s % 2 = 0 then s else s + 1
    m * 2 ^ q

/-- Negation. -/
def neg : GoFloat → GoFloat
  | fin a => fin (-a)
  | pinf => ninf
  | ninf => pinf
  | nan => nan

/-- Addition `x + y` in the format. -/
def add (fmt : Format) : GoFloat → GoFloat → GoFloat
  | fin a, fin b => ofRat fmt (a + b)
  | nan, _ => nan
  | _, nan => nan
  | pinf, ninf => nan
  | ninf, pinf => nan
  | pinf, _ => pinf
  | _, pinf => pinf
  | ninf, _ => ninf
  | _, ninf => ninf

/-- Subtraction `x - y` in the format. -/
def sub (fmt : Format) (x y : GoFloat) : GoFloat := add fmt x (neg y)

/-- Multiplication `x * y` in the format. -/
def mul (fmt : Format) : GoFloat → GoFloat → GoFloat
  | fin a, fin b => ofRat fmt (a * b)
  | nan, _ => nan
  | _, nan => nan
  | fin a, pinf => if a = 0 then nan else if 0 < a then pinf else ninf
  | fin a, ninf => if a = 0 then nan else if 0 < a then ninf else pinf
  | pinf, fin b => if b = 0 then nan else if 0 < b then pinf else ninf
  | ninf, fin b => if b = 0 then nan else if 0 < b then ninf else pinf
  | pinf, pinf => pinf
  | ninf, ninf => pinf
  | pinf, ninf => ninf
  | ninf, pinf => ninf

/-- Division `x / y` in the format.  A zero divisor is the positive zero: the
codec divides by non-zero constants, by a square root and by the conversion of
an integer, none of which is the negative zero. -/
def div (fmt : Format) : GoFloat → GoFloat → GoFloat
  | fin a, fin b =>
    if b = 0 then (if a = 0 then nan else if 0 < a then pinf else ninf)
    else ofRat fmt (a / b)
  | nan, _ => nan
  | _, nan => nan
  | fin _, pinf => fin 0
  | fin _, ninf => fin 0
  | pinf, fin b => if 0 ≤ b then pinf else ninf
  | ninf, fin b => if 0 ≤ b then ninf else pinf
  | pinf, pinf => nan
  | pinf, ninf => nan
  | ninf, pinf => nan
  | ninf, ninf => nan

/-- Comparison `x < y`; false as soon as an operand is NaN. -/
def lt : GoFloat → GoFloat → Bool
  | fin a, fin b => decide (a < b)
  | nan, _ => false
  | _, nan => false
  | ninf, ninf => false
  | ninf, _ => true
  | _, ninf => false
  | pinf, _ => false
  | _, pinf => true

/-- `math.Abs`. -/
def abs : GoFloat → GoFloat
  | fin a => fin |a|
  | pinf => pinf
  | ninf => pinf
  | nan => nan

/-- `math.Sqrt` (binary64). -/
def sqrt : GoFloat → GoFloat
  | fin a => if a < 0 then nan else fin (sqrtRound binary64 a)
  | pinf => pinf
  | ninf => nan
  | nan => nan

/-- `math.Max`: `+Inf` wins over everything, then NaN. -/
def max : GoFloat → GoFloat → GoFloat
  | pinf, _ => pinf
  | _, pinf => pinf
  | nan, _ => nan
  | _, nan => nan
  | ninf, y => y
  | x, ninf => x
  | fin a, fin b => if b < a then fin a else fin b

/-- `math.Min`: `-Inf` wins over everything, then NaN. -/
def min : GoFloat → GoFloat → GoFloat
  | ninf, _ => ninf
  | _, ninf => ninf
  | nan, _ => nan
  | _, nan => nan
  | pinf, y => y
  | x, pinf => x
  | fin a, fin b => if a < b then fin a else fin b

/-- Nearest integer, halves away from zero. -/
def roundHalfAway (x : ℚ) : ℤ := if 0 ≤ x then ⌊x + 1 / 2⌋ else -⌊-x + 1 / 2⌋

/-- `math.Round`. -/
def round : GoFloat → GoFloat
  | fin a => fin (roundHalfAway a)
  | x => x

/-- `math.Floor`. -/
def floor : GoFloat → GoFloat
  | fin a => fin ⌊a⌋
  | x => x

/-- Integer part, rounding toward zero. -/
def truncate (x : ℚ) : ℤ := if 0 ≤ x then ⌊x⌋ else ⌈x⌉

/-- Conversion of a float to a signed integer of `w` bits: truncation toward
zero.  When the value does not fit (or is not finite) Go leaves the result to
the implementation; the model returns the least value of the type, which is
what the amd64 conversion instructions produce. -/
def toInt (w : ℕ) : GoFloat → ℤ
  | fin a => if -2 ^ (w - 1) ≤ truncate a ∧ truncate a < 2 ^ (w - 1) then truncate a
    else -2 ^ (w - 1)
  | _ => -2 ^ (w - 1)

/-- Conversion `uint8(v)`: through the 32-bit conversion, keeping the low byte. -/
def toUint8 (v : GoFloat) : ℕ := (toInt 32 v % 256).toNat

/-- Conversion `float32(v)` of a `float64`. -/
def toFloat32 : GoFloat → GoFloat
  | fin a => ofRat binary32 a
  | x => x

/-- Conversion of an integer to a float of the format. -/
def ofInt (fmt : Format) (n : ℤ) : GoFloat := ofRat fmt n

/-- A floating point constant of the source, rounded to `float64`. -/
def const64 (x : ℚ) : GoFloat := ofRat binary64 x

/-- A floating point constant of the source, rounded to `float32`. -/
def const32 (x : ℚ) : GoFloat := ofRat binary32 x

end GoFloat

/-! ## Data model (`spz.go`) -/

/-- One splat (`SplatData`). -/
structure SplatData where
  PositionX : GoFloat
  PositionY : GoFloat
  PositionZ : GoFloat
  ScaleX : GoFloat
  ScaleY : GoFloat
  ScaleZ : GoFloat
  RotationW : Nat
  RotationX : Nat
  RotationY : Nat
  RotationZ : Nat
  ColorR : Nat
  ColorG : Nat
  ColorB : Nat
  ColorA : Nat
  SH1 : List Nat
  SH2 : List Nat
  SH3 : List Nat
  deriving DecidableEq

/-- Header and points of a file (`SpzData`). -/
structure SpzData where
  Magic : Nat
  Version : Nat
  NumPoints : Nat
  ShDegree : Nat
  FractionalBits : Nat
  Flags : Nat
  Reserved : Nat
  Data : List SplatData
  deriving DecidableEq

/-- The header fields have the ranges of their Go types. -/
def SpzData.Typed (h : SpzData) : Prop :=
  h.Magic < 2 ^ 32 ∧ h.Version < 2 ^ 32 ∧ h.NumPoints < 2 ^ 32 ∧
    h.ShDegree < 256 ∧ h.FractionalBits < 256 ∧ h.Flags < 256 ∧ h.Reserved < 256

/-- Every element of a byte slice is a `uint8`. -/
def IsBytes (d : List Nat) : Prop := ∀ b ∈ d, b < 256

/-- `binary.LittleEndian.PutUint32`: the four bytes of a `uint32`. -/
def putUint32 (v : Nat) : List Nat :=
  [v % 256, (v >>> 8) % 256, (v >>> 16) % 256, (v >>> 24) % 256]

/-- `uint32(b0) | uint32(b1)<<8 | uint32(b2)<<16 | uint32(b3)<<24`. -/
def orUint32 (b0 b1 b2 b3 : Nat) : Nat :=
  (b0 ||| b1 <<< 8 ||| b2 <<< 16 ||| b3 <<< 24) % 2 ^ 32

/-- `SpzData.ToBytes`: the 16 header bytes. -/
def SpzData.ToBytes (h : SpzData) : List Nat :=
  putUint32 h.Magic ++ putUint32 h.Version ++ putUint32 h.NumPoints ++
    [h.ShDegree, h.FractionalBits, h.Flags, h.Reserved]

/-- `ParseSpzHeader`. -/
def ParseSpzHeader (data : List Nat) : Except SpzError SpzData :=
  match data with
  | d0 :: d1 :: d2 :: d3 :: d4 :: d5 :: d6 :: d7 :: d8 :: d9 :: d10 :: d11 ::
      d12 :: d13 :: d14 :: d15 :: _ =>
    let spzData : SpzData :=
      { Magic := orUint32 d0 d1 d2 d3
        Version := orUint32 d4 d5 d6 d7
        NumPoints := orUint32 d8 d9 d10 d11
        ShDegree := d12
        FractionalBits := d13
        Flags := d14
        Reserved := d15
        Data := [] }
    if spzData.Magic ≠ SPZ_MAGIC then .error .magicMismatch
    else if spzData.Version < 2 ∨ spzData.Version > 3 then
      .error (.unsupportedVersion spzData.Version)
    else if spzData.ShDegree > 3 then .error (.unsupportedShDegree spzData.ShDegree)
    else if spzData.FractionalBits ≠ 12 then
      .error (.unsupportedFractionalBits spzData.FractionalBits)
    else .ok spzData
  | _ => .error .insufficientHeader

/-- The little-endian `uint32` stored at offset `off` of `d` (positional value
of the four bytes; a missing byte counts as 0). -/
def leUint32At (d : List Nat) (off : Nat) : Nat :=
  d.getD off 0 + 256 * d.getD (off + 1) 0 + 65536 * d.getD (off + 2) 0 +
    16777216 * d.getD (off + 3) 0

/-! ## Scalar codecs (`utils.go`) -/

/-- `math.MaxFloat32`. -/
def maxFloat32 : ℚ := (2 ^ 24 - 1) * 2 ^ 104

/-- The constant `SH_C0`. -/
def SH_C0 : ℚ := 28209479177387814 / 10 ^ 17

/-- The constant `COLOR_SCALE`. -/
def COLOR_SCALE : ℚ := 2

/-- The constant `SQRT1_2` (`spz.go`). -/
def SQRT1_2 : ℚ := 7071067811865476 / 10 ^ 16

/-- Value of a 32-bit pattern read as `int32`. -/
def int32OfBits (u : Nat) : ℤ := if u % 2 ^ 32 < 2 ^ 31 then (u % 2 ^ 32 : ℕ) else (u % 2 ^ 32 : ℕ) - 2 ^ 32

/-- The 32-bit two's complement pattern of an integer. -/
def bitsOfInt32 (z : ℤ) : Nat := (z % 2 ^ 32).toNat

open GoFloat in
/-- `clipFloat32`. -/
def clipFloat32 (v : GoFloat) : GoFloat :=
  if lt v (fin (-maxFloat32)) then fin (-maxFloat32)
  else if lt (fin maxFloat32) v then fin maxFloat32
  else toFloat32 v

open GoFloat in
/-- `clipUint8`. -/
def clipUint8 (v : GoFloat) : Nat :=
  if lt v (fin 0) then 0
  else if lt (fin 255) v then 255
  else toUint8 v

open GoFloat in
/-- `spzDecodeScale`: `float32(val)/16.0 - 10.0`, in `float32` arithmetic. -/
def spzDecodeScale (val : Nat) : GoFloat :=
  sub binary32 (div binary32 (ofInt binary32 val) (const32 16)) (const32 10)

/-- The expression `int(1<<fractionalBits)` for a `uint8` shift count: the 64-bit
integer 1 shifted left. -/
def shiftOne (fractionalBits : Nat) : ℤ :=
  if fractionalBits < 63 then 2 ^ fractionalBits
  else if fractionalBits = 63 then -2 ^ 63
  else 0

open GoFloat in
/-- `spzDecodePosition`.  The three index expressions `bts[0]`, `bts[1]`, `bts[2]`
panic on a shorter slice. -/
def spzDecodePosition (bts : List Nat) (fractionalBits : Nat) : Except Fault GoFloat :=
  let scale := div binary64 (const64 1) (ofInt binary64 (shiftOne fractionalBits))
  match bts with
  | b0 :: b1 :: b2 :: _ =>
    let fixed32 := (b0 ||| b1 <<< 8 ||| b2 <<< 16) % 2 ^ 32
    let fixed32 := if fixed32 &&& 0x800000 ≠ 0 then fixed32 ||| 0xFF000000 else fixed32
    .ok (clipFloat32 (mul binary64 (ofInt binary64 (int32OfBits fixed32)) scale))
  | _ => .error .panic

open GoFloat in
/-- The expression `clipUint8(r*128.0 + 128.0)` shared by the rotation decoders. -/
def rotationByte (r : GoFloat) : Nat :=
  clipUint8 (add binary64 (mul binary64 r (const64 128)) (const64 128))

open GoFloat in
/-- `spzDecodeRotations` (version 2): returns `(w, x, y, z)`. -/
def spzDecodeRotations (rx ry rz : Nat) : Nat × Nat × Nat × Nat :=
  let r1 := sub binary64 (div binary64 (ofInt binary64 rx) (const64 (1275 / 10))) (const64 1)
  let r2 := sub binary64 (div binary64 (ofInt binary64 ry) (const64 (1275 / 10))) (const64 1)
  let r3 := sub binary64 (div binary64 (ofInt binary64 rz) (const64 (1275 / 10))) (const64 1)
  let sum := add binary64 (add binary64 (mul binary64 r1 r1) (mul binary64 r2 r2))
    (mul binary64 r3 r3)
  let r0 := sqrt (max (const64 0) (sub binary64 (const64 1) sum))
  (rotationByte r0, rotationByte r1, rotationByte r2, rotationByte r3)

/-- State of the unpacking loop of `spzDecodeRotationsV3`: the bits not yet
consumed, the running sum of squares and the four components. -/
structure UnpackState where
  remaining : Nat
  sumSquares : GoFloat
  rotation : Fin 4 → GoFloat

open GoFloat in
/-- One iteration of the loop `for i := 3; i >= 0; i--` of `spzDecodeRotationsV3`. -/
def unpackStep (index : Nat) (st : UnpackState) (i : Fin 4) : UnpackState :=
  if i.val ≠ index then
    let magnitude := ofInt binary64 (st.remaining &&& CMask : ℕ)
    let negbit := (st.remaining >>> 9) &&& 1
    let r := mul binary64 (const64 SQRT1_2) (div binary64 magnitude (ofInt binary64 CMask))
    let r := if negbit = 1 then neg r else r
    { remaining := st.remaining >>> 10
      sumSquares := add binary64 st.sumSquares (mul binary64 r r)
      rotation := Function.update st.rotation i r }
  else st

open GoFloat in
/-- `spzDecodeRotationsV3`: returns `(w, x, y, z)`.  `binary.LittleEndian.Uint32`
panics on fewer than four bytes. -/
def spzDecodeRotationsV3 (bs : List Nat) : Except Fault (Nat × Nat × Nat × Nat) :=
  match bs with
  | b0 :: b1 :: b2 :: b3 :: _ =>
    let comp := orUint32 b0 b1 b2 b3
    let index := comp >>> 30
    let st : UnpackState := ⟨comp, const64 0, fun _ => const64 0⟩
    let st := [3, 2, 1, 0].foldl (unpackStep index) st
    let own := sqrt (max (sub binary64 (const64 1) st.sumSquares) (const64 0))
    let rotation := fun i : Fin 4 => if i.val = index then own else st.rotation i
    .ok (rotationByte (rotation 0), rotationByte (rotation 1), rotationByte (rotation 2),
      rotationByte (rotation 3))
  | _ => .error .panic

open GoFloat in
/-- `spzDecodeColor`. -/
def spzDecodeColor (val : Nat) : Nat :=
  let fColor := div binary64
    (sub binary64 (div binary64 (ofInt binary64 val) (const64 255)) (const64 (1 / 2)))
    (const64 COLOR_SCALE)
  let original := mul binary64
    (add binary64 (mul binary64 fColor (const64 SH_C0)) (const64 (1 / 2))) (const64 255)
  clipUint8 original

/-- `spzDecodeSH1`. -/
def spzDecodeSH1 (val : Nat) : Nat := val

/-- `spzDecodeSH23`. -/
def spzDecodeSH23 (val : Nat) : Nat := val

open GoFloat in
/-- `clipUint8Round`. -/
def clipUint8Round (x : GoFloat) : Nat :=
  toUint8 (max (const64 0) (min (const64 255) (round x)))

/-- `uint32ToBytes`. -/
def uint32ToBytes (val : Nat) : List Nat := putUint32 val

open GoFloat in
/-- `encodeFloat32ToBytes3`. -/
def encodeFloat32ToBytes3 (f : GoFloat) : List Nat :=
  let fixed32 := bitsOfInt32 (toInt 32 (round (mul binary64 f (const64 4096))))
  [fixed32 % 256, (fixed32 >>> 8) % 256, (fixed32 >>> 16) % 256]

/-- `spzEncodePosition`. -/
def spzEncodePosition (val : GoFloat) : List Nat := encodeFloat32ToBytes3 val

open GoFloat in
/-- `spzEncodeColor`. -/
def spzEncodeColor (val : Nat) : Nat :=
  let fColor := div binary64
    (sub binary64 (div binary64 (ofInt binary64 val) (const64 255)) (const64 (1 / 2)))
    (const64 SH_C0)
  clipUint8Round (add binary64 (mul binary64 fColor (const64 (COLOR_SCALE * 255)))
    (const64 (1 / 2 * 255)))

open GoFloat in
/-- `spzEncodeScale`. -/
def spzEncodeScale (val : GoFloat) : Nat :=
  clipUint8Round (mul binary64 (add binary64 val (const64 10)) (const64 16))

open GoFloat in
/-- The expression `float64(b)/128.0 - 1.0` of the rotation encoders. -/
def rotationComponent (b : Nat) : GoFloat :=
  sub binary64 (div binary64 (ofInt binary64 b) (const64 128)) (const64 1)

open GoFloat in
/-- The expression `math.Sqrt(r0*r0 + r1*r1 + r2*r2 + r3*r3)`. -/
def quaternionLength (r0 r1 r2 r3 : GoFloat) : GoFloat :=
  sqrt (add binary64 (add binary64 (add binary64 (mul binary64 r0 r0) (mul binary64 r1 r1))
    (mul binary64 r2 r2)) (mul binary64 r3 r3))

open GoFloat in
/-- `spzEncodeRotations` (version 2). -/
def spzEncodeRotations (rw rx ry rz : Nat) : List Nat :=
  let r0 := rotationComponent rw
  let r1 := rotationComponent rx
  let r2 := rotationComponent ry
  let r3 := rotationComponent rz
  let flip := lt r0 (const64 0)
  let r0 := if flip then neg r0 else r0
  let r1 := if flip then neg r1 else r1
  let r2 := if flip then neg r2 else r2
  let r3 := if flip then neg r3 else r3
  let qlen := quaternionLength r0 r1 r2 r3
  let enc := fun r : GoFloat =>
    clipUint8Round (add binary64 (mul binary64 (div binary64 r qlen) (const64 (1275 / 10)))
      (const64 (1275 / 10)))
  [enc r1, enc r2, enc r3]

open GoFloat in
/-- The loop `for i := 1; i < 4; i++` of `spzEncodeRotationsV3` that selects the
index of the component of largest magnitude (the first one on ties). -/
def largestIndex (rotation : Fin 4 → GoFloat) : Fin 4 :=
  [1, 2, 3].foldl
    (fun index i => if lt (abs (rotation index)) (abs (rotation i)) then i else index) 0

open GoFloat in
/-- One iteration of the packing loop `for i := 0; i < 4; i++` of
`spzEncodeRotationsV3`; `remaining` is a `uint32`. -/
def packStep (index : Fin 4) (rotation : Fin 4 → GoFloat) (remaining : Nat) (i : Fin 4) : Nat :=
  if i ≠ index then
    let signBit := if lt (rotation i) (const64 0) then 1 else 0
    let component := div binary64 (abs (rotation i)) (const64 SQRT1_2)
    let magnitude := (toInt 64
      (add binary64 (mul binary64 (ofInt binary64 CMask) component) (const64 (1 / 2)))
        % 2 ^ 32).toNat
    ((remaining <<< 10) % 2 ^ 32 ||| (signBit <<< 9) ||| magnitude) % 2 ^ 32
  else remaining

open GoFloat in
/-- `spzEncodeRotationsV3`. -/
def spzEncodeRotationsV3 (rw rx ry rz : Nat) : List Nat :=
  let r0 := rotationComponent rw
  let r1 := rotationComponent rx
  let r2 := rotationComponent ry
  let r3 := rotationComponent rz
  let qlen := quaternionLength r0 r1 r2 r3
  let rotation : Fin 4 → GoFloat :=
    ![div binary64 r0 qlen, div binary64 r1 qlen, div binary64 r2 qlen, div binary64 r3 qlen]
  let index := largestIndex rotation
  let rotation : Fin 4 → GoFloat :=
    if lt (rotation index) (const64 0) then fun i => neg (rotation i) else rotation
  let remaining := [0, 1, 2, 3].foldl (packStep index rotation) index.val
  uint32ToBytes remaining

open GoFloat in
/-- `spzEncodeSH1`. -/
def spzEncodeSH1 (encodeSHval : Nat) : Nat :=
  let q := mul binary64
    (floor (div binary64 (add binary64 (ofInt binary64 encodeSHval) (const64 4)) (const64 8)))
    (const64 8)
  clipUint8 q

open GoFloat in
/-- `spzEncodeSH23`. -/
def spzEncodeSH23 (encodeSHval : Nat) : Nat :=
  let q := mul binary64
    (floor (div binary64 (add binary64 (ofInt binary64 encodeSHval) (const64 8)) (const64 16)))
    (const64 16)
  clipUint8 q

open GoFloat in
/-- `encodeSplatSH`. -/
def encodeSplatSH (val : GoFloat) : Nat :=
  clipUint8 (add binary64 (round (mul binary64 val (const64 128))) (const64 128))

/-! ## Slices -/

/-- Slice expression `xs[lo:hi]`; panics unless `lo ≤ hi ≤ len(xs)`.  (Go checks
`hi` against the capacity; the bound used here is the length, so an access the
model accepts is accepted by Go.) -/
def slice (xs : List Nat) (lo hi : Nat) : Except Fault (List Nat) :=
  if lo ≤ hi ∧ hi ≤ xs.length then .ok ((xs.take hi).drop lo) else .error .panic

/-- Slice expression `xs[lo:]`; panics unless `lo ≤ len(xs)`. -/
def sliceFrom (xs : List Nat) (lo : Nat) : Except Fault (List Nat) :=
  if lo ≤ xs.length then .ok (xs.drop lo) else .error .panic

/-- Index expression `xs[i]`; panics unless `i < len(xs)`. -/
def index (xs : List Nat) (i : Nat) : Except Fault Nat :=
  match xs[i]? with
  | some b => .ok b
  | none => .error .panic

/-- The bytes `f(xs[start]), f(xs[start+1]), ..., f(xs[start+n-1])`, read one
index expression at a time as the loops `for j := ...` of the reader and the
writer do. -/
def indexRun (f : Nat → Nat) (xs : List Nat) : Nat → Nat → Except Fault (List Nat)
  | _, 0 => .ok []
  | start, n + 1 => do
    let b ← index xs start
    let rest ← indexRun f xs (start + 1) n
    pure (f b :: rest)

/-! ## Reader (`read.go`) -/

/-- Byte length of the rotation section. -/
def rotationSize (h : SpzData) : Nat :=
  if h.Version ≥ 3 then h.NumPoints * 4 else h.NumPoints * 3

/-- Byte length of the spherical harmonics section (`shDim`). -/
def shDim (h : SpzData) : Nat :=
  match h.ShDegree with
  | 1 => h.NumPoints * 9
  | 2 => h.NumPoints * 24
  | 3 => h.NumPoints * 45
  | _ => 0

/-- The value `expectedSize` of `readSpzDatas`. -/
def expectedSize (h : SpzData) : Nat :=
  h.NumPoints * 9 + h.NumPoints + h.NumPoints * 3 + h.NumPoints * 3 + rotationSize h + shDim h

/-- The six sections `readSpzDatas` cuts the data into. -/
structure Sections where
  positions : List Nat
  alphas : List Nat
  colors : List Nat
  scales : List Nat
  rotations : List Nat
  shs : List Nat

/-- The `switch h.ShDegree` of the loop body of `readSpzDatas`: the buffers
`(SH1, SH2, SH3)` of point `i`. -/
def readSh (h : SpzData) (shs : List Nat) (i : Nat) :
    Except Fault (List Nat × List Nat × List Nat) :=
  match h.ShDegree with
  | 1 =>
    if i * 9 + 9 ≤ shs.length then do
      let sh1 ← indexRun spzDecodeSH1 shs (i * 9) 9
      pure (sh1, [], [])
    else pure ([], [], [])
  | 2 =>
    if i * 24 + 24 ≤ shs.length then do
      let lo ← indexRun spzDecodeSH1 shs (i * 24) 9
      let hi ← indexRun spzDecodeSH23 shs (i * 24 + 9) 15
      pure ([], lo ++ hi, [])
    else pure ([], [], [])
  | 3 =>
    if i * 45 + 45 ≤ shs.length then do
      let lo ← indexRun spzDecodeSH1 shs (i * 45) 9
      let hi ← indexRun spzDecodeSH23 shs (i * 45 + 9) 15
      let sh3 ← indexRun spzDecodeSH23 shs (i * 45 + 24) 21
      pure ([], lo ++ hi, sh3)
    else pure ([], [], [])
  | _ => pure ([], [], [])

/-- The rotation of point `i` (`if h.Version >= 3 ... else ...`). -/
def readRotation (h : SpzData) (rotations : List Nat) (i : Nat) :
    Except Fault (Nat × Nat × Nat × Nat) :=
  if h.Version ≥ 3 then do
    let bs ← slice rotations (i * 4) (i * 4 + 4)
    spzDecodeRotationsV3 bs
  else do
    let rx ← index rotations (i * 3)
    let ry ← index rotations (i * 3 + 1)
    let rz ← index rotations (i * 3 + 2)
    pure (spzDecodeRotations rx ry rz)

/-- The body of the loop `for i := range int(h.NumPoints)` of `readSpzDatas`. -/
def readPoint (h : SpzData) (s : Sections) (i : Nat) : Except Fault SplatData := do
  let bx ← slice s.positions (i * 9) (i * 9 + 3)
  let px ← spzDecodePosition bx h.FractionalBits
  let by_ ← slice s.positions (i * 9 + 3) (i * 9 + 6)
  let py ← spzDecodePosition by_ h.FractionalBits
  let bz ← slice s.positions (i * 9 + 6) (i * 9 + 9)
  let pz ← spzDecodePosition bz h.FractionalBits
  let a ← index s.alphas i
  let cr ← index s.colors (i * 3)
  let cg ← index s.colors (i * 3 + 1)
  let cb ← index s.colors (i * 3 + 2)
  let sx ← index s.scales (i * 3)
  let sy ← index s.scales (i * 3 + 1)
  let sz ← index s.scales (i * 3 + 2)
  let rot ← readRotation h s.rotations i
  let sh ← readSh h s.shs i
  pure
    { PositionX := px, PositionY := py, PositionZ := pz
      ColorA := a
      ColorR := spzDecodeColor cr, ColorG := spzDecodeColor cg, ColorB := spzDecodeColor cb
      ScaleX := spzDecodeScale sx, ScaleY := spzDecodeScale sy, ScaleZ := spzDecodeScale sz
      RotationW := rot.1, RotationX := rot.2.1, RotationY := rot.2.2.1, RotationZ := rot.2.2.2
      SH1 := sh.1, SH2 := sh.2.1, SH3 := sh.2.2 }

/-- The loop of `readSpzDatas` from index `i` on, `n` iterations: the points in
the order they are appended. -/
def readPoints (h : SpzData) (s : Sections) : Nat → Nat → Except Fault (List SplatData)
  | 0, _ => .ok []
  | n + 1, i => do
    let p ← readPoint h s i
    let rest ← readPoints h s n (i + 1)
    pure (p :: rest)

/-- `readSpzDatas`. -/
def readSpzDatas (datas : List Nat) (h : SpzData) : Except Fault (List SplatData) :=
  let positionSize := h.NumPoints * 9
  let alphaSize := h.NumPoints
  let colorSize := h.NumPoints * 3
  let scaleSize := h.NumPoints * 3
  if datas.length ≠ expectedSize h then .error (.spz .dataSize)
  else
    let offsetPositions := 0
    let offsetAlphas := offsetPositions + positionSize
    let offsetColors := offsetAlphas + alphaSize
    let offsetScales := offsetColors + colorSize
    let offsetRotations := offsetScales + scaleSize
    let offsetShs := offsetRotations + rotationSize h
    do
      let positions ← slice datas offsetPositions offsetAlphas
      let alphas ← slice datas offsetAlphas offsetColors
      let colors ← slice datas offsetColors offsetScales
      let scales ← slice datas offsetScales offsetRotations
      let rotations ← slice datas offsetRotations offsetShs
      let shs ← sliceFrom datas offsetShs
      readPoints h ⟨positions, alphas, colors, scales, rotations, shs⟩ h.NumPoints 0

/-- The part of `ReadSpz` that follows decompression: from the decompressed
bytes to the header with its points. -/
def ReadSpz (ungzipDatas : List Nat) : Except Fault SpzData :=
  if ungzipDatas.length < HeaderSizeSpz then .error (.spz .insufficientHeader)
  else
    match slice ungzipDatas 0 HeaderSizeSpz with
    | .error f => .error f
    | .ok hd =>
      match ParseSpzHeader hd with
      | .error e => .error (.spz e)
      | .ok spzData =>
        if ungzipDatas.length > HeaderSizeSpz then
          match sliceFrom ungzipDatas HeaderSizeSpz with
          | .error f => .error f
          | .ok rest =>
            match readSpzDatas rest spzData with
            | .error f => .error f
            | .ok pts => .ok { spzData with Data := pts }
        else .ok { spzData with Data := [] }

/-! ## Writer (`write.go`) -/

/-- The placeholder bytes `encodeSplatSH(0.0)` of the writer, `n` of them. -/
def shPlaceholder (n : Nat) : List Nat := List.replicate n (encodeSplatSH (GoFloat.const64 0))

/-- The spherical harmonics bytes the writer appends for one row
(`switch spzData.ShDegree`). -/
def writeSh (shDegree : Nat) (row : SplatData) : Except Fault (List Nat) :=
  match shDegree with
  | 1 =>
    if row.SH1.length > 0 then indexRun spzEncodeSH1 row.SH1 0 9
    else if row.SH2.length > 0 then indexRun spzEncodeSH1 row.SH2 0 9
    else pure (shPlaceholder 9)
  | 2 =>
    if row.SH1.length > 0 then do
      let lo ← indexRun spzEncodeSH1 row.SH1 0 9
      pure (lo ++ shPlaceholder 15)
    else if row.SH2.length > 0 then do
      let lo ← indexRun spzEncodeSH1 row.SH2 0 9
      let hi ← indexRun spzEncodeSH23 row.SH2 9 15
      pure (lo ++ hi)
    else pure (shPlaceholder 24)
  | 3 =>
    if row.SH3.length > 0 then do
      let lo ← indexRun spzEncodeSH1 row.SH2 0 9
      let hi ← indexRun spzEncodeSH23 row.SH2 9 15
      let sh3 ← indexRun spzEncodeSH23 row.SH3 0 21
      pure (lo ++ hi ++ sh3)
    else if row.SH2.length > 0 then do
      let lo ← indexRun spzEncodeSH1 row.SH2 0 9
      let hi ← indexRun spzEncodeSH23 row.SH2 9 15
      pure (lo ++ hi ++ shPlaceholder 21)
    else if row.SH1.length > 0 then do
      let lo ← indexRun spzEncodeSH1 row.SH1 0 9
      pure (lo ++ shPlaceholder 36)
    else pure (shPlaceholder 45)
  | _ => pure []

/-- A loop `for i := range rows` that appends `f rows[i]` to the buffer. -/
def appendRows (f : SplatData → Except Fault (List Nat)) :
    List SplatData → Except Fault (List Nat)
  | [] => .ok []
  | row :: rows => do
    let a ← f row
    let rest ← appendRows f rows
    pure (a ++ rest)

/-- The rotation bytes of one row (`if spzData.Version >= 3 ... else ...`). -/
def writeRotation (version : Nat) (row : SplatData) : List Nat :=
  if version ≥ 3 then
    spzEncodeRotationsV3 row.RotationW row.RotationX row.RotationY row.RotationZ
  else spzEncodeRotations row.RotationW row.RotationX row.RotationY row.RotationZ

/-- The buffer `bts` that `WriteSpz` hands to the compressor: the header and
the field-grouped sections. -/
def WriteSpz (spzData : SpzData) : Except Fault (List Nat) := do
  let rows := spzData.Data
  let positions := rows.flatMap fun row =>
    spzEncodePosition row.PositionX ++ spzEncodePosition row.PositionY ++
      spzEncodePosition row.PositionZ
  let alphas := rows.map fun row => row.ColorA
  let colors := rows.flatMap fun row =>
    [spzEncodeColor row.ColorR, spzEncodeColor row.ColorG, spzEncodeColor row.ColorB]
  let scales := rows.flatMap fun row =>
    [spzEncodeScale row.ScaleX, spzEncodeScale row.ScaleY, spzEncodeScale row.ScaleZ]
  let rotations := rows.flatMap (writeRotation spzData.Version)
  let shs ← appendRows (writeSh spzData.ShDegree) rows
  pure (spzData.ToBytes ++ positions ++ alphas ++ colors ++ scales ++ rotations ++ shs)

/-! ## Predicates and sample inputs used by the statements -/

/-- The acceptance condition of the header parser, stated on the bytes. -/
def HeaderAccepted (d : List Nat) : Prop :=
  16 ≤ d.length ∧ leUint32At d 0 = SPZ_MAGIC ∧ (leUint32At d 4 = 2 ∨ leUint32At d 4 = 3) ∧
    d.getD 12 0 ≤ 3 ∧ d.getD 13 0 = 12

/-- The header of the cloud of `TestReadWriteSpz`. -/
def testHeader : SpzData := ⟨SPZ_MAGIC, 2, 3, 1, 12, 0, 0, []⟩

/-- The sixteen bytes of `testHeader`. -/
def testHeaderBytes : List Nat := [0x4e, 0x47, 0x53, 0x50, 2, 0, 0, 0, 3, 0, 0, 0, 1, 12, 0, 0]

/-- The buffer lengths the reader produces for a given degree. -/
def ShShape (degree : Nat) (sh1 sh2 sh3 : List Nat) : Prop :=
  (degree = 0 → sh1 = [] ∧ sh2 = [] ∧ sh3 = []) ∧
  (degree = 1 → sh1.length = 9 ∧ sh2 = [] ∧ sh3 = []) ∧
  (degree = 2 → sh2.length = 24 ∧ sh1 = [] ∧ sh3 = []) ∧
  (degree = 3 → sh2.length = 24 ∧ sh3.length = 21 ∧ sh1 = [])

/-- The section lengths `readSpzDatas` relies on. -/
structure Sections.Sized (s : Sections) (h : SpzData) : Prop where
  positions : s.positions.length = h.NumPoints * 9
  alphas : s.alphas.length = h.NumPoints
  colors : s.colors.length = h.NumPoints * 3
  scales : s.scales.length = h.NumPoints * 3
  rotations : s.rotations.length = rotationSize h
  shs : s.shs.length = shDim h

/-- The sections of a data block of the expected length, by absolute offsets. -/
def cutSections (datas : List Nat) (h : SpzData) : Sections :=
  let n := h.NumPoints
  { positions := (datas.take (0 + n * 9)).drop 0
    alphas := (datas.take (0 + n * 9 + n)).drop (0 + n * 9)
    colors := (datas.take (0 + n * 9 + n + n * 3)).drop (0 + n * 9 + n)
    scales := (datas.take (0 + n * 9 + n + n * 3 + n * 3)).drop (0 + n * 9 + n + n * 3)
    rotations := (datas.take (0 + n * 9 + n + n * 3 + n * 3 + rotationSize h)).drop
      (0 + n * 9 + n + n * 3 + n * 3)
    shs := datas.drop (0 + n * 9 + n + n * 3 + n * 3 + rotationSize h) }

/-- The section length the format prescribes: `NumPoints * (16 + r + s)` with
`r` the rotation bytes of the version and `s` the harmonics bytes of the degree. -/
def sectionLength (h : SpzData) : Nat :=
  h.NumPoints * (16 + (if h.Version < 3 then 3 else 4) +
    (if h.ShDegree = 1 then 9 else if h.ShDegree = 2 then 24
      else if h.ShDegree = 3 then 45 else 0))

/-- The first point of the cloud of `TestReadWriteSpz`; the scales are the
`float32` values of 0.1, 0.2 and 0.3. -/
def testPoint : SplatData :=
  { PositionX := .fin (3 / 2), PositionY := .fin (5 / 2), PositionZ := .fin (7 / 2)
    ScaleX := .fin (13421773 / 134217728), ScaleY := .fin (13421773 / 67108864)
    ScaleZ := .fin (5033165 / 16777216)
    RotationW := 128, RotationX := 138, RotationY := 148, RotationZ := 158
    ColorR := 255, ColorG := 128, ColorB := 64, ColorA := 200
    SH1 := [100, 110, 120, 130, 140, 150, 160, 170, 180], SH2 := [], SH3 := [] }

/-- A cloud of one point: version 2, degree 1. -/
def testCloud : SpzData := ⟨SPZ_MAGIC, 2, 1, 1, 12, 0, 0, [testPoint]⟩

/-- The data section the writer produces for `testCloud` (28 bytes). -/
def testData : List Nat :=
  [0, 24, 0, 0, 40, 0, 0, 56, 0, 200, 255, 131, 0, 162, 163, 165, 162, 196, 230,
    104, 112, 120, 128, 144, 152, 160, 168, 184]

/-- The point the reader decodes from `testData`. -/
def testDecoded : SplatData :=
  { PositionX := .fin (3 / 2), PositionY := .fin (5 / 2), PositionZ := .fin (7 / 2)
    ScaleX := .fin (1 / 8), ScaleY := .fin (3 / 16), ScaleZ := .fin (5 / 16)
    RotationW := 128, RotationX := 162, RotationY := 196, RotationZ := 230
    ColorR := 145, ColorG := 127, ColorB := 109, ColorA := 200
    SH1 := [104, 112, 120, 128, 144, 152, 160, 168, 184], SH2 := [], SH3 := [] }

/-- The harmonics buffers of a row are empty or of nominal length, and `SH3` is
present only together with `SH2`. -/
def NominalSh (row : SplatData) : Prop :=
  (row.SH1 = [] ∨ row.SH1.length = 9) ∧ (row.SH2 = [] ∨ row.SH2.length = 24) ∧
    (row.SH3 = [] ∨ row.SH3.length = 21) ∧ (row.SH3 ≠ [] → row.SH2 ≠ [])

/-- A cloud the writer is meant for: valid header fields, `NumPoints` (a `uint32`)
equal to the number of rows, nominal harmonics buffers. -/
structure WellFormed (c : SpzData) : Prop where
  magic : c.Magic = SPZ_MAGIC
  version : c.Version = 2 ∨ c.Version = 3
  shDegree : c.ShDegree ≤ 3
  fractionalBits : c.FractionalBits = 12
  numPoints : c.NumPoints = c.Data.length
  numPointsRange : c.NumPoints < 2 ^ 32
  sh : ∀ row ∈ c.Data, NominalSh row

/-- Harmonics bytes per point for a degree. -/
def shBytes (degree : Nat) : Nat :=
  if degree = 1 then 9 else if degree = 2 then 24 else if degree = 3 then 45 else 0

/-- The data section the writer lays out before the harmonics: positions,
opacities, colours, scales and rotations of all rows, in this order. -/
def fixedSections (c : SpzData) : List Nat :=
  (c.Data.flatMap fun row =>
      spzEncodePosition row.PositionX ++ spzEncodePosition row.PositionY ++
        spzEncodePosition row.PositionZ) ++
    ((c.Data.map fun row => row.ColorA) ++
      ((c.Data.flatMap fun row =>
          [spzEncodeColor row.ColorR, spzEncodeColor row.ColorG, spzEncodeColor row.ColorB]) ++
        ((c.Data.flatMap fun row =>
            [spzEncodeScale row.ScaleX, spzEncodeScale row.ScaleY, spzEncodeScale row.ScaleZ]) ++
          c.Data.flatMap (writeRotation c.Version))))

/-- The rational `v` is a value of `float32`: converting it yields itself. -/
def IsFloat32 (v : ℚ) : Prop := GoFloat.ofRat GoFloat.binary32 v = GoFloat.fin v

instance (v : ℚ) : Decidable (IsFloat32 v) :=
  inferInstanceAs (Decidable (GoFloat.ofRat GoFloat.binary32 v = GoFloat.fin v))

/-- The `float32` nearest to 0.1 (`ScaleX` of the first point of `TestReadWriteSpz`). -/
def float32Tenth : ℚ := 13421773 / 134217728

/-- The signed 24-bit integer spelled by three little-endian bytes: with
`u = b0 + 256 * b1 + 65536 * b2`, the value `u` when `u < 2 ^ 23` and
`u - 2 ^ 24` otherwise. -/
def signed24 (b0 b1 b2 : Nat) : ℤ :=
  if b0 + 256 * b1 + 65536 * b2 < 2 ^ 23 then ((b0 + 256 * b1 + 65536 * b2 : ℕ) : ℤ)
  else ((b0 + 256 * b1 + 65536 * b2 : ℕ) : ℤ) - 2 ^ 24

/-- A row that carries both a 9-byte `SH1` and a 24-byte `SH2` buffer. -/
def bothShRow : SplatData :=
  { testPoint with
    SH1 := [8, 8, 8, 8, 8, 8, 8, 8, 8]
    SH2 := [200, 200, 200, 200, 200, 200, 200, 200, 200, 200, 200, 200, 200, 200, 200, 200,
      200, 200, 200, 200, 200, 200, 200, 200] }

/-- A row that carries a 21-byte `SH3` buffer and nothing else. -/
def sh3OnlyRow : SplatData :=
  { testPoint with
    SH1 := []
    SH3 := [200, 200, 200, 200, 200, 200, 200, 200, 200, 200, 200, 200, 200, 200, 200, 200,
      200, 200, 200, 200, 200] }

/-- The band-quantised image of a 24-byte buffer: `spzEncodeSH1` on the first 9
bytes, `spzEncodeSH23` on the other 15. -/
def bandQuantised (sh2 : List Nat) : List Nat :=
  (sh2.take 9).map spzEncodeSH1 ++ ((sh2.drop 9).take 15).map spzEncodeSH23

/-- The 45 bytes the degree 3 selection is said to emit, case by case as the
statement words it: both `SH2` and `SH3`; only `SH2`; only `SH1`; 45 placeholders
for every other combination. -/
def statedSh3 (row : SplatData) : List Nat :=
  if row.SH2 ≠ [] ∧ row.SH3 ≠ [] then
    bandQuantised row.SH2 ++ (row.SH3.take 21).map spzEncodeSH23
  else if row.SH2 ≠ [] ∧ row.SH1 = [] ∧ row.SH3 = [] then
    bandQuantised row.SH2 ++ List.replicate 21 128
  else if row.SH1 ≠ [] ∧ row.SH2 = [] ∧ row.SH3 = [] then
    (row.SH1.take 9).map spzEncodeSH1 ++ List.replicate 36 128
  else List.replicate 45 128

/-- The 45 bytes of the degree 3 selection as an ordered choice: `SH3` (with
`SH2`) first, then `SH2`, then `SH1`, then placeholders. -/
def orderedSh3 (row : SplatData) : List Nat :=
  if row.SH3 ≠ [] then bandQuantised row.SH2 ++ (row.SH3.take 21).map spzEncodeSH23
  else if row.SH2 ≠ [] then bandQuantised row.SH2 ++ List.replicate 21 128
  else if row.SH1 ≠ [] then (row.SH1.take 9).map spzEncodeSH1 ++ List.replicate 36 128
  else List.replicate 45 128

/-! ## Rotation V3: parts of the encoder and of the decoder -/

open GoFloat in
/-- The value `signBit` computed in the packing loop of `spzEncodeRotationsV3`. -/
def rotationSignBit (r : GoFloat) : Nat := if lt r (const64 0) then 1 else 0

open GoFloat in
/-- The value `magnitude` computed in the packing loop of `spzEncodeRotationsV3`. -/
def rotationMagnitude (r : GoFloat) : Nat :=
  (toInt 64
    (add binary64 (mul binary64 (ofInt binary64 CMask) (div binary64 (abs r) (const64 SQRT1_2)))
      (const64 (1 / 2))) % 2 ^ 32).toNat

/-- The 10-bit field `(signBit << 9) | magnitude` of a component. -/
def rotationField (r : GoFloat) : Nat := (rotationSignBit r <<< 9) ||| rotationMagnitude r

open GoFloat in
/-- The slice `rotation` of `spzEncodeRotationsV3` before the index is chosen. -/
def normalisedRotation (rw rx ry rz : Nat) : Fin 4 → GoFloat :=
  let r0 := rotationComponent rw
  let r1 := rotationComponent rx
  let r2 := rotationComponent ry
  let r3 := rotationComponent rz
  let qlen := quaternionLength r0 r1 r2 r3
  ![div binary64 r0 qlen, div binary64 r1 qlen, div binary64 r2 qlen, div binary64 r3 qlen]

/-- The value of `index` chosen by `spzEncodeRotationsV3`. -/
def encoderIndex (rw rx ry rz : Nat) : Fin 4 := largestIndex (normalisedRotation rw rx ry rz)

open GoFloat in
/-- The slice `rotation` of `spzEncodeRotationsV3` after the conditional sign flip. -/
def canonicalRotation (rw rx ry rz : Nat) : Fin 4 → GoFloat :=
  if lt (normalisedRotation rw rx ry rz (encoderIndex rw rx ry rz)) (const64 0) then
    fun i => neg (normalisedRotation rw rx ry rz i)
  else normalisedRotation rw rx ry rz

/-- The final value of `remaining` in `spzEncodeRotationsV3`, the word handed to
`uint32ToBytes`. -/
def encoderWord (rw rx ry rz : Nat) : Nat :=
  [0, 1, 2, 3].foldl (packStep (encoderIndex rw rx ry rz) (canonicalRotation rw rx ry rz))
    (encoderIndex rw rx ry rz).val

/-- The exact value `b/128 - 1` of a rotation byte. -/
def byteComponent (b : Nat) : ℚ := (b : ℚ) / 128 - 1

/-- The quaternion `(b/128 - 1)` of four rotation bytes. -/
def byteQuaternion (rw rx ry rz : Nat) : Fin 4 → ℚ :=
  ![byteComponent rw, byteComponent rx, byteComponent ry, byteComponent rz]

/-- Squared length of a quaternion. -/
def normSq (q : Fin 4 → ℚ) : ℚ := q 0 ^ 2 + q 1 ^ 2 + q 2 ^ 2 + q 3 ^ 2

/-- Dot product of two quaternions. -/
def dot (p q : Fin 4 → ℚ) : ℚ := p 0 * q 0 + p 1 * q 1 + p 2 * q 2 + p 3 * q 3

/-- The lowest index other than `index`. -/
def lowestOther (index : Fin 4) : Fin 4 := if index = 0 then 1 else 0

/-- The middle one of the three indices other than `index`. -/
def middleOther (index : Fin 4) : Fin 4 := if index ≤ 1 then 2 else 1

/-- The highest index other than `index`. -/
def highestOther (index : Fin 4) : Fin 4 := if index = 3 then 2 else 3

open GoFloat in
/-- The state of the loop `for i := 3; i >= 0; i--` of `spzDecodeRotationsV3` on
the word `comp` when it reaches component `i`: the iterations for the higher
indices have run. -/
def unpackStateAt (comp : Nat) (i : Fin 4) : UnpackState :=
  (([3, 2, 1, 0] : List (Fin 4)).filter (fun j => i < j)).foldl (unpackStep (comp >>> 30))
    ⟨comp, const64 0, fun _ => const64 0⟩

/-- The value `remaining & CMask` the decoder reads for component `i`. -/
def decoderMagnitude (comp : Nat) (i : Fin 4) : Nat := (unpackStateAt comp i).remaining &&& CMask

/-- The value `(remaining >> 9) & 0x1` the decoder reads for component `i`. -/
def decoderSignBit (comp : Nat) (i : Fin 4) : Nat :=
  ((unpackStateAt comp i).remaining >>> 9) &&& 1

/-- The value `comp` that `spzDecodeRotationsV3` reads from the first four bytes
(0 when there are fewer, where the decoder panics). -/
def decoderWord (bs : List Nat) : Nat :=
  match bs with
  | b0 :: b1 :: b2 :: b3 :: _ => orUint32 b0 b1 b2 b3
  | _ => 0

/-- A 32-bit word holds `index` in bits 31-30 and the fields `top`, `mid`, `low` in
bits 29-20, 19-10 and 9-0. -/
def V3Layout (word index top mid low : Nat) : Prop :=
  word >>> 30 = index ∧ (word >>> 20) % 1024 = top ∧ (word >>> 10) % 1024 = mid ∧
    word % 1024 = low

instance (word index top mid low : Nat) : Decidable (V3Layout word index top mid low) := by
  unfold V3Layout
  infer_instance

/-- The layout in descending index order: the field of the highest-index
non-omitted component in bits 29-20, of the lowest-index one in bits 9-0. -/
def DescendingLayout (rw rx ry rz : Nat) : Prop :=
  V3Layout (leUint32At (spzEncodeRotationsV3 rw rx ry rz) 0) (encoderIndex rw rx ry rz).val
    (rotationField (canonicalRotation rw rx ry rz (highestOther (encoderIndex rw rx ry rz))))
    (rotationField (canonicalRotation rw rx ry rz (middleOther (encoderIndex rw rx ry rz))))
    (rotationField (canonicalRotation rw rx ry rz (lowestOther (encoderIndex rw rx ry rz))))

/-- The layout in ascending index order: the field of the lowest-index non-omitted
component in bits 29-20, of the highest-index one in bits 9-0. -/
def AscendingLayout (rw rx ry rz : Nat) : Prop :=
  V3Layout (leUint32At (spzEncodeRotationsV3 rw rx ry rz) 0) (encoderIndex rw rx ry rz).val
    (rotationField (canonicalRotation rw rx ry rz (lowestOther (encoderIndex rw rx ry rz))))
    (rotationField (canonicalRotation rw rx ry rz (middleOther (encoderIndex rw rx ry rz))))
    (rotationField (canonicalRotation rw rx ry rz (highestOther (encoderIndex rw rx ry rz))))

instance (rw rx ry rz : Nat) : Decidable (DescendingLayout rw rx ry rz) := by
  unfold DescendingLayout
  infer_instance

instance (rw rx ry rz : Nat) : Decidable (AscendingLayout rw rx ry rz) := by
  unfold AscendingLayout
  infer_instance

open GoFloat in
/-- The component the decoding loop computes from the low ten bits of `remaining`. -/
def unpackComponent (remaining : Nat) : GoFloat :=
  let magnitude := ofInt binary64 (remaining &&& CMask : ℕ)
  let negbit := (remaining >>> 9) &&& 1
  let r := mul binary64 (const64 SQRT1_2) (div binary64 magnitude (ofInt binary64 CMask))
  if negbit = 1 then neg r else r

open GoFloat in
/-- The slice `rotation` of `spzDecodeRotationsV3` on the word `comp`, after the
omitted component has been restored. -/
def decodedRotation (comp : Nat) : Fin 4 → GoFloat :=
  let index := comp >>> 30
  let st : UnpackState := ⟨comp, const64 0, fun _ => const64 0⟩
  let st := [3, 2, 1, 0].foldl (unpackStep index) st
  let own := sqrt (max (sub binary64 (const64 1) st.sumSquares) (const64 0))
  fun i : Fin 4 => if i.val = index then own else st.rotation i

/-! ## Rotation V2: parts of the decoder -/

open GoFloat in
/-- The expression `float64(b)/127.5 - 1.0` of `spzDecodeRotations`. -/
def storedComponent (b : Nat) : GoFloat :=
  sub binary64 (div binary64 (ofInt binary64 b) (const64 (1275 / 10))) (const64 1)

open GoFloat in
/-- The value `r0` of `spzDecodeRotations`:
`math.Sqrt(math.Max(0.0, 1.0-(r1*r1+r2*r2+r3*r3)))`. -/
def reconstructedW (rx ry rz : Nat) : GoFloat :=
  let r1 := storedComponent rx
  let r2 := storedComponent ry
  let r3 := storedComponent rz
  let sum := add binary64 (add binary64 (mul binary64 r1 r1) (mul binary64 r2 r2))
    (mul binary64 r3 r3)
  sqrt (max (const64 0) (sub binary64 (const64 1) sum))

open GoFloat in
/-- The byte `round(r*128.0 + 128.0)` clamped to `[0, 255]`, through
`clipUint8Round`. -/
def roundedRotationByte (r : GoFloat) : Nat :=
  clipUint8Round (add binary64 (mul binary64 r (const64 128)) (const64 128))

/-- The decoder of version 2 with every output byte rounded to nearest instead of
passed to `clipUint8`. -/
def roundedDecodeRotations (rx ry rz : Nat) : Nat × Nat × Nat × Nat :=
  (roundedRotationByte (reconstructedW rx ry rz), roundedRotationByte (storedComponent rx),
    roundedRotationByte (storedComponent ry), roundedRotationByte (storedComponent rz))

/-! ## Inputs and predicates for the colour codec and the unguarded harmonics branch -/

/-- Each harmonics buffer of a row is empty or of nominal length (9, 24, 21). -/
def NominalLengths (row : SplatData) : Prop :=
  (row.SH1 = [] ∨ row.SH1.length = 9) ∧ (row.SH2 = [] ∨ row.SH2.length = 24) ∧
    (row.SH3 = [] ∨ row.SH3.length = 21)

/-- A cloud of one point at degree 3 whose row carries a 21-byte `SH3` buffer and
no `SH2`: version 2, valid header, `NumPoints = 1`. -/
def sh3OnlyCloud : SpzData := ⟨SPZ_MAGIC, 2, 1, 3, 12, 0, 0, [sh3OnlyRow]⟩

/-- The bytes that come back unchanged from the colour codec. -/
def colorFixedBytes : List Nat :=
  [109, 111, 112, 113, 114, 115, 116, 122, 123, 124, 125, 126, 127, 134, 135, 136, 137, 138, 145]

/-- The image of a byte under encoding and decoding of a colour, in closed form. -/
def colorImage (v : Nat) : Nat :=
  if v ≤ 110 then 109 else if 145 ≤ v then 145 else if v ∈ colorFixedBytes then v else v - 1

/-- The condition under which the writer can emit the harmonics of a row at a
degree: buffers empty or of nominal length and, at degree 3 only, `SH3` present
only together with `SH2`. -/
def ShGuarded (degree : Nat) (row : SplatData) : Prop :=
  NominalLengths row ∧ (degree = 3 → row.SH3 ≠ [] → row.SH2 ≠ [])

/-! # Lemmas and theorems -/

/-! ## Header lemmas -/

theorem orUint32_eq (b0 b1 b2 b3 : Nat) (h0 : b0 < 256) (h1 : b1 < 256) (h2 : b2 < 256)
    (h3 : b3 < 256) : orUint32 b0 b1 b2 b3 = b0 + 256 * b1 + 65536 * b2 + 16777216 * b3 := by
  unfold orUint32
  have e1 : b0 ||| b1 <<< 8 = 2 ^ 8 * b1 + b0 := by
    rw [Nat.or_comm, Nat.shiftLeft_eq, Nat.mul_comm b1]
    exact (Nat.mul_add_lt_is_or (by omega) b1).symm
  have e2 : (2 ^ 8 * b1 + b0) ||| b2 <<< 16 = 2 ^ 16 * b2 + (2 ^ 8 * b1 + b0) := by
    rw [Nat.or_comm, Nat.shiftLeft_eq, Nat.mul_comm b2]
    exact (Nat.mul_add_lt_is_or (by omega) b2).symm
  have e3 : (2 ^ 16 * b2 + (2 ^ 8 * b1 + b0)) ||| b3 <<< 24
      = 2 ^ 24 * b3 + (2 ^ 16 * b2 + (2 ^ 8 * b1 + b0)) := by
    rw [Nat.or_comm, Nat.shiftLeft_eq, Nat.mul_comm b3]
    exact (Nat.mul_add_lt_is_or (by omega) b3).symm
  rw [e1, e2, e3]
  omega

theorem putUint32_parts (v : Nat) (hv : v < 2 ^ 32) :
    orUint32 (v % 256) ((v >>> 8) % 256) ((v >>> 16) % 256) ((v >>> 24) % 256) = v := by
  rw [orUint32_eq _ _ _ _ (Nat.mod_lt _ (by norm_num)) (Nat.mod_lt _ (by norm_num))
    (Nat.mod_lt _ (by norm_num)) (Nat.mod_lt _ (by norm_num))]
  simp only [Nat.shiftRight_eq_div_pow]
  omega

theorem ParseSpzHeader_short (d : List Nat) (h : d.length < 16) :
    ParseSpzHeader d = .error .insufficientHeader := by
  rcases d with _ | ⟨d0, _ | ⟨d1, _ | ⟨d2, _ | ⟨d3, _ | ⟨d4, _ | ⟨d5, _ | ⟨d6, _ | ⟨d7,
    _ | ⟨d8, _ | ⟨d9, _ | ⟨d10, _ | ⟨d11, _ | ⟨d12, _ | ⟨d13, _ | ⟨d14, _ | ⟨d15, r⟩⟩⟩⟩⟩⟩⟩⟩⟩⟩⟩⟩⟩⟩⟩⟩
  all_goals first
    | rfl
    | (simp only [List.length_cons] at h; omega)

theorem exists_cons16 (d : List Nat) (h : 16 ≤ d.length) :
    ∃ d0 d1 d2 d3 d4 d5 d6 d7 d8 d9 d10 d11 d12 d13 d14 d15 r,
      d = d0 :: d1 :: d2 :: d3 :: d4 :: d5 :: d6 :: d7 :: d8 :: d9 :: d10 :: d11 :: d12 ::
        d13 :: d14 :: d15 :: r := by
  rcases d with _ | ⟨d0, _ | ⟨d1, _ | ⟨d2, _ | ⟨d3, _ | ⟨d4, _ | ⟨d5, _ | ⟨d6, _ | ⟨d7,
    _ | ⟨d8, _ | ⟨d9, _ | ⟨d10, _ | ⟨d11, _ | ⟨d12, _ | ⟨d13, _ | ⟨d14, _ | ⟨d15, r⟩⟩⟩⟩⟩⟩⟩⟩⟩⟩⟩⟩⟩⟩⟩⟩
  all_goals first
    | exact ⟨_, _, _, _, _, _, _, _, _, _, _, _, _, _, _, _, _, rfl⟩
    | (simp only [List.length_cons, List.length_nil] at h; omega)


theorem ParseSpzHeader_cons (d0 d1 d2 d3 d4 d5 d6 d7 d8 d9 d10 d11 d12 d13 d14 d15 : Nat)
    (r : List Nat) :
    ParseSpzHeader (d0 :: d1 :: d2 :: d3 :: d4 :: d5 :: d6 :: d7 :: d8 :: d9 :: d10 :: d11 ::
      d12 :: d13 :: d14 :: d15 :: r) =
    if orUint32 d0 d1 d2 d3 ≠ SPZ_MAGIC then .error .magicMismatch
    else if orUint32 d4 d5 d6 d7 < 2 ∨ orUint32 d4 d5 d6 d7 > 3 then
      .error (.unsupportedVersion (orUint32 d4 d5 d6 d7))
    else if d12 > 3 then .error (.unsupportedShDegree d12)
    else if d13 ≠ 12 then .error (.unsupportedFractionalBits d13)
    else .ok ⟨orUint32 d0 d1 d2 d3, orUint32 d4 d5 d6 d7, orUint32 d8 d9 d10 d11, d12, d13,
      d14, d15, []⟩ := rfl

theorem ParseSpzHeader_ToBytes_eq (h : SpzData) (hn : h.NumPoints < 2 ^ 32)
    (hm : h.Magic = SPZ_MAGIC) (hv : h.Version = 2 ∨ h.Version = 3) (hs : h.ShDegree ≤ 3)
    (hf : h.FractionalBits = 12) : ParseSpzHeader h.ToBytes = .ok { h with Data := [] } := by
  have hM : h.Magic < 2 ^ 32 := by rw [hm]; norm_num [SPZ_MAGIC]
  have hV : h.Version < 2 ^ 32 := by rcases hv with hv | hv <;> rw [hv] <;> norm_num
  simp only [SpzData.ToBytes, putUint32, List.cons_append, List.nil_append]
  rw [ParseSpzHeader_cons, putUint32_parts _ hM, putUint32_parts _ hV, putUint32_parts _ hn]
  have h1 : ¬ h.Magic ≠ SPZ_MAGIC := by simp [hm]
  have h2 : ¬ (h.Version < 2 ∨ h.Version > 3) := by omega
  have h3 : ¬ h.ShDegree > 3 := by omega
  have h4 : ¬ h.FractionalBits ≠ 12 := by simp [hf]
  rw [if_neg h1, if_neg h2, if_neg h3, if_neg h4]

/-- Claim C1 (header round trip).  For every header with the magic number, version
2 or 3, `ShDegree ≤ 3`, `FractionalBits = 12` and any `NumPoints` (a `uint32`),
`Flags` and `Reserved`, parsing the bytes of `ToBytes` succeeds and returns a
header with the same seven fields. -/
theorem ParseSpzHeader_ToBytes (h : SpzData) (hn : h.NumPoints < 2 ^ 32)
    (hm : h.Magic = SPZ_MAGIC) (hv : h.Version = 2 ∨ h.Version = 3) (hs : h.ShDegree ≤ 3)
    (hf : h.FractionalBits = 12) :
    ∃ p, ParseSpzHeader h.ToBytes = .ok p ∧ p.Magic = h.Magic ∧ p.Version = h.Version ∧
      p.NumPoints = h.NumPoints ∧ p.ShDegree = h.ShDegree ∧
      p.FractionalBits = h.FractionalBits ∧ p.Flags = h.Flags ∧ p.Reserved = h.Reserved :=
  ⟨{ h with Data := [] }, ParseSpzHeader_ToBytes_eq h hn hm hv hs hf, rfl, rfl, rfl, rfl, rfl,
    rfl, rfl⟩

/-- Claim C2 (header acceptance).  For every byte slice `d`, `ParseSpzHeader d`
succeeds exactly when `d` has at least 16 bytes, the little-endian word at offset
0 is the magic number, the one at offset 4 is 2 or 3, `d[12] ≤ 3` and
`d[13] = 12`; otherwise it returns an error (and hence no header). -/
theorem ParseSpzHeader_ok_iff (d : List Nat) (hd : IsBytes d) :
    ((∃ p, ParseSpzHeader d = .ok p) ↔ HeaderAccepted d) ∧
      (¬ HeaderAccepted d → ∃ e, ParseSpzHeader d = .error e) := by
  by_cases hlen : d.length < 16
  · have hp := ParseSpzHeader_short d hlen
    have hna : ¬ HeaderAccepted d := fun ha => by have := ha.1; omega
    refine ⟨⟨?_, fun ha => absurd ha hna⟩, fun _ => ⟨_, hp⟩⟩
    rintro ⟨p, hp2⟩
    rw [hp] at hp2
    cases hp2
  · obtain ⟨d0, d1, d2, d3, d4, d5, d6, d7, d8, d9, d10, d11, d12, d13, d14, d15, r, rfl⟩ :=
      exists_cons16 d (by omega)
    have hb : ∀ b, b ∈ [d0, d1, d2, d3, d4, d5, d6, d7] → b < 256 := by
      intro b hb
      apply hd
      simp only [List.mem_cons, List.mem_singleton, List.not_mem_nil, or_false] at hb ⊢
      tauto
    have e0 := orUint32_eq d0 d1 d2 d3 (hb _ (by simp)) (hb _ (by simp)) (hb _ (by simp))
      (hb _ (by simp))
    have e4 := orUint32_eq d4 d5 d6 d7 (hb _ (by simp)) (hb _ (by simp)) (hb _ (by simp))
      (hb _ (by simp))
    have hacc : HeaderAccepted (d0 :: d1 :: d2 :: d3 :: d4 :: d5 :: d6 :: d7 :: d8 :: d9 ::
        d10 :: d11 :: d12 :: d13 :: d14 :: d15 :: r) ↔
        (orUint32 d0 d1 d2 d3 = SPZ_MAGIC ∧
          (orUint32 d4 d5 d6 d7 = 2 ∨ orUint32 d4 d5 d6 d7 = 3) ∧ d12 ≤ 3 ∧ d13 = 12) := by
      rw [e0, e4]
      simp only [HeaderAccepted, leUint32At, List.getD_cons_zero, List.getD_cons_succ,
        List.length_cons]
      constructor
      · rintro ⟨_, h⟩
        exact h
      · intro h
        exact ⟨by omega, h⟩
    rw [hacc, ParseSpzHeader_cons]
    split_ifs with h1 h2 h3 h4
    · exact ⟨⟨(fun ⟨p, hp⟩ => by cases hp), fun ha => absurd ha.1 h1⟩, fun _ => ⟨_, rfl⟩⟩
    · exact ⟨⟨(fun ⟨p, hp⟩ => by cases hp), fun ha => by omega⟩, fun _ => ⟨_, rfl⟩⟩
    · exact ⟨⟨(fun ⟨p, hp⟩ => by cases hp), fun ha => by omega⟩, fun _ => ⟨_, rfl⟩⟩
    · exact ⟨⟨(fun ⟨p, hp⟩ => by cases hp), fun ha => absurd ha.2.2.2 h4⟩, fun _ => ⟨_, rfl⟩⟩
    · have hall : orUint32 d0 d1 d2 d3 = SPZ_MAGIC ∧
          (orUint32 d4 d5 d6 d7 = 2 ∨ orUint32 d4 d5 d6 d7 = 3) ∧ d12 ≤ 3 ∧ d13 = 12 :=
        ⟨not_not.mp h1, by omega, by omega, not_not.mp h4⟩
      exact ⟨⟨fun _ => hall, fun _ => ⟨_, rfl⟩⟩, fun hn => absurd hall hn⟩

/-- Witness of C1 at the header of `TestReadWriteSpz`. -/
theorem ParseSpzHeader_ToBytes_witness :
    testHeader.NumPoints < 2 ^ 32 ∧ testHeader.Magic = SPZ_MAGIC ∧
      (testHeader.Version = 2 ∨ testHeader.Version = 3) ∧ testHeader.ShDegree ≤ 3 ∧
      testHeader.FractionalBits = 12 ∧
      ∃ p, ParseSpzHeader testHeader.ToBytes = .ok p ∧ p.Magic = testHeader.Magic ∧
        p.Version = testHeader.Version ∧ p.NumPoints = testHeader.NumPoints ∧
        p.ShDegree = testHeader.ShDegree ∧ p.FractionalBits = testHeader.FractionalBits ∧
        p.Flags = testHeader.Flags ∧ p.Reserved = testHeader.Reserved :=
  ⟨by decide, rfl, Or.inl rfl, by decide, rfl,
    ParseSpzHeader_ToBytes testHeader (by decide) rfl (Or.inl rfl) (by decide) rfl⟩

theorem isBytes_testHeaderBytes : IsBytes testHeaderBytes := by
  intro b hb
  simp only [testHeaderBytes, List.mem_cons, List.mem_singleton, List.not_mem_nil,
    or_false] at hb
  omega

/-- Witness of C2 at the sixteen bytes of the header of `TestReadWriteSpz`. -/
theorem ParseSpzHeader_ok_iff_witness :
    IsBytes testHeaderBytes ∧
      (((∃ p, ParseSpzHeader testHeaderBytes = .ok p) ↔ HeaderAccepted testHeaderBytes) ∧
        (¬ HeaderAccepted testHeaderBytes → ∃ e, ParseSpzHeader testHeaderBytes = .error e)) :=
  ⟨isBytes_testHeaderBytes, ParseSpzHeader_ok_iff testHeaderBytes isBytes_testHeaderBytes⟩

/-! ## Slices and index runs -/

theorem ok_bind {α β : Type} (a : α) (f : α → Except Fault β) :
    (Except.ok a >>= f) = f a := rfl

theorem slice_ok (xs : List Nat) (lo hi : Nat) (h1 : lo ≤ hi) (h2 : hi ≤ xs.length) :
    slice xs lo hi = .ok ((xs.take hi).drop lo) := by
  unfold slice
  rw [if_pos ⟨h1, h2⟩]

theorem slice_length (xs : List Nat) (lo hi : Nat) (h2 : hi ≤ xs.length) :
    ((xs.take hi).drop lo).length = hi - lo := by
  rw [List.length_drop, List.length_take, Nat.min_eq_left h2]

theorem sliceFrom_ok (xs : List Nat) (lo : Nat) (h : lo ≤ xs.length) :
    sliceFrom xs lo = .ok (xs.drop lo) := by
  unfold sliceFrom
  rw [if_pos h]

theorem index_ok (xs : List Nat) (i : Nat) (h : i < xs.length) :
    index xs i = .ok (xs.getD i 0) := by
  unfold index
  rw [List.getElem?_eq_getElem h, List.getD_eq_getElem _ _ h]

theorem indexRun_ok (f : Nat → Nat) (xs : List Nat) (n : Nat) :
    ∀ start, start + n ≤ xs.length →
      indexRun f xs start n = .ok (((xs.drop start).take n).map f) := by
  induction n with
  | zero => intro start _; simp [indexRun]
  | succ n ih =>
    intro start h
    have hlt : start < xs.length := by omega
    rw [indexRun, index_ok xs start hlt, ok_bind, ih (start + 1) (by omega), ok_bind]
    rw [List.drop_eq_getElem_cons hlt, List.take_succ_cons, List.map_cons,
      List.getD_eq_getElem _ _ hlt]
    rfl

theorem indexRun_length (f : Nat → Nat) (xs : List Nat) (n start : Nat)
    (h : start + n ≤ xs.length) : (((xs.drop start).take n).map f).length = n := by
  rw [List.length_map, List.length_take, List.length_drop]
  omega


/-! ## The reader -/

theorem readSh_ok (h : SpzData) (shs : List Nat) (i : Nat) (hs : shs.length = shDim h)
    (hi : i < h.NumPoints) :
    ∃ sh, readSh h shs i = .ok sh ∧ ShShape h.ShDegree sh.1 sh.2.1 sh.2.2 := by
  unfold shDim at hs
  unfold readSh
  split
  · rename_i h1
    rw [h1] at hs
    simp only at hs
    rw [if_pos (by omega), indexRun_ok _ _ _ _ (by omega), ok_bind]
    refine ⟨_, rfl, ?_⟩
    unfold ShShape
    rw [h1]
    refine ⟨by omega, fun _ => ⟨indexRun_length _ _ _ _ (by omega), rfl, rfl⟩, by omega, by omega⟩
  · rename_i h1
    rw [h1] at hs
    simp only at hs
    rw [if_pos (by omega), indexRun_ok _ _ _ _ (by omega), ok_bind,
      indexRun_ok _ _ _ _ (by omega), ok_bind]
    refine ⟨_, rfl, ?_⟩
    unfold ShShape
    rw [h1]
    refine ⟨by omega, by omega, fun _ => ⟨?_, rfl, rfl⟩, by omega⟩
    rw [List.length_append, indexRun_length _ _ _ _ (by omega),
      indexRun_length _ _ _ _ (by omega)]
  · rename_i h1
    rw [h1] at hs
    simp only at hs
    rw [if_pos (by omega), indexRun_ok _ _ _ _ (by omega), ok_bind,
      indexRun_ok _ _ _ _ (by omega), ok_bind, indexRun_ok _ _ _ _ (by omega), ok_bind]
    refine ⟨_, rfl, ?_⟩
    unfold ShShape
    rw [h1]
    refine ⟨by omega, by omega, by omega, fun _ => ⟨?_, indexRun_length _ _ _ _ (by omega), rfl⟩⟩
    rw [List.length_append, indexRun_length _ _ _ _ (by omega),
      indexRun_length _ _ _ _ (by omega)]
  · rename_i h1 h2 h3
    refine ⟨_, rfl, ?_⟩
    unfold ShShape
    exact ⟨fun _ => ⟨rfl, rfl, rfl⟩, fun h => absurd h h1, fun h => absurd h h2,
      fun h => absurd h h3⟩


theorem spzDecodePosition_ok (bts : List Nat) (fb : Nat) (h : 3 ≤ bts.length) :
    ∃ v, spzDecodePosition bts fb = .ok v := by
  rcases bts with _ | ⟨b0, _ | ⟨b1, _ | ⟨b2, r⟩⟩⟩
  all_goals first
    | exact ⟨_, rfl⟩
    | (simp only [List.length_cons, List.length_nil] at h; omega)

theorem spzDecodeRotationsV3_ok (bs : List Nat) (h : 4 ≤ bs.length) :
    ∃ v, spzDecodeRotationsV3 bs = .ok v := by
  rcases bs with _ | ⟨b0, _ | ⟨b1, _ | ⟨b2, _ | ⟨b3, r⟩⟩⟩⟩
  all_goals first
    | exact ⟨_, rfl⟩
    | (simp only [List.length_cons, List.length_nil] at h; omega)

theorem readRotation_ok (h : SpzData) (rotations : List Nat) (i : Nat)
    (hr : rotations.length = rotationSize h) (hi : i < h.NumPoints) :
    ∃ rot, readRotation h rotations i = .ok rot := by
  unfold rotationSize at hr
  unfold readRotation
  split_ifs at hr ⊢ with hv
  · rw [slice_ok _ _ _ (by omega) (by omega), ok_bind]
    exact spzDecodeRotationsV3_ok _ (by rw [slice_length _ _ _ (by omega)]; omega)
  · rw [index_ok _ _ (by omega), ok_bind, index_ok _ _ (by omega), ok_bind,
      index_ok _ _ (by omega), ok_bind]
    exact ⟨_, rfl⟩

theorem readPoint_ok (h : SpzData) (s : Sections) (i : Nat) (hs : s.Sized h)
    (hi : i < h.NumPoints) :
    ∃ p, readPoint h s i = .ok p ∧ p.ColorA = s.alphas.getD i 0 ∧
      ShShape h.ShDegree p.SH1 p.SH2 p.SH3 := by
  have hp := hs.positions
  have ha := hs.alphas
  have hc := hs.colors
  have hsc := hs.scales
  obtain ⟨px, hpx⟩ := spzDecodePosition_ok ((s.positions.take (i * 9 + 3)).drop (i * 9))
    h.FractionalBits (by rw [slice_length _ _ _ (by omega)]; omega)
  obtain ⟨py, hpy⟩ := spzDecodePosition_ok ((s.positions.take (i * 9 + 6)).drop (i * 9 + 3))
    h.FractionalBits (by rw [slice_length _ _ _ (by omega)]; omega)
  obtain ⟨pz, hpz⟩ := spzDecodePosition_ok ((s.positions.take (i * 9 + 9)).drop (i * 9 + 6))
    h.FractionalBits (by rw [slice_length _ _ _ (by omega)]; omega)
  obtain ⟨rot, hrot⟩ := readRotation_ok h s.rotations i hs.rotations hi
  obtain ⟨sh, hsh, hshape⟩ := readSh_ok h s.shs i hs.shs hi
  unfold readPoint
  rw [slice_ok _ _ _ (by omega) (by omega), ok_bind, hpx, ok_bind,
    slice_ok _ _ _ (by omega) (by omega), ok_bind, hpy, ok_bind,
    slice_ok _ _ _ (by omega) (by omega), ok_bind, hpz, ok_bind,
    index_ok _ _ (by omega), ok_bind,
    index_ok _ _ (by omega), ok_bind, index_ok _ _ (by omega), ok_bind,
    index_ok _ _ (by omega), ok_bind,
    index_ok _ _ (by omega), ok_bind, index_ok _ _ (by omega), ok_bind,
    index_ok _ _ (by omega), ok_bind, hrot, ok_bind, hsh, ok_bind]
  exact ⟨_, rfl, rfl, hshape⟩

theorem readPoints_ok (h : SpzData) (s : Sections) (hs : s.Sized h) (n : Nat) :
    ∀ i, i + n ≤ h.NumPoints →
      ∃ pts, readPoints h s n i = .ok pts ∧ pts.length = n ∧
        ∀ j, j < n → ∃ p, pts[j]? = some p ∧ readPoint h s (i + j) = .ok p := by
  induction n with
  | zero =>
    intro i _
    exact ⟨[], rfl, rfl, fun j hj => absurd hj (Nat.not_lt_zero j)⟩
  | succ n ih =>
    intro i hi
    obtain ⟨p, hp, -⟩ := readPoint_ok h s i hs (by omega)
    obtain ⟨rest, hrest, hlen, hall⟩ := ih (i + 1) (by omega)
    refine ⟨p :: rest, ?_, by rw [List.length_cons, hlen], ?_⟩
    · rw [readPoints, hp, ok_bind, hrest, ok_bind]
      rfl
    · intro j hj
      cases j with
      | zero => exact ⟨p, by simp, hp⟩
      | succ j =>
        obtain ⟨q, hq1, hq2⟩ := hall j (by omega)
        refine ⟨q, by simpa using hq1, ?_⟩
        rw [← hq2]
        congr 1
        omega


theorem rotationSize_eq (h : SpzData) :
    rotationSize h = h.NumPoints * (if h.Version < 3 then 3 else 4) := by
  unfold rotationSize
  split_ifs <;> first | rfl | omega

theorem shDim_eq (h : SpzData) :
    shDim h = h.NumPoints * (if h.ShDegree = 1 then 9 else if h.ShDegree = 2 then 24
      else if h.ShDegree = 3 then 45 else 0) := by
  unfold shDim
  split
  · rename_i h1; rw [h1]; rfl
  · rename_i h1; rw [h1]; rfl
  · rename_i h1; rw [h1]; rfl
  · rename_i h1 h2 h3; rw [if_neg h1, if_neg h2, if_neg h3, Nat.mul_zero]

theorem expectedSize_eq (h : SpzData) : expectedSize h = sectionLength h := by
  unfold expectedSize sectionLength
  rw [rotationSize_eq, shDim_eq]
  ring

theorem cutSections_sized (datas : List Nat) (h : SpzData)
    (hlen : datas.length = expectedSize h) : (cutSections datas h).Sized h := by
  unfold expectedSize at hlen
  constructor
  · simp only [cutSections]; rw [slice_length _ _ _ (by omega)]; omega
  · simp only [cutSections]; rw [slice_length _ _ _ (by omega)]; omega
  · simp only [cutSections]; rw [slice_length _ _ _ (by omega)]; omega
  · simp only [cutSections]; rw [slice_length _ _ _ (by omega)]; omega
  · simp only [cutSections]; rw [slice_length _ _ _ (by omega)]; omega
  · simp only [cutSections]; rw [List.length_drop]; omega

theorem readSpzDatas_of_ne (datas : List Nat) (h : SpzData)
    (hlen : datas.length ≠ expectedSize h) :
    readSpzDatas datas h = .error (.spz .dataSize) := by
  unfold readSpzDatas
  simp only
  rw [if_pos hlen]

theorem readSpzDatas_of_eq (datas : List Nat) (h : SpzData)
    (hlen : datas.length = expectedSize h) :
    readSpzDatas datas h = readPoints h (cutSections datas h) h.NumPoints 0 := by
  have hl := hlen
  unfold expectedSize at hl
  unfold readSpzDatas
  simp only
  rw [if_neg (not_not.mpr hlen), slice_ok _ _ _ (by omega) (by omega), ok_bind,
    slice_ok _ _ _ (by omega) (by omega), ok_bind, slice_ok _ _ _ (by omega) (by omega),
    ok_bind, slice_ok _ _ _ (by omega) (by omega), ok_bind,
    slice_ok _ _ _ (by omega) (by omega), ok_bind, sliceFrom_ok _ _ (by omega), ok_bind]
  rfl

theorem cutSections_alpha (datas : List Nat) (h : SpzData) (j : Nat) (hj : j < h.NumPoints) :
    (cutSections datas h).alphas.getD j 0 = datas.getD (h.NumPoints * 9 + j) 0 := by
  simp only [cutSections, List.getD_eq_getElem?_getD, List.getElem?_drop, List.getElem?_take]
  rw [if_pos (by omega)]
  congr 2
  omega

/-- What a successful `readSpzDatas` returns: the declared number of points, point
`j` carrying the byte at offset `9 * NumPoints + j` as opacity and harmonics
buffers of the shape of the degree. -/
theorem readSpzDatas_ok (datas : List Nat) (h : SpzData)
    (hlen : datas.length = expectedSize h) :
    ∃ pts, readSpzDatas datas h = .ok pts ∧ pts.length = h.NumPoints ∧
      ∀ j, j < h.NumPoints → ∃ p, pts[j]? = some p ∧
        p.ColorA = datas.getD (h.NumPoints * 9 + j) 0 ∧
        ShShape h.ShDegree p.SH1 p.SH2 p.SH3 := by
  have hs := cutSections_sized datas h hlen
  obtain ⟨pts, hpts, hl, hall⟩ := readPoints_ok h _ hs h.NumPoints 0 (by omega)
  refine ⟨pts, by rw [readSpzDatas_of_eq _ _ hlen, hpts], hl, ?_⟩
  intro j hj
  obtain ⟨p, hp1, hp2⟩ := hall j hj
  obtain ⟨q, hq, hqa, hqs⟩ := readPoint_ok h _ (0 + j) hs (by omega)
  rw [hq] at hp2
  cases hp2
  refine ⟨p, hp1, ?_, hqs⟩
  rw [hqa, Nat.zero_add, cutSections_alpha _ _ _ hj]



/-! ## Claims on the reader -/

/-- Claim C4 (data-section size validation).  For every header `h` and byte slice
`d`, `readSpzDatas d h` returns an error exactly when the length of `d` differs
from `NumPoints * (16 + r + s)`, with `r = 3` for `Version < 3` and `4` otherwise,
and `s = 9, 24, 45` for `ShDegree = 1, 2, 3` and `0` otherwise. -/
theorem readSpzDatas_error_iff (d : List Nat) (h : SpzData) :
    (∃ e, readSpzDatas d h = .error (.spz e)) ↔ d.length ≠ sectionLength h := by
  rw [← expectedSize_eq]
  constructor
  · rintro ⟨e, he⟩ hlen
    obtain ⟨pts, hpts, -⟩ := readSpzDatas_ok d h hlen
    rw [hpts] at he
    cases he
  · intro hlen
    exact ⟨_, readSpzDatas_of_ne d h hlen⟩

/-- Claim C7 (the reader does not panic and returns the declared count).  When the
length of `d` is the expected section length, `readSpzDatas d h` ends with neither
a panic (every slice and index expression is in range) nor an error, and the list
it returns has exactly `NumPoints` points. -/
theorem readSpzDatas_total (d : List Nat) (h : SpzData) (hlen : d.length = sectionLength h) :
    ∃ pts, readSpzDatas d h = .ok pts ∧ pts.length = h.NumPoints := by
  rw [← expectedSize_eq] at hlen
  obtain ⟨pts, hpts, hl, -⟩ := readSpzDatas_ok d h hlen
  exact ⟨pts, hpts, hl⟩

/-- Witness of C7 at the data section of `testCloud`. -/
theorem readSpzDatas_total_witness :
    testData.length = sectionLength testCloud ∧
      ∃ pts, readSpzDatas testData testCloud = .ok pts ∧ pts.length = testCloud.NumPoints :=
  ⟨by decide, readSpzDatas_total testData testCloud (by decide)⟩

/-- Claim C8 (decoded harmonics buffer lengths depend only on the degree).  Whenever
`readSpzDatas` succeeds, every returned point has all three buffers empty for
degree 0; `len(SH1) = 9` and `SH2`, `SH3` empty for degree 1; `len(SH2) = 24` and
`SH1`, `SH3` empty for degree 2; `len(SH2) = 24`, `len(SH3) = 21` and `SH1` empty
for degree 3. -/
theorem readSpzDatas_shShape (d : List Nat) (h : SpzData) (pts : List SplatData)
    (hok : readSpzDatas d h = .ok pts) (p : SplatData) (hp : p ∈ pts) :
    ShShape h.ShDegree p.SH1 p.SH2 p.SH3 := by
  by_cases hlen : d.length = expectedSize h
  · obtain ⟨pts2, hpts, hl, hall⟩ := readSpzDatas_ok d h hlen
    rw [hok] at hpts
    cases hpts
    obtain ⟨j, hj, hjp⟩ := List.getElem_of_mem hp
    obtain ⟨q, hq, -, hshape⟩ := hall j (by omega)
    rw [List.getElem?_eq_getElem hj, hjp] at hq
    cases hq
    exact hshape
  · rw [readSpzDatas_of_ne d h hlen] at hok
    cases hok

/-- The reader evaluated on the data section of `testCloud`. -/
theorem readSpzDatas_testData : readSpzDatas testData testCloud = .ok [testDecoded] := by
  decide!

/-- Witness of C8: the reader on the data section of `testCloud`. -/
theorem readSpzDatas_shShape_witness :
    readSpzDatas testData testCloud = .ok [testDecoded] ∧ testDecoded ∈ [testDecoded] ∧
      ShShape testCloud.ShDegree testDecoded.SH1 testDecoded.SH2 testDecoded.SH3 :=
  ⟨readSpzDatas_testData, List.mem_singleton_self _,
    readSpzDatas_shShape testData testCloud [testDecoded] readSpzDatas_testData testDecoded
      (List.mem_singleton_self _)⟩

/-! ## The writer -/

theorem appendRows_ok (f : SplatData → Except Fault (List Nat)) (k : Nat)
    (rows : List SplatData) (hf : ∀ row ∈ rows, ∃ bs, f row = .ok bs ∧ bs.length = k) :
    ∃ out, appendRows f rows = .ok out ∧ out.length = rows.length * k := by
  induction rows with
  | nil => exact ⟨[], rfl, by simp⟩
  | cons row rows ih =>
    obtain ⟨bs, hbs, hl⟩ := hf row (List.mem_cons_self _ _)
    obtain ⟨out, hout, hol⟩ := ih (fun r hr => hf r (List.mem_cons_of_mem _ hr))
    refine ⟨bs ++ out, ?_, ?_⟩
    · rw [appendRows, hbs, ok_bind, hout, ok_bind]
      rfl
    · rw [List.length_append, hl, hol, List.length_cons]
      ring

theorem flatMap_length (f : SplatData → List Nat) (k : Nat) (rows : List SplatData)
    (hf : ∀ row, (f row).length = k) : (rows.flatMap f).length = rows.length * k := by
  induction rows with
  | nil => simp
  | cons row rows ih =>
    rw [List.flatMap_cons, List.length_append, hf, ih, List.length_cons]
    ring

theorem shPlaceholder_length (n : Nat) : (shPlaceholder n).length = n := by
  simp [shPlaceholder]

theorem writeSh_ok (degree : Nat) (row : SplatData) (hn : NominalSh row) :
    ∃ bs, writeSh degree row = .ok bs ∧ bs.length = shBytes degree := by
  obtain ⟨h1, h2, h3, h32⟩ := hn
  have e1 : row.SH1.length > 0 → row.SH1.length = 9 := by
    rcases h1 with h | h
    · rw [h]; simp
    · intro _; exact h
  have e2 : row.SH2.length > 0 → row.SH2.length = 24 := by
    rcases h2 with h | h
    · rw [h]; simp
    · intro _; exact h
  have e3 : row.SH3.length > 0 → row.SH3.length = 21 := by
    rcases h3 with h | h
    · rw [h]; simp
    · intro _; exact h
  have e32 : row.SH3.length > 0 → row.SH2.length = 24 := by
    intro h
    apply e2
    exact List.length_pos.mpr (h32 (List.length_pos.mp h))
  unfold writeSh
  split
  · split_ifs with a b
    · rw [indexRun_ok _ _ _ _ (by have := e1 a; omega)]
      exact ⟨_, rfl, indexRun_length _ _ _ _ (by have := e1 a; omega)⟩
    · rw [indexRun_ok _ _ _ _ (by have := e2 b; omega)]
      exact ⟨_, rfl, indexRun_length _ _ _ _ (by have := e2 b; omega)⟩
    · exact ⟨_, rfl, shPlaceholder_length 9⟩
  · split_ifs with a b
    · rw [indexRun_ok _ _ _ _ (by have := e1 a; omega), ok_bind]
      refine ⟨_, rfl, ?_⟩
      rw [List.length_append, indexRun_length _ _ _ _ (by have := e1 a; omega),
        shPlaceholder_length]
      rfl
    · rw [indexRun_ok _ _ _ _ (by have := e2 b; omega), ok_bind,
        indexRun_ok _ _ _ _ (by have := e2 b; omega), ok_bind]
      refine ⟨_, rfl, ?_⟩
      rw [List.length_append, indexRun_length _ _ _ _ (by have := e2 b; omega),
        indexRun_length _ _ _ _ (by have := e2 b; omega)]
      rfl
    · exact ⟨_, rfl, shPlaceholder_length 24⟩
  · split_ifs with a b c
    · rw [indexRun_ok _ _ _ _ (by have := e32 a; omega), ok_bind,
        indexRun_ok _ _ _ _ (by have := e32 a; omega), ok_bind,
        indexRun_ok _ _ _ _ (by have := e3 a; omega), ok_bind]
      refine ⟨_, rfl, ?_⟩
      rw [List.length_append, List.length_append,
        indexRun_length _ _ _ _ (by have := e32 a; omega),
        indexRun_length _ _ _ _ (by have := e32 a; omega),
        indexRun_length _ _ _ _ (by have := e3 a; omega)]
      rfl
    · rw [indexRun_ok _ _ _ _ (by have := e2 b; omega), ok_bind,
        indexRun_ok _ _ _ _ (by have := e2 b; omega), ok_bind]
      refine ⟨_, rfl, ?_⟩
      rw [List.length_append, List.length_append,
        indexRun_length _ _ _ _ (by have := e2 b; omega),
        indexRun_length _ _ _ _ (by have := e2 b; omega), shPlaceholder_length]
      rfl
    · rw [indexRun_ok _ _ _ _ (by have := e1 c; omega), ok_bind]
      refine ⟨_, rfl, ?_⟩
      rw [List.length_append, indexRun_length _ _ _ _ (by have := e1 c; omega),
        shPlaceholder_length]
      rfl
    · exact ⟨_, rfl, shPlaceholder_length 45⟩
  · rename_i n1 n2 n3
    refine ⟨[], rfl, ?_⟩
    unfold shBytes
    rw [if_neg n1, if_neg n2, if_neg n3]
    rfl


theorem ToBytes_length (h : SpzData) : h.ToBytes.length = 16 := rfl

theorem writeRotation_length (version : Nat) (row : SplatData) :
    (writeRotation version row).length = if version ≥ 3 then 4 else 3 := by
  unfold writeRotation
  split_ifs <;> rfl

theorem WriteSpz_ok (c : SpzData) (hsh : ∀ row ∈ c.Data, NominalSh row) :
    ∃ shs, WriteSpz c = .ok (c.ToBytes ++ (fixedSections c ++ shs)) ∧
      shs.length = c.Data.length * shBytes c.ShDegree := by
  obtain ⟨shs, hshs, hl⟩ := appendRows_ok (writeSh c.ShDegree) (shBytes c.ShDegree) c.Data
    (fun row hr => writeSh_ok _ row (hsh row hr))
  refine ⟨shs, ?_, hl⟩
  unfold WriteSpz
  simp only []
  rw [hshs, ok_bind]
  simp only [fixedSections, List.append_assoc]
  rfl

theorem positions_length (rows : List SplatData) :
    (rows.flatMap fun row =>
      spzEncodePosition row.PositionX ++ spzEncodePosition row.PositionY ++
        spzEncodePosition row.PositionZ).length = rows.length * 9 :=
  flatMap_length _ 9 rows (fun _ => rfl)

theorem colors_length (rows : List SplatData) :
    (rows.flatMap fun row =>
      [spzEncodeColor row.ColorR, spzEncodeColor row.ColorG,
        spzEncodeColor row.ColorB]).length = rows.length * 3 :=
  flatMap_length _ 3 rows (fun _ => rfl)

theorem scales_length (rows : List SplatData) :
    (rows.flatMap fun row =>
      [spzEncodeScale row.ScaleX, spzEncodeScale row.ScaleY,
        spzEncodeScale row.ScaleZ]).length = rows.length * 3 :=
  flatMap_length _ 3 rows (fun _ => rfl)

theorem rotations_length (version : Nat) (rows : List SplatData) :
    (rows.flatMap (writeRotation version)).length =
      rows.length * (if version ≥ 3 then 4 else 3) :=
  flatMap_length _ _ rows (fun row => writeRotation_length version row)

theorem fixedSections_length (c : SpzData) :
    (fixedSections c).length =
      c.Data.length * 9 + (c.Data.length + (c.Data.length * 3 + (c.Data.length * 3 +
        c.Data.length * (if c.Version ≥ 3 then 4 else 3)))) := by
  unfold fixedSections
  rw [List.length_append, List.length_append, List.length_append, List.length_append,
    List.length_map, positions_length, colors_length, scales_length, rotations_length]

theorem fixedSections_alpha (c : SpzData) (shs : List Nat) (j : Nat) (hj : j < c.Data.length) :
    (fixedSections c ++ shs).getD (c.Data.length * 9 + j) 0 =
      (c.Data.map fun row => row.ColorA).getD j 0 := by
  unfold fixedSections
  rw [List.append_assoc _ _ shs,
    List.getD_append_right _ _ _ _ (by rw [positions_length]; omega),
    positions_length, Nat.add_sub_cancel_left, List.append_assoc _ _ shs,
    List.getD_append _ _ _ _ (by rw [List.length_map]; exact hj)]


/-! ## Decoding what the writer produced -/

theorem ReadSpz_append (hdr datas : List Nat) (p : SpzData) (hh : hdr.length = 16)
    (hp : ParseSpzHeader hdr = .ok p) :
    ReadSpz (hdr ++ datas) =
      if datas.length > 0 then
        match readSpzDatas datas p with
        | .error f => .error f
        | .ok pts => .ok { p with Data := pts }
      else .ok { p with Data := [] } := by
  have hlen : (hdr ++ datas).length = 16 + datas.length := by rw [List.length_append, hh]
  have htake : ((hdr ++ datas).take 16).drop 0 = hdr := by
    rw [List.drop_zero, ← hh, List.take_left']
    rfl
  have hdrop : (hdr ++ datas).drop 16 = datas := by
    rw [← hh, List.drop_left']
    rfl
  unfold ReadSpz
  rw [if_neg (by rw [hlen]; unfold HeaderSizeSpz; omega),
    slice_ok _ _ _ (Nat.zero_le _) (by rw [hlen]; unfold HeaderSizeSpz; omega)]
  simp only [HeaderSizeSpz, htake, hp, hlen]
  by_cases hd : datas.length > 0
  · rw [if_pos (by omega), if_pos hd, sliceFrom_ok _ _ (by rw [hlen]; omega)]
    simp only [hdrop]
  · rw [if_neg (by omega), if_neg hd]


/-- With a data section that is present, `ReadSpz` does reject a wrong length. -/
theorem ReadSpz_dataSize (hdr datas : List Nat) (p : SpzData) (hh : hdr.length = 16)
    (hp : ParseSpzHeader hdr = .ok p) (hd : datas.length > 0)
    (hlen : datas.length ≠ sectionLength p) :
    ReadSpz (hdr ++ datas) = .error (.spz .dataSize) := by
  rw [← expectedSize_eq] at hlen
  rw [ReadSpz_append hdr datas p hh hp, if_pos hd, readSpzDatas_of_ne datas p hlen]

/-- Claim C3, evaluated at the failing input.  The sixteen header bytes of
`testHeader` declare three points and carry no data section: the decode step of
`ReadSpz` accepts them and returns a cloud without points instead of the
data-size error. -/
theorem ReadSpz_header_only :
    ReadSpz testHeaderBytes = .ok { testHeader with Data := [] } ∧
      testHeader.NumPoints = 3 ∧ (testHeaderBytes.drop 16).length ≠ sectionLength testHeader := by
  decide


/-- Decoding the buffer the writer built for a well-formed cloud: the header
fields come back, the points are as many as the rows, and point `j` carries the
opacity of row `j`. -/
theorem ReadSpz_WriteSpz (c : SpzData) (hw : WellFormed c) :
    ∃ bts r, WriteSpz c = .ok bts ∧ ReadSpz bts = .ok r ∧
      r.Magic = c.Magic ∧ r.Version = c.Version ∧ r.NumPoints = c.NumPoints ∧
      r.ShDegree = c.ShDegree ∧ r.FractionalBits = c.FractionalBits ∧
      r.Data.length = c.Data.length ∧
      (r.Data.map fun p => p.ColorA) = (c.Data.map fun row => row.ColorA) := by
  obtain ⟨shs, hwrite, hshs⟩ := WriteSpz_ok c hw.sh
  have hparse := ParseSpzHeader_ToBytes_eq c hw.numPointsRange hw.magic hw.version hw.shDegree
    hw.fractionalBits
  have hn := hw.numPoints
  have hfix := fixedSections_length c
  suffices hread : ∃ r, ReadSpz (c.ToBytes ++ (fixedSections c ++ shs)) = .ok r ∧
      r.Magic = c.Magic ∧ r.Version = c.Version ∧ r.NumPoints = c.NumPoints ∧
      r.ShDegree = c.ShDegree ∧ r.FractionalBits = c.FractionalBits ∧
      r.Data.length = c.Data.length ∧
      (r.Data.map fun p => p.ColorA) = (c.Data.map fun row => row.ColorA) by
    obtain ⟨r, hr⟩ := hread
    exact ⟨_, r, hwrite, hr⟩
  rw [ReadSpz_append _ _ _ (ToBytes_length c) hparse]
  by_cases hd : (fixedSections c ++ shs).length > 0
  · have hexp : (fixedSections c ++ shs).length = expectedSize { c with Data := [] } := by
      rw [List.length_append, hfix, hshs, expectedSize, rotationSize_eq, shDim_eq]
      simp only [shBytes, hn]
      have hv : (if c.Version ≥ 3 then 4 else 3) = (if c.Version < 3 then 3 else 4) := by
        split_ifs <;> first | rfl | omega
      rw [hv]
      ring
    obtain ⟨pts, hpts, hl, hall⟩ := readSpzDatas_ok _ _ hexp
    rw [if_pos hd, hpts]
    refine ⟨_, rfl, rfl, rfl, rfl, rfl, rfl, ?_, ?_⟩
    · exact hl.trans hn
    · apply List.ext_getElem?
      intro j
      by_cases hj : j < c.Data.length
      · obtain ⟨q, hq, hqa, -⟩ := hall j (by rw [← hn] at hj; exact hj)
        have ha : q.ColorA = (c.Data.map fun row => row.ColorA).getD j 0 := by
          rw [hqa]
          show (fixedSections c ++ shs).getD (c.NumPoints * 9 + j) 0 = _
          rw [hn]
          exact fixedSections_alpha c shs j hj
        show (List.map (fun p => p.ColorA) pts)[j]? = _
        rw [List.getElem?_map, hq, Option.map_some', ha, List.getD_eq_getElem?_getD,
          List.getElem?_eq_getElem (by rw [List.length_map]; exact hj)]
        rfl
      · have h1 : (List.map (fun p => p.ColorA) pts).length ≤ j := by
          rw [List.length_map, hl, hn]; omega
        have h2 : (List.map (fun row => row.ColorA) c.Data).length ≤ j := by
          rw [List.length_map]; omega
        show (List.map (fun p => p.ColorA) pts)[j]? = _
        rw [List.getElem?_eq_none h1, List.getElem?_eq_none h2]
  · have h0 : c.Data.length = 0 := by
      rw [List.length_append, hfix] at hd
      omega
    have hnil : c.Data = [] := List.length_eq_zero.mp h0
    rw [if_neg hd]
    refine ⟨_, rfl, rfl, rfl, rfl, rfl, rfl, ?_, ?_⟩
    · rw [h0]; rfl
    · rw [hnil]

/-- Claim C5 (end-to-end decode of encoded clouds).  For every cloud with a valid
header, `NumPoints = len(Data)` (the empty cloud included) and harmonics buffers
that are empty or of nominal length, the writer builds its buffer without
failing, and decoding that buffer succeeds with identical `Magic`, `Version`,
`NumPoints`, `ShDegree`, `FractionalBits` and exactly `len(Data)` points. -/
theorem decode_encoded_cloud (c : SpzData) (hw : WellFormed c) :
    ∃ bts r, WriteSpz c = .ok bts ∧ ReadSpz bts = .ok r ∧
      r.Magic = c.Magic ∧ r.Version = c.Version ∧ r.NumPoints = c.NumPoints ∧
      r.ShDegree = c.ShDegree ∧ r.FractionalBits = c.FractionalBits ∧
      r.Data.length = c.Data.length := by
  obtain ⟨bts, r, h1, h2, h3, h4, h5, h6, h7, h8, -⟩ := ReadSpz_WriteSpz c hw
  exact ⟨bts, r, h1, h2, h3, h4, h5, h6, h7, h8⟩

/-- Opacity on well-formed clouds (whose rows carry `SH3` only together with
`SH2`): for version 2 or 3 and any degree, the points decoded from the writer's
buffer carry, index by index, the `ColorA` of the input rows. -/
theorem opacity_preserved (c : SpzData) (hw : WellFormed c) :
    ∃ bts r, WriteSpz c = .ok bts ∧ ReadSpz bts = .ok r ∧
      r.Data.length = c.Data.length ∧
      ∀ i : Nat, (r.Data[i]?).map (fun p : SplatData => p.ColorA) =
        (c.Data[i]?).map (fun row : SplatData => row.ColorA) := by
  obtain ⟨bts, r, h1, h2, -, -, -, -, -, h8, h9⟩ := ReadSpz_WriteSpz c hw
  refine ⟨bts, r, h1, h2, h8, fun i => ?_⟩
  rw [← List.getElem?_map, ← List.getElem?_map, h9]

theorem wellFormed_testCloud : WellFormed testCloud where
  magic := rfl
  version := Or.inl rfl
  shDegree := by decide
  fractionalBits := rfl
  numPoints := rfl
  numPointsRange := by decide
  sh := by
    intro row hr
    rw [show testCloud.Data = [testPoint] from rfl, List.mem_singleton] at hr
    rw [hr]
    exact ⟨Or.inr rfl, Or.inl rfl, Or.inl rfl, fun h => absurd rfl h⟩

/-- Witness of C5 at `testCloud`. -/
theorem decode_encoded_cloud_witness :
    WellFormed testCloud ∧
      ∃ bts r, WriteSpz testCloud = .ok bts ∧ ReadSpz bts = .ok r ∧
        r.Magic = testCloud.Magic ∧ r.Version = testCloud.Version ∧
        r.NumPoints = testCloud.NumPoints ∧ r.ShDegree = testCloud.ShDegree ∧
        r.FractionalBits = testCloud.FractionalBits ∧
        r.Data.length = testCloud.Data.length :=
  ⟨wellFormed_testCloud, decode_encoded_cloud testCloud wellFormed_testCloud⟩

/-- The opacity of `testCloud` comes back. -/
theorem opacity_preserved_witness :
    WellFormed testCloud ∧
      ∃ bts r, WriteSpz testCloud = .ok bts ∧ ReadSpz bts = .ok r ∧
        r.Data.length = testCloud.Data.length ∧
        ∀ i : Nat, (r.Data[i]?).map (fun p : SplatData => p.ColorA) =
          (testCloud.Data[i]?).map (fun row : SplatData => row.ColorA) :=
  ⟨wellFormed_testCloud, opacity_preserved testCloud wellFormed_testCloud⟩


/-! ## Floating point: exponent and rounding -/

namespace GoFloat

theorem log2Loop_eq (fuel : Nat) : ∀ n, n ≤ fuel → log2Loop fuel n = Nat.log 2 n := by
  induction fuel with
  | zero =>
    intro n hn
    rw [Nat.le_zero.mp hn, Nat.log_zero_right]
    rfl
  | succ fuel ih =>
    intro n hn
    rw [log2Loop]
    split_ifs with h2
    · rw [ih (n / 2) (by omega), Nat.log_of_one_lt_of_le (by norm_num) h2]
    · rw [Nat.log_of_lt (by omega)]

theorem clog2Loop_eq (fuel : Nat) : ∀ n, n ≤ fuel → clog2Loop fuel n = Nat.clog 2 n := by
  induction fuel with
  | zero =>
    intro n hn
    rw [Nat.le_zero.mp hn, Nat.clog_zero_right]
    rfl
  | succ fuel ih =>
    intro n hn
    rw [clog2Loop]
    split_ifs with h2
    · rw [ih ((n + 1) / 2) (by omega), Nat.clog_of_two_le (by norm_num) h2]
      rfl
    · rw [Nat.clog_of_right_le_one (by omega)]

theorem sqrtLoop_eq (n : Nat) (fuel : Nat) :
    ∀ guess, guess ≤ fuel → sqrtLoop fuel n guess = Nat.sqrt.iter n guess := by
  induction fuel with
  | zero =>
    intro guess hg
    rw [Nat.le_zero.mp hg, sqrtLoop, Nat.sqrt.iter]
    simp
  | succ fuel ih =>
    intro guess hg
    rw [sqrtLoop, Nat.sqrt.iter]
    show (if (guess + n / guess) / 2 < guess then sqrtLoop fuel n ((guess + n / guess) / 2) else guess) = _
    split_ifs with h
    · exact ih _ (by omega)
    · rfl

theorem natSqrt_eq (n : Nat) : natSqrt n = Nat.sqrt n := by
  unfold natSqrt Nat.sqrt
  split_ifs with h
  · rfl
  · exact sqrtLoop_eq n n (n / 2) (Nat.div_le_self n 2)

theorem binExp_eq (x : ℚ) : binExp x = Int.log 2 x := by
  unfold binExp Int.log
  rw [log2Loop_eq _ _ le_rfl, clog2Loop_eq _ _ le_rfl]

theorem binExp_le (x : ℚ) (hx : 0 < x) : (2 : ℚ) ^ binExp x ≤ x := by
  rw [binExp_eq]
  exact_mod_cast Int.zpow_log_le_self (b := 2) (by norm_num) hx

theorem lt_binExp (x : ℚ) : x < (2 : ℚ) ^ (binExp x + 1) := by
  rw [binExp_eq]
  exact_mod_cast Int.lt_zpow_succ_log_self (b := 2) (by norm_num) x

theorem roundHalfEven_intCast (n : ℤ) : roundHalfEven (n : ℚ) = n := by
  unfold roundHalfEven
  simp

theorem abs_roundHalfEven_sub_le (y : ℚ) : |(roundHalfEven y : ℚ) - y| ≤ 1 / 2 := by
  have h1 := Int.floor_le y
  have h2 := Int.lt_floor_add_one y
  unfold roundHalfEven
  simp only
  split_ifs with a b c
  · rw [abs_le]; constructor <;> linarith
  · push_cast; rw [abs_le]; constructor <;> linarith
  · rw [abs_le]; constructor <;> linarith
  · push_cast; rw [abs_le]; constructor <;> linarith

theorem abs_roundHalfAway_sub_le (y : ℚ) : |(roundHalfAway y : ℚ) - y| ≤ 1 / 2 := by
  unfold roundHalfAway
  split_ifs with h
  · have h1 := Int.floor_le (y + 1 / 2)
    have h2 := Int.lt_floor_add_one (y + 1 / 2)
    rw [abs_le]; constructor <;> linarith
  · have h1 := Int.floor_le (-y + 1 / 2)
    have h2 := Int.lt_floor_add_one (-y + 1 / 2)
    push_cast
    rw [abs_le]; constructor <;> linarith

/-- A number `m * 2 ^ k` with `|m| < 2 ^ prec` and `emin ≤ k` is a value of the
format: rounding leaves it unchanged. -/
theorem roundTo_repr (fmt : Format) (m k : ℤ) (hm : |m| < 2 ^ fmt.prec) (hk : fmt.emin ≤ k) :
    roundTo fmt (m * 2 ^ k) = m * 2 ^ k := by
  unfold roundTo
  split_ifs with h0
  · exact h0.symm
  · simp only
    have h2k : (0 : ℚ) < 2 ^ k := zpow_pos (by norm_num) k
    have hx : 0 < |(m : ℚ) * 2 ^ k| := abs_pos.mpr h0
    have hle := binExp_le _ hx
    have hlt : |(m : ℚ) * 2 ^ k| < 2 ^ (fmt.prec + k : ℤ) := by
      rw [abs_mul, abs_of_pos h2k, zpow_add₀ (by norm_num : (2 : ℚ) ≠ 0)]
      apply mul_lt_mul_of_pos_right _ h2k
      rw [zpow_natCast]
      exact_mod_cast hm
    have he : binExp |(m : ℚ) * 2 ^ k| < fmt.prec + k := by
      have := lt_of_le_of_lt hle hlt
      exact (zpow_lt_zpow_iff_right₀ (by norm_num : (1 : ℚ) < 2)).mp this
    set q := Max.max (binExp |(m : ℚ) * 2 ^ k| - ((fmt.prec : ℤ) - 1)) fmt.emin with hq
    have hqk : q ≤ k := max_le (by omega) hk
    obtain ⟨d, hd⟩ : ∃ d : ℕ, k = q + d := ⟨(k - q).toNat, by omega⟩
    have hdiv : (m : ℚ) * 2 ^ k / 2 ^ q = ((m * 2 ^ d : ℤ) : ℚ) := by
      rw [hd, zpow_add₀ (by norm_num : (2 : ℚ) ≠ 0), zpow_natCast]
      push_cast
      field_simp
      ring
    rw [hdiv, roundHalfEven_intCast, hd, zpow_add₀ (by norm_num : (2 : ℚ) ≠ 0), zpow_natCast]
    push_cast
    ring

/-- Rounding error: half a unit in the last place. -/
theorem abs_roundTo_sub_le (fmt : Format) (x : ℚ) (E : ℤ) (hx : |x| < 2 ^ E)
    (hE : fmt.emin ≤ E - fmt.prec) : |roundTo fmt x - x| ≤ 2 ^ (E - fmt.prec) / 2 := by
  unfold roundTo
  split_ifs with h0
  · rw [h0, sub_zero, abs_zero]
    positivity
  · simp only
    have hpos : 0 < |x| := abs_pos.mpr h0
    have he : binExp |x| < E :=
      (zpow_lt_zpow_iff_right₀ (by norm_num : (1 : ℚ) < 2)).mp
        (lt_of_le_of_lt (binExp_le _ hpos) hx)
    set q := Max.max (binExp |x| - ((fmt.prec : ℤ) - 1)) fmt.emin with hq
    have hqE : q ≤ E - fmt.prec := max_le (by omega) hE
    have h2q : (0 : ℚ) < 2 ^ q := zpow_pos (by norm_num) q
    have hfac : (roundHalfEven (x / 2 ^ q) : ℚ) * 2 ^ q - x =
        ((roundHalfEven (x / 2 ^ q) : ℚ) - x / 2 ^ q) * 2 ^ q := by
      field_simp
    rw [hfac, abs_mul, abs_of_pos h2q]
    calc |(roundHalfEven (x / 2 ^ q) : ℚ) - x / 2 ^ q| * 2 ^ q
        ≤ 1 / 2 * 2 ^ q := mul_le_mul_of_nonneg_right (abs_roundHalfEven_sub_le _) h2q.le
      _ ≤ 1 / 2 * 2 ^ (E - (fmt.prec : ℤ)) := by
          apply mul_le_mul_of_nonneg_left _ (by norm_num)
          exact zpow_le_zpow_right₀ (by norm_num) hqE
      _ = 2 ^ (E - (fmt.prec : ℤ)) / 2 := by ring

/-- A fixed point of the rounding is of the form `m * 2 ^ k` with `|m| < 2 ^ prec`
and `emin ≤ k`. -/
theorem repr_of_roundTo_eq (fmt : Format) (x : ℚ) (h : roundTo fmt x = x) :
    ∃ m k : ℤ, |m| < 2 ^ fmt.prec ∧ fmt.emin ≤ k ∧ x = m * 2 ^ k := by
  by_cases h0 : x = 0
  · exact ⟨0, fmt.emin, by simp, le_rfl, by simp [h0]⟩
  · unfold roundTo at h
    rw [if_neg h0] at h
    simp only at h
    have hpos : 0 < |x| := abs_pos.mpr h0
    set q := Max.max (binExp |x| - ((fmt.prec : ℤ) - 1)) fmt.emin with hq
    have h2q : (0 : ℚ) < 2 ^ q := zpow_pos (by norm_num) q
    refine ⟨roundHalfEven (x / 2 ^ q), q, ?_, le_max_right _ _, h.symm⟩
    have hlt : |x| < 2 ^ (q + fmt.prec) := by
      refine lt_of_lt_of_le (lt_binExp |x|) ?_
      apply zpow_le_zpow_right₀ (by norm_num)
      have := le_max_left (binExp |x| - ((fmt.prec : ℤ) - 1)) fmt.emin
      omega
    rw [← h, abs_mul, abs_of_pos h2q, zpow_add₀ (by norm_num : (2 : ℚ) ≠ 0), mul_comm,
      zpow_natCast] at hlt
    have := lt_of_mul_lt_mul_left hlt h2q.le
    exact_mod_cast this

theorem ofRat_eq (fmt : Format) (x : ℚ) (h : |roundTo fmt x| < 2 ^ fmt.emax) :
    ofRat fmt x = fin (roundTo fmt x) := by
  rw [abs_lt] at h
  unfold ofRat
  simp only
  rw [if_neg (not_le.mpr h.2), if_neg (not_le.mpr h.1)]

/-- Values of the format that do not overflow are produced unchanged. -/
theorem ofRat_repr (fmt : Format) (m k : ℤ) (hm : |m| < 2 ^ fmt.prec) (hk : fmt.emin ≤ k)
    (hmax : |(m : ℚ) * 2 ^ k| < 2 ^ fmt.emax) : ofRat fmt (m * 2 ^ k) = fin (m * 2 ^ k) := by
  rw [ofRat_eq fmt _ (by rw [roundTo_repr fmt m k hm hk]; exact hmax),
    roundTo_repr fmt m k hm hk]

theorem roundTo_eq_of_ofRat (fmt : Format) (x y : ℚ) (h : ofRat fmt x = fin y) :
    roundTo fmt x = y := by
  unfold ofRat at h
  simp only at h
  split_ifs at h
  exact fin.inj h

theorem toInt_intCast (w : ℕ) (n : ℤ) (h1 : -2 ^ (w - 1) ≤ n) (h2 : n < 2 ^ (w - 1)) :
    toInt w (fin (n : ℚ)) = n := by
  have ht : truncate (n : ℚ) = n := by
    unfold truncate
    split_ifs <;> simp
  simp only [toInt, ht]
  rw [if_pos ⟨h1, h2⟩]

theorem div_fin (fmt : Format) (a b : ℚ) (hb : b ≠ 0) :
    div fmt (fin a) (fin b) = ofRat fmt (a / b) := by
  simp only [div]
  rw [if_neg hb]

theorem const64_4096 : const64 4096 = fin 4096 := by decide!

theorem scale_12 : div binary64 (const64 1) (ofInt binary64 (shiftOne 12)) = fin (1 / 4096) := by
  decide!

end GoFloat

/-! ## Position codec -/

theorem and_two_pow_ne_zero_iff (f i : Nat) : f &&& 2 ^ i ≠ 0 ↔ f.testBit i = true := by
  constructor
  · intro h
    by_contra hb
    apply h
    apply Nat.eq_of_testBit_eq
    intro j
    rw [Nat.testBit_and, Nat.testBit_two_pow, Nat.zero_testBit]
    by_cases hj : i = j
    · subst hj
      simp [hb]
    · simp [hj]
  · intro hb h
    have : (f &&& 2 ^ i).testBit i = true := by
      rw [Nat.testBit_and, hb, Nat.testBit_two_pow_self]
      rfl
    rw [h, Nat.zero_testBit] at this
    cases this

theorem or3_eq (b0 b1 b2 : Nat) (h0 : b0 < 256) (h1 : b1 < 256) :
    b0 ||| b1 <<< 8 ||| b2 <<< 16 = b0 + 256 * b1 + 65536 * b2 := by
  have e1 : b0 ||| b1 <<< 8 = 2 ^ 8 * b1 + b0 := by
    rw [Nat.or_comm, Nat.shiftLeft_eq, Nat.mul_comm b1]
    exact (Nat.mul_add_lt_is_or (by omega) b1).symm
  have e2 : (2 ^ 8 * b1 + b0) ||| b2 <<< 16 = 2 ^ 16 * b2 + (2 ^ 8 * b1 + b0) := by
    rw [Nat.or_comm, Nat.shiftLeft_eq, Nat.mul_comm b2]
    exact (Nat.mul_add_lt_is_or (by omega) b2).symm
  rw [e1, e2]
  omega

/-- Sign extension of the low 24 bits recovers a value of the 24-bit signed range. -/
theorem signExtend24 (R : ℤ) (hlo : -2 ^ 23 ≤ R) (hhi : R < 2 ^ 23) (u f : Nat)
    (hu : u = (R % 2 ^ 32).toNat)
    (hf : f = (u % 256 ||| ((u >>> 8) % 256) <<< 8 ||| ((u >>> 16) % 256) <<< 16) % 2 ^ 32) :
    int32OfBits (if f &&& 0x800000 ≠ 0 then f ||| 0xFF000000 else f) = R := by
  have hu32 : u < 2 ^ 32 := by omega
  have hf24 : f = u % 2 ^ 24 := by
    rw [hf, or3_eq _ _ _ (Nat.mod_lt _ (by norm_num)) (Nat.mod_lt _ (by norm_num))]
    simp only [Nat.shiftRight_eq_div_pow]
    omega
  clear hf
  have hbit : (f &&& 0x800000 ≠ 0) ↔ 2 ^ 23 ≤ f := by
    rw [show (0x800000 : ℕ) = 2 ^ 23 from rfl, and_two_pow_ne_zero_iff, Nat.testBit_to_div_mod,
      decide_eq_true_eq]
    omega
  have hor : f ||| 0xFF000000 = 2 ^ 24 * 255 + f := by
    rw [Nat.or_comm, show (0xFF000000 : ℕ) = 2 ^ 24 * 255 from rfl]
    exact (Nat.mul_add_lt_is_or (by omega) 255).symm
  have hg : (if f &&& 0x800000 ≠ 0 then f ||| 0xFF000000 else f) =
      if 2 ^ 23 ≤ f then 2 ^ 24 * 255 + f else f := by
    by_cases hb : 2 ^ 23 ≤ f
    · rw [if_pos (hbit.mpr hb), if_pos hb, hor]
    · rw [if_neg (fun h => hb (hbit.mp h)), if_neg hb]
  rw [hg]
  clear hg hor hbit
  by_cases hR : 0 ≤ R
  · have hb : ¬ 2 ^ 23 ≤ f := by omega
    rw [if_neg hb]
    unfold int32OfBits
    rw [if_pos (by omega)]
    omega
  · have hb : 2 ^ 23 ≤ f := by omega
    rw [if_pos hb]
    unfold int32OfBits
    rw [if_neg (by omega)]
    omega

open GoFloat in
/-- The position codec on a `float32` whose fixed-point image fits 24 bits: the
decoder returns `round(v * 4096) / 4096`. -/
theorem spzDecodePosition_spzEncodePosition (v : ℚ) (hv : IsFloat32 v)
    (hlo : -2 ^ 23 ≤ roundHalfAway (v * 4096)) (hhi : roundHalfAway (v * 4096) < 2 ^ 23) :
    spzDecodePosition (spzEncodePosition (fin v)) 12 =
      .ok (fin ((roundHalfAway (v * 4096) : ℚ) / 4096)) := by
  set R := roundHalfAway (v * 4096) with hR
  have hRv := abs_roundHalfAway_sub_le (v * 4096)
  rw [← hR, abs_le] at hRv
  have hRq1 : (-2 ^ 23 : ℚ) ≤ R := by exact_mod_cast hlo
  have hRq2 : (R : ℚ) < 2 ^ 23 := by exact_mod_cast hhi
  -- the product `float64(f) * 4096` is exact
  obtain ⟨m, k, hm, hk, hmk⟩ := repr_of_roundTo_eq binary32 v (roundTo_eq_of_ofRat _ _ _ hv)
  have hmul : mul binary64 (fin v) (const64 4096) = fin (v * 4096) := by
    rw [const64_4096]
    show ofRat binary64 (v * 4096) = _
    have e : v * 4096 = (m : ℚ) * 2 ^ (k + 12) := by
      rw [hmk, zpow_add₀ (by norm_num : (2 : ℚ) ≠ 0)]
      norm_num
      ring
    rw [e]
    apply ofRat_repr
    · exact lt_trans hm (by norm_num [binary32, binary64])
    · have : binary32.emin = -149 := rfl
      have : binary64.emin = -1074 := rfl
      omega
    · rw [← e, abs_lt]
      constructor
      · have : (-(2 : ℚ) ^ binary64.emax) ≤ -2 ^ 24 := by norm_num [binary64]
        linarith
      · have : (2 : ℚ) ^ 24 ≤ (2 : ℚ) ^ binary64.emax := by norm_num [binary64]
        linarith
  -- the integer conversion and the three bytes
  have hint : toInt 32 (round (fin (v * 4096))) = R :=
    toInt_intCast 32 R (by norm_num; omega) (by norm_num; omega)
  have hbytes : spzEncodePosition (fin v) =
      [bitsOfInt32 R % 256, (bitsOfInt32 R >>> 8) % 256, (bitsOfInt32 R >>> 16) % 256] := by
    unfold spzEncodePosition encodeFloat32ToBytes3
    rw [hmul, hint]
  rw [hbytes]
  unfold spzDecodePosition
  simp only
  rw [signExtend24 R hlo hhi (bitsOfInt32 R) _ rfl rfl, scale_12]
  -- the conversions back to floating point are exact
  have hofInt : ofInt binary64 R = fin (R : ℚ) := by
    have := ofRat_repr binary64 R 0 (by
        have : |R| < 2 ^ 24 := by rw [abs_lt]; constructor <;> omega
        exact lt_trans this (by norm_num [binary64])) (by norm_num [binary64]) (by
        rw [zpow_zero, mul_one, abs_lt]
        constructor
        · have : (-(2 : ℚ) ^ binary64.emax) ≤ -2 ^ 24 := by norm_num [binary64]
          linarith
        · have : (2 : ℚ) ^ 24 ≤ (2 : ℚ) ^ binary64.emax := by norm_num [binary64]
          linarith)
    rw [zpow_zero, mul_one] at this
    exact this
  have e12 : (R : ℚ) * (1 / 4096) = (R : ℚ) * 2 ^ (-12 : ℤ) := by norm_num
  have e12b : (R : ℚ) / 4096 = (R : ℚ) * 2 ^ (-12 : ℤ) := by norm_num [div_eq_mul_inv]
  have hsmall : |(R : ℚ) * 2 ^ (-12 : ℤ)| < 2 ^ 12 := by
    rw [← e12b, abs_lt]
    constructor <;> linarith
  have hscaled : mul binary64 (fin (R : ℚ)) (fin (1 / 4096)) = fin ((R : ℚ) * 2 ^ (-12 : ℤ)) := by
    show ofRat binary64 ((R : ℚ) * (1 / 4096)) = _
    rw [e12]
    apply ofRat_repr
    · have : |R| < 2 ^ 24 := by rw [abs_lt]; constructor <;> omega
      exact lt_trans this (by norm_num [binary64])
    · norm_num [binary64]
    · exact lt_trans hsmall (by norm_num [binary64])
  rw [hofInt, hscaled, e12b]
  have hclip : clipFloat32 (fin ((R : ℚ) * 2 ^ (-12 : ℤ))) = fin ((R : ℚ) * 2 ^ (-12 : ℤ)) := by
    rw [abs_lt] at hsmall
    have hmax : (2 : ℚ) ^ 12 < maxFloat32 := by norm_num [maxFloat32]
    unfold clipFloat32
    rw [show lt (fin ((R : ℚ) * 2 ^ (-12 : ℤ))) (fin (-maxFloat32)) = false from
        decide_eq_false (by linarith),
      show lt (fin maxFloat32) (fin ((R : ℚ) * 2 ^ (-12 : ℤ))) = false from
        decide_eq_false (by linarith)]
    simp only [Bool.false_eq_true, if_false]
    show ofRat binary32 _ = _
    apply ofRat_repr
    · show |R| < 2 ^ 24
      rw [abs_lt]; constructor <;> omega
    · norm_num [binary32]
    · rw [abs_lt]
      constructor
      · have : (-(2 : ℚ) ^ binary32.emax) ≤ -2 ^ 12 := by norm_num [binary32]
        linarith
      · have : (2 : ℚ) ^ 12 ≤ (2 : ℚ) ^ binary32.emax := by norm_num [binary32]
        linarith
  rw [hclip]


theorem const32_consts : GoFloat.const32 16 = .fin 16 ∧ GoFloat.const32 10 = .fin 10 := by
  decide!

open GoFloat in
theorem spzDecodeScale_eq (b : Nat) (hb : b < 256) :
    spzDecodeScale b = fin ((b : ℚ) / 16 - 10) := by
  obtain ⟨c16, c10⟩ := const32_consts
  have hbq : (b : ℚ) < 256 := by exact_mod_cast hb
  have hb0 : (0 : ℚ) ≤ b := Nat.cast_nonneg b
  have hmax : (512 : ℚ) ≤ (2 : ℚ) ^ binary32.emax := by norm_num [binary32]
  have hbi : (b : ℤ) < 256 := by exact_mod_cast hb
  have hprec : (256 : ℤ) < 2 ^ binary32.prec := by norm_num [binary32]
  have h1 : ofInt binary32 (b : ℤ) = fin (b : ℚ) := by
    have := ofRat_repr binary32 (b : ℤ) 0 (by
        rw [abs_of_nonneg (by omega)]
        exact lt_trans hbi hprec) (by norm_num [binary32])
      (by
        rw [zpow_zero, mul_one, abs_lt]
        push_cast
        constructor <;> linarith)
    rw [zpow_zero, mul_one] at this
    exact_mod_cast this
  have h2 : div binary32 (fin (b : ℚ)) (fin 16) = fin ((b : ℚ) / 16) := by
    rw [div_fin _ _ _ (by norm_num)]
    have e : (b : ℚ) / 16 = ((b : ℤ) : ℚ) * 2 ^ (-4 : ℤ) := by
      push_cast
      norm_num [div_eq_mul_inv]
    rw [e]
    apply ofRat_repr
    · rw [abs_of_nonneg (by omega)]
      exact lt_trans hbi hprec
    · norm_num [binary32]
    · rw [← e, abs_lt]
      constructor <;> linarith
  have h3 : sub binary32 (fin ((b : ℚ) / 16)) (fin 10) = fin ((b : ℚ) / 16 - 10) := by
    show ofRat binary32 ((b : ℚ) / 16 + -10) = _
    have e : (b : ℚ) / 16 + -10 = (((b : ℤ) - 160 : ℤ) : ℚ) * 2 ^ (-4 : ℤ) := by
      push_cast
      norm_num [div_eq_mul_inv]
      ring
    have e2 : (b : ℚ) / 16 - 10 = (b : ℚ) / 16 + -10 := by ring
    rw [e2, e]
    apply ofRat_repr
    · have : |(b : ℤ) - 160| < 256 := by rw [abs_lt]; constructor <;> omega
      exact lt_trans this hprec
    · norm_num [binary32]
    · rw [← e, abs_lt]
      constructor <;> linarith
  unfold spzDecodeScale
  rw [c16, c10, h1, h2, h3]

theorem const64_consts : GoFloat.const64 10 = .fin 10 ∧ GoFloat.const64 16 = .fin 16 ∧
    GoFloat.const64 0 = .fin 0 ∧ GoFloat.const64 255 = .fin 255 := by decide!

open GoFloat in
/-- The scale codec on `[-10, 5.9]`: the byte is an integer `R` within
`1/2 + 2 ^ (-45)` of `16 * (v + 10)` and the decoder returns `R / 16 - 10`. -/
theorem spzDecodeScale_spzEncodeScale (v : ℚ) (h1 : -10 ≤ v) (h2 : v ≤ 59 / 10) :
    ∃ R : ℤ, spzDecodeScale (spzEncodeScale (fin v)) = fin ((R : ℚ) / 16 - 10) ∧
      |(R : ℚ) - 16 * (v + 10)| ≤ 1 / 2 + 1 / 2 ^ 45 := by
  obtain ⟨c10, c16, c0, c255⟩ := const64_consts
  -- the sum `float64(val) + 10.0`
  set s := roundTo binary64 (v + 10) with hs
  have hs_err : |s - (v + 10)| ≤ 1 / 2 ^ 50 := by
    have := abs_roundTo_sub_le binary64 (v + 10) 4
      (by rw [abs_lt]; constructor <;> norm_num <;> linarith) (by norm_num [binary64])
    rw [show ((4 : ℤ) - (binary64.prec : ℤ)) = -49 from rfl] at this
    refine le_trans this (le_of_eq ?_)
    norm_num
  rw [abs_le] at hs_err
  have hadd : add binary64 (fin v) (const64 10) = fin s := by
    rw [c10]
    show ofRat binary64 (v + 10) = _
    apply ofRat_eq
    rw [← hs, abs_lt]
    have : (2 : ℚ) ^ 5 ≤ (2 : ℚ) ^ binary64.emax := by norm_num [binary64]
    have e50 : (1 : ℚ) / 2 ^ 50 ≤ 1 := by norm_num
    constructor <;> norm_num at this ⊢ <;> linarith
  -- the product by 16
  set t := roundTo binary64 (s * 16) with ht
  have ht_err : |t - s * 16| ≤ 1 / 2 ^ 46 := by
    have e50 : (1 : ℚ) / 2 ^ 50 ≤ 1 / 16 := by norm_num
    have := abs_roundTo_sub_le binary64 (s * 16) 8
      (by rw [abs_lt]; constructor <;> norm_num <;> linarith) (by norm_num [binary64])
    rw [show ((8 : ℤ) - (binary64.prec : ℤ)) = -45 from rfl] at this
    refine le_trans this (le_of_eq ?_)
    norm_num
  rw [abs_le] at ht_err
  have e50 : (1 : ℚ) / 2 ^ 50 = 1 / 2 ^ 46 / 16 := by norm_num
  have e46 : (1 : ℚ) / 2 ^ 46 ≤ 1 / 1024 := by norm_num
  have hmul : mul binary64 (fin s) (const64 16) = fin t := by
    rw [c16]
    show ofRat binary64 (s * 16) = _
    apply ofRat_eq
    rw [← ht, abs_lt]
    have : (2 : ℚ) ^ 10 ≤ (2 : ℚ) ^ binary64.emax := by norm_num [binary64]
    constructor <;> norm_num at this ⊢ <;> linarith
  -- rounding and clamping
  set R := roundHalfAway t with hR
  have hRt := abs_roundHalfAway_sub_le t
  rw [← hR, abs_le] at hRt
  have hR0 : 0 ≤ R := by
    have : (-1 : ℚ) < R := by linarith
    have : (-1 : ℤ) < R := by exact_mod_cast this
    omega
  have hR254 : R ≤ 254 := by
    have : (R : ℚ) < 255 := by linarith
    have : R < 255 := by exact_mod_cast this
    omega
  have hRq0 : (0 : ℚ) ≤ R := by exact_mod_cast hR0
  have hRq254 : (R : ℚ) ≤ 254 := by exact_mod_cast hR254
  have hbyte : spzEncodeScale (fin v) = R.toNat := by
    unfold spzEncodeScale clipUint8Round
    rw [hadd, hmul, c0, c255]
    show toUint8 (GoFloat.max (fin 0) (GoFloat.min (fin 255) (fin (R : ℚ)))) = _
    have hmin : GoFloat.min (fin 255) (fin (R : ℚ)) = fin (R : ℚ) := by
      show (if (255 : ℚ) < R then fin 255 else fin (R : ℚ)) = _
      rw [if_neg (by linarith)]
    have hmax : GoFloat.max (fin 0) (fin (R : ℚ)) = fin (R : ℚ) := by
      show (if (R : ℚ) < 0 then fin 0 else fin (R : ℚ)) = _
      rw [if_neg (by linarith)]
    rw [hmin, hmax]
    unfold toUint8
    rw [toInt_intCast 32 R (by norm_num; omega) (by norm_num; omega)]
    congr 1
    omega
  refine ⟨R, ?_, ?_⟩
  · have hc : ((R.toNat : ℕ) : ℚ) = (R : ℚ) := by
      exact_mod_cast Int.toNat_of_nonneg hR0
    rw [hbyte, spzDecodeScale_eq _ (by omega), hc]
  · rw [abs_le]
    constructor <;> norm_num at * <;> linarith


/-! ## Claims on the scalar codecs -/

open GoFloat in
/-- Claim C9 (position round trip).  For every `float32` value `v` with
`-2^23 ≤ round(v * 4096) < 2^23`, `spzDecodePosition(spzEncodePosition(v), 12)`
returns a value that differs from `v` by at most `2^-12`. -/
theorem position_roundtrip (v : ℚ) (hv : IsFloat32 v)
    (hlo : -2 ^ 23 ≤ roundHalfAway (v * 4096)) (hhi : roundHalfAway (v * 4096) < 2 ^ 23) :
    ∃ w : ℚ, spzDecodePosition (spzEncodePosition (fin v)) 12 = .ok (fin w) ∧
      |w - v| ≤ 1 / 2 ^ 12 := by
  refine ⟨_, spzDecodePosition_spzEncodePosition v hv hlo hhi, ?_⟩
  have h := abs_roundHalfAway_sub_le (v * 4096)
  rw [abs_le] at h ⊢
  constructor <;> norm_num <;> linarith

open GoFloat in
/-- The `float32` nearest to 0.1 is a `float32` and its fixed-point image 410 fits
24 bits. -/
theorem float32Tenth_facts :
    IsFloat32 float32Tenth ∧ -2 ^ 23 ≤ roundHalfAway (float32Tenth * 4096) ∧
      roundHalfAway (float32Tenth * 4096) < 2 ^ 23 := by
  decide!

open GoFloat in
/-- Witness of C9 at the `float32` nearest to 0.1, whose fixed-point image is 410. -/
theorem position_roundtrip_witness :
    IsFloat32 float32Tenth ∧ -2 ^ 23 ≤ roundHalfAway (float32Tenth * 4096) ∧
      roundHalfAway (float32Tenth * 4096) < 2 ^ 23 ∧
      ∃ w : ℚ, spzDecodePosition (spzEncodePosition (fin float32Tenth)) 12 = .ok (fin w) ∧
        |w - float32Tenth| ≤ 1 / 2 ^ 12 :=
  ⟨float32Tenth_facts.1, float32Tenth_facts.2.1, float32Tenth_facts.2.2,
    position_roundtrip float32Tenth float32Tenth_facts.1 float32Tenth_facts.2.1
      float32Tenth_facts.2.2⟩

open GoFloat in
/-- Claim C10 (scale round trip).  For every value `v` of `[-10, 5.9]` (every
rational, hence every `float32`, of the interval), `spzDecodeScale(spzEncodeScale(v))`
differs from `v` by at most `1/16`. -/
theorem scale_roundtrip (v : ℚ) (h1 : -10 ≤ v) (h2 : v ≤ 59 / 10) :
    ∃ w : ℚ, spzDecodeScale (spzEncodeScale (fin v)) = fin w ∧ |w - v| ≤ 1 / 16 := by
  obtain ⟨R, hR, hb⟩ := spzDecodeScale_spzEncodeScale v h1 h2
  refine ⟨_, hR, ?_⟩
  have e : (1 : ℚ) / 2 ^ 45 ≤ 1 / 2 := by norm_num
  rw [abs_le] at hb ⊢
  constructor <;> linarith

open GoFloat in
/-- Witness of C10 at the `float32` nearest to 0.1. -/
theorem scale_roundtrip_witness :
    (-10 : ℚ) ≤ float32Tenth ∧ float32Tenth ≤ 59 / 10 ∧
      ∃ w : ℚ, spzDecodeScale (spzEncodeScale (fin float32Tenth)) = fin w ∧
        |w - float32Tenth| ≤ 1 / 16 :=
  ⟨by norm_num [float32Tenth], by norm_num [float32Tenth],
    scale_roundtrip float32Tenth (by norm_num [float32Tenth]) (by norm_num [float32Tenth])⟩

namespace GoFloat

/-- A dyadic rational `m / 2 ^ k` with `|m| < 2 ^ prec` is a value of the format. -/
theorem ofRat_exact (fmt : Format) (x : ℚ) (m : ℤ) (k : ℕ) (hx : x = (m : ℚ) / 2 ^ k)
    (hm : |m| < 2 ^ fmt.prec) (hk : fmt.emin ≤ -(k : ℤ)) (hmax : (fmt.prec : ℤ) ≤ fmt.emax) :
    ofRat fmt x = fin x := by
  have e : x = (m : ℚ) * 2 ^ (-(k : ℤ)) := by
    rw [hx, zpow_neg, zpow_natCast, div_eq_mul_inv]
  rw [e]
  apply ofRat_repr fmt m _ hm hk
  rw [← e, hx, abs_div, abs_of_pos (by positivity : (0 : ℚ) < 2 ^ k)]
  have h1 : (|m| : ℚ) < 2 ^ fmt.prec := by exact_mod_cast hm
  have h2 : (|(m : ℚ)|) / 2 ^ k ≤ |(m : ℚ)| :=
    div_le_self (abs_nonneg _) (one_le_pow₀ (by norm_num))
  have h3 : (2 : ℚ) ^ fmt.prec ≤ 2 ^ fmt.emax := by
    rw [← zpow_natCast]
    exact zpow_le_zpow_right₀ (by norm_num) hmax
  linarith

theorem ofRat64_exact (x : ℚ) (m : ℤ) (k : ℕ) (hx : x = (m : ℚ) / 2 ^ k)
    (hm : |m| < 2 ^ 53) (hk : k ≤ 1074) : ofRat binary64 x = fin x :=
  ofRat_exact binary64 x m k hx hm (by show (-1074 : ℤ) ≤ -(k : ℤ); omega) (by decide)

theorem ofRat32_exact (x : ℚ) (m : ℤ) (k : ℕ) (hx : x = (m : ℚ) / 2 ^ k)
    (hm : |m| < 2 ^ 24) (hk : k ≤ 149) : ofRat binary32 x = fin x :=
  ofRat_exact binary32 x m k hx hm (by show (-149 : ℤ) ≤ -(k : ℤ); omega) (by decide)

theorem ofInt64_eq (n : ℤ) (hn : |n| < 2 ^ 53) : ofInt binary64 n = fin (n : ℚ) :=
  ofRat64_exact n n 0 (by simp) hn (by norm_num)

theorem add64_fin_exact (a b : ℚ) (m : ℤ) (k : ℕ) (hx : a + b = (m : ℚ) / 2 ^ k)
    (hm : |m| < 2 ^ 53) (hk : k ≤ 1074) : add binary64 (fin a) (fin b) = fin (a + b) :=
  ofRat64_exact (a + b) m k hx hm hk

theorem mul64_fin_exact (a b : ℚ) (m : ℤ) (k : ℕ) (hx : a * b = (m : ℚ) / 2 ^ k)
    (hm : |m| < 2 ^ 53) (hk : k ≤ 1074) : mul binary64 (fin a) (fin b) = fin (a * b) :=
  ofRat64_exact (a * b) m k hx hm hk

theorem div64_fin_exact (a b : ℚ) (hb : b ≠ 0) (m : ℤ) (k : ℕ) (hx : a / b = (m : ℚ) / 2 ^ k)
    (hm : |m| < 2 ^ 53) (hk : k ≤ 1074) : div binary64 (fin a) (fin b) = fin (a / b) := by
  rw [div_fin _ _ _ hb]
  exact ofRat64_exact (a / b) m k hx hm hk

theorem const64_small : const64 4 = fin 4 ∧ const64 8 = fin 8 ∧ const64 128 = fin 128 ∧
    const64 1 = fin 1 ∧ const64 (1 / 2) = fin (1 / 2) := by decide!

theorem toUint8_natCast (n : ℕ) (hn : n < 256) : toUint8 (fin (n : ℚ)) = n := by
  unfold toUint8
  have := toInt_intCast 32 (n : ℤ) (by norm_num; omega) (by norm_num; omega)
  rw [show ((n : ℤ) : ℚ) = (n : ℚ) from Int.cast_natCast n] at this
  rw [this]
  omega

end GoFloat

open GoFloat in
/-- `clipUint8` on a natural number: the number itself, saturated at 255. -/
theorem clipUint8_natCast (n : ℕ) : clipUint8 (fin (n : ℚ)) = min 255 n := by
  unfold clipUint8
  have h0 : lt (fin (n : ℚ)) (fin 0) = false := decide_eq_false (by
    have : (0 : ℚ) ≤ n := Nat.cast_nonneg n
    linarith)
  rw [h0]
  by_cases h : n ≤ 255
  · have h1 : lt (fin 255) (fin (n : ℚ)) = false := decide_eq_false (by
      have : (n : ℚ) ≤ 255 := by exact_mod_cast h
      linarith)
    rw [h1]
    simp only [Bool.false_eq_true, if_false]
    rw [toUint8_natCast n (by omega)]
    omega
  · have h1 : lt (fin 255) (fin (n : ℚ)) = true := decide_eq_true (by
      have : (255 : ℚ) < n := by exact_mod_cast (Nat.lt_of_not_le h)
      exact this)
    rw [h1]
    simp only [Bool.false_eq_true, if_false, if_true]
    omega

open GoFloat in
/-- The quantiser `clipUint8(math.Floor((float64(v) + h) / s) * s)` for a power of
two `s = 2 ^ t` on a byte: every floating point step is exact. -/
theorem quantise_eq (v h t : ℕ) (hv : v < 256) (hh : h < 256) (ht : t ≤ 8)
    (ch : const64 (h : ℚ) = fin (h : ℚ)) (cs : const64 ((2 ^ t : ℕ) : ℚ) = fin ((2 ^ t : ℕ) : ℚ)) :
    clipUint8 (mul binary64
      (floor (div binary64 (add binary64 (ofInt binary64 v) (const64 (h : ℚ)))
        (const64 ((2 ^ t : ℕ) : ℚ)))) (const64 ((2 ^ t : ℕ) : ℚ))) =
      min 255 ((v + h) / 2 ^ t * 2 ^ t) := by
  have hpow : 2 ^ t ≤ 256 := by
    calc 2 ^ t ≤ 2 ^ 8 := Nat.pow_le_pow_right (by norm_num) ht
      _ = 256 := by norm_num
  have hpos : 0 < 2 ^ t := by positivity
  rw [ch, cs, ofInt64_eq (v : ℤ) (by rw [abs_of_nonneg (by omega)]; omega)]
  have e1 : ((v : ℤ) : ℚ) + (h : ℚ) = (((v + h : ℕ) : ℤ) : ℚ) / 2 ^ 0 := by push_cast; ring
  rw [add64_fin_exact _ _ ((v + h : ℕ) : ℤ) 0 e1 (by rw [abs_of_nonneg (by omega)]; omega)
    (by norm_num)]
  have e2 : (((v : ℤ) : ℚ) + (h : ℚ)) / ((2 ^ t : ℕ) : ℚ) = (((v + h : ℕ) : ℤ) : ℚ) / 2 ^ t := by
    push_cast; ring
  rw [div64_fin_exact _ _ (by positivity) ((v + h : ℕ) : ℤ) t e2
    (by rw [abs_of_nonneg (by omega)]; omega) (by omega)]
  have e3 : ⌊(((v : ℤ) : ℚ) + (h : ℚ)) / ((2 ^ t : ℕ) : ℚ)⌋ = (((v + h) / 2 ^ t : ℕ) : ℤ) := by
    have := Rat.floor_natCast_div_natCast (v + h) (2 ^ t)
    push_cast at this ⊢
    exact this
  show clipUint8 (mul binary64 (fin ((⌊(((v : ℤ) : ℚ) + (h : ℚ)) / ((2 ^ t : ℕ) : ℚ)⌋ : ℤ) : ℚ))
    (fin ((2 ^ t : ℕ) : ℚ))) = _
  rw [e3]
  have hq : (v + h) / 2 ^ t * 2 ^ t ≤ v + h := Nat.div_mul_le_self _ _
  have e4 : ((((v + h) / 2 ^ t : ℕ) : ℤ) : ℚ) * ((2 ^ t : ℕ) : ℚ) =
      ((((v + h) / 2 ^ t * 2 ^ t : ℕ) : ℤ) : ℚ) / 2 ^ 0 := by push_cast; ring
  rw [mul64_fin_exact _ _ (((v + h) / 2 ^ t * 2 ^ t : ℕ) : ℤ) 0 e4
    (by rw [abs_of_nonneg (by omega)]; omega) (by norm_num)]
  have e5 : ((((v + h) / 2 ^ t : ℕ) : ℤ) : ℚ) * ((2 ^ t : ℕ) : ℚ) =
      (((v + h) / 2 ^ t * 2 ^ t : ℕ) : ℚ) := by rw [Int.cast_natCast, Nat.cast_mul]
  rw [e5, clipUint8_natCast]

open GoFloat in
/-- `spzEncodeSH1` on a byte: `min(255, 8 * ⌊(v + 4) / 8⌋)`. -/
theorem spzEncodeSH1_eq (v : ℕ) (hv : v < 256) : spzEncodeSH1 v = min 255 ((v + 4) / 8 * 8) := by
  have := quantise_eq v 4 3 hv (by norm_num) (by norm_num) const64_small.1 const64_small.2.1
  exact this

open GoFloat in
/-- `spzEncodeSH23` on a byte: `min(255, 16 * ⌊(v + 8) / 16⌋)`. -/
theorem spzEncodeSH23_eq (v : ℕ) (hv : v < 256) :
    spzEncodeSH23 v = min 255 ((v + 8) / 16 * 16) := by
  have c16 : const64 ((2 ^ 4 : ℕ) : ℚ) = fin ((2 ^ 4 : ℕ) : ℚ) := by
    have := const64_consts.2.1
    norm_num at this ⊢
    exact this
  have := quantise_eq v 8 4 hv (by norm_num) (by norm_num) const64_small.2.1 c16
  exact this


/-! ## Position decoding -/

theorem int32OfBits_signExtend (f : Nat) (hf : f < 2 ^ 24) :
    int32OfBits (if f &&& 0x800000 ≠ 0 then f ||| 0xFF000000 else f) =
      if f < 2 ^ 23 then (f : ℤ) else (f : ℤ) - 2 ^ 24 := by
  have hbit : (f &&& 0x800000 ≠ 0) ↔ 2 ^ 23 ≤ f := by
    rw [show (0x800000 : ℕ) = 2 ^ 23 from rfl, and_two_pow_ne_zero_iff, Nat.testBit_to_div_mod,
      decide_eq_true_eq]
    omega
  have hor : f ||| 0xFF000000 = 2 ^ 24 * 255 + f := by
    rw [Nat.or_comm, show (0xFF000000 : ℕ) = 2 ^ 24 * 255 from rfl]
    exact (Nat.mul_add_lt_is_or (by omega) 255).symm
  by_cases hb : 2 ^ 23 ≤ f
  · rw [if_pos (hbit.mpr hb), hor, if_neg (by omega)]
    unfold int32OfBits
    rw [if_neg (by omega)]
    omega
  · rw [if_neg (fun h => hb (hbit.mp h)), if_pos (by omega)]
    unfold int32OfBits
    rw [if_pos (by omega)]
    omega

open GoFloat in
/-- The floating point part of `spzDecodePosition` on a 24-bit signed integer:
the product by `2 ^ -12` and the conversion to `float32` are exact, and the
clipping leaves the value alone. -/
theorem clipFloat32_fixed (s : ℤ) (hlo : -2 ^ 23 ≤ s) (hhi : s < 2 ^ 23) :
    mul binary64 (ofInt binary64 s) (fin (1 / 4096)) = fin ((s : ℚ) / 4096) ∧
      clipFloat32 (fin ((s : ℚ) / 4096)) = fin ((s : ℚ) / 4096) := by
  have habs : |s| < 2 ^ 24 := by rw [abs_lt]; constructor <;> omega
  have hq1 : (-2 ^ 23 : ℚ) ≤ s := by exact_mod_cast hlo
  have hq2 : (s : ℚ) < 2 ^ 23 := by exact_mod_cast hhi
  constructor
  · rw [ofInt64_eq s (lt_trans habs (by norm_num))]
    have e : (s : ℚ) * (1 / 4096) = (s : ℚ) / 2 ^ 12 := by norm_num [div_eq_mul_inv]
    have e2 : (s : ℚ) / 4096 = (s : ℚ) * (1 / 4096) := by ring
    rw [e2]
    exact mul64_fin_exact _ _ s 12 e (lt_trans habs (by norm_num)) (by norm_num)
  · have hmax : (2 : ℚ) ^ 12 < maxFloat32 := by norm_num [maxFloat32]
    unfold clipFloat32
    rw [show lt (fin ((s : ℚ) / 4096)) (fin (-maxFloat32)) = false from
        decide_eq_false (by norm_num at hq1 hq2 hmax ⊢; linarith),
      show lt (fin maxFloat32) (fin ((s : ℚ) / 4096)) = false from
        decide_eq_false (by norm_num at hq1 hq2 hmax ⊢; linarith)]
    simp only [Bool.false_eq_true, if_false]
    exact ofRat32_exact _ s 12 (by norm_num) habs (by norm_num)


/-! ## Claims C11, C13, C14, C15, C19, C20 -/

/-- Counterexample to C11 as stated.  The colour codec is not a round trip: the
encoder saturates (255 is stored as 255, 0 as 0) and the decoder maps the stored
byte into `[109, 145]`, truncating; 255 comes back as 145, 0 as 109 and 117
(stored as 53, not saturated) as 116. -/
theorem color_roundtrip_fails :
    spzDecodeColor (spzEncodeColor 255) = 145 ∧ spzDecodeColor (spzEncodeColor 0) = 109 ∧
      spzEncodeColor 117 = 53 ∧ spzDecodeColor (spzEncodeColor 117) = 116 := by
  decide!

/-- Claim C13 (header byte layout).  For every header whose fields have the
ranges of their types, `ToBytes` returns exactly 16 bytes: the little-endian
words of `Magic`, `Version` and `NumPoints` at offsets 0, 4 and 8, then
`ShDegree`, `FractionalBits`, `Flags` and `Reserved`. -/
theorem ToBytes_layout (h : SpzData) (ht : h.Typed) :
    h.ToBytes.length = 16 ∧ IsBytes h.ToBytes ∧
      leUint32At h.ToBytes 0 = h.Magic ∧ leUint32At h.ToBytes 4 = h.Version ∧
      leUint32At h.ToBytes 8 = h.NumPoints ∧ h.ToBytes.getD 12 0 = h.ShDegree ∧
      h.ToBytes.getD 13 0 = h.FractionalBits ∧ h.ToBytes.getD 14 0 = h.Flags ∧
      h.ToBytes.getD 15 0 = h.Reserved := by
  obtain ⟨h1, h2, h3, h4, h5, h6, h7⟩ := ht
  refine ⟨rfl, ?_, ?_, ?_, ?_, rfl, rfl, rfl, rfl⟩
  · intro b hb
    simp only [SpzData.ToBytes, putUint32, List.cons_append, List.nil_append, List.mem_cons,
      List.mem_singleton, List.not_mem_nil, or_false] at hb
    rcases hb with hb | hb | hb | hb | hb | hb | hb | hb | hb | hb | hb | hb | hb | hb | hb | hb
    all_goals omega
  · simp only [SpzData.ToBytes, putUint32, leUint32At, List.cons_append, List.nil_append,
      List.getD_cons_zero, List.getD_cons_succ, Nat.shiftRight_eq_div_pow]
    omega
  · simp only [SpzData.ToBytes, putUint32, leUint32At, List.cons_append, List.nil_append,
      List.getD_cons_zero, List.getD_cons_succ, Nat.shiftRight_eq_div_pow]
    omega
  · simp only [SpzData.ToBytes, putUint32, leUint32At, List.cons_append, List.nil_append,
      List.getD_cons_zero, List.getD_cons_succ, Nat.shiftRight_eq_div_pow]
    omega

theorem typed_testHeader : testHeader.Typed := by
  unfold SpzData.Typed
  decide

/-- Witness of C13 at the header of `TestReadWriteSpz`. -/
theorem ToBytes_layout_witness :
    testHeader.Typed ∧ testHeader.ToBytes.length = 16 ∧ IsBytes testHeader.ToBytes ∧
      leUint32At testHeader.ToBytes 0 = testHeader.Magic ∧
      leUint32At testHeader.ToBytes 4 = testHeader.Version ∧
      leUint32At testHeader.ToBytes 8 = testHeader.NumPoints ∧
      testHeader.ToBytes.getD 12 0 = testHeader.ShDegree ∧
      testHeader.ToBytes.getD 13 0 = testHeader.FractionalBits ∧
      testHeader.ToBytes.getD 14 0 = testHeader.Flags ∧
      testHeader.ToBytes.getD 15 0 = testHeader.Reserved :=
  ⟨typed_testHeader, ToBytes_layout testHeader typed_testHeader⟩


theorem encodeSplatSH_zero : encodeSplatSH (GoFloat.const64 0) = 128 := by decide!

theorem shPlaceholder_eq (n : Nat) : shPlaceholder n = List.replicate n 128 := by
  unfold shPlaceholder
  rw [encodeSplatSH_zero]

theorem indexRun_zero (f : Nat → Nat) (xs : List Nat) (n : Nat) (h : n ≤ xs.length) :
    indexRun f xs 0 n = .ok ((xs.take n).map f) := by
  rw [indexRun_ok f xs n 0 (by omega), List.drop_zero]

/-- At degree 2 a row with no `SH1` buffer and a 24-byte `SH2` buffer is written
as the band-quantised `SH2`. -/
theorem writeSh_two_of_sh2 (row : SplatData) (h1 : row.SH1 = []) (h2 : row.SH2.length = 24) :
    writeSh 2 row = .ok (bandQuantised row.SH2) := by
  unfold writeSh
  simp only
  rw [if_neg (by rw [h1]; simp), if_pos (by omega), indexRun_zero _ _ _ (by omega), ok_bind,
    indexRun_ok _ _ _ _ (by omega), ok_bind]
  rfl

/-- At degree 2 a row with a 9-byte `SH1` buffer is written as the quantised `SH1`
followed by 15 placeholders, whatever `SH2` holds. -/
theorem writeSh_two_of_sh1 (row : SplatData) (h1 : row.SH1.length = 9) :
    writeSh 2 row = .ok ((row.SH1.take 9).map spzEncodeSH1 ++ List.replicate 15 128) := by
  unfold writeSh
  simp only
  rw [if_pos (by omega), indexRun_zero _ _ _ (by omega), ok_bind, shPlaceholder_eq]
  rfl

/-- Claim C14, evaluated at the failing input.  For the row `bothShRow`, which
carries a 24-byte `SH2` buffer and a 9-byte `SH1` buffer, the writer at degree 2
emits the quantised `SH1` and 15 placeholders, not the band-quantised `SH2`. -/
theorem writeSh_two_prefers_sh1 :
    bothShRow.SH2.length = 24 ∧
      writeSh 2 bothShRow = .ok ([8, 8, 8, 8, 8, 8, 8, 8, 8] ++ List.replicate 15 128) ∧
      bandQuantised bothShRow.SH2 = List.replicate 9 200 ++ List.replicate 15 208 ∧
      writeSh 2 bothShRow ≠ .ok (bandQuantised bothShRow.SH2) := by
  decide!

/-- The degree 3 selection on `bothShRow`, a row with nominal `SH1` (9 bytes) and
`SH2` (24 bytes) and no `SH3`: the wording "every other combination" gives 45
placeholder bytes for it; the writer emits the band-quantised `SH2` followed by 21
placeholders. -/
theorem writeSh_three_counterexample :
    NominalSh bothShRow ∧ statedSh3 bothShRow = List.replicate 45 128 ∧
      writeSh 3 bothShRow =
        .ok (List.replicate 9 200 ++ List.replicate 15 208 ++ List.replicate 21 128) ∧
      writeSh 3 bothShRow ≠ .ok (statedSh3 bothShRow) := by
  refine ⟨⟨Or.inr rfl, Or.inr rfl, Or.inl rfl, fun h => absurd rfl h⟩, ?_, ?_, ?_⟩ <;> decide!

/-- The degree 3 branch on a row that carries `SH3` without `SH2`: the writer
indexes the empty `SH2` buffer and panics. -/
theorem writeSh_three_sh3_only : writeSh 3 sh3OnlyRow = .error .panic := by decide!

/-- The degree 3 selection on rows the writer can emit.  For every row whose
buffers are empty or of nominal length, `SH3` being present only together with
`SH2`, the writer emits exactly 45 bytes without failing, chosen in this order:
`SH3` present gives the band-quantised `SH2` and the quantised `SH3`; otherwise
`SH2` present (with or without `SH1`) gives the band-quantised `SH2` and 21
placeholders of value 128; otherwise `SH1` present gives the quantised `SH1` and 36
placeholders; otherwise 45 placeholders. -/
theorem writeSh_three (row : SplatData) (hn : NominalSh row) :
    writeSh 3 row = .ok (orderedSh3 row) ∧ (orderedSh3 row).length = 45 := by
  obtain ⟨h1, h2, h3, h32⟩ := hn
  have l1 : row.SH1 ≠ [] → row.SH1.length = 9 := fun h => h1.resolve_left h
  have l2 : row.SH2 ≠ [] → row.SH2.length = 24 := fun h => h2.resolve_left h
  have l3 : row.SH3 ≠ [] → row.SH3.length = 21 := fun h => h3.resolve_left h
  have pos : ∀ l : List Nat, l.length > 0 ↔ l ≠ [] := fun l => List.length_pos
  unfold writeSh orderedSh3 bandQuantised
  simp only [pos]
  by_cases a : row.SH3 ≠ []
  · have e3 := l3 a
    have e2 := l2 (h32 a)
    rw [if_pos a, if_pos a, indexRun_zero _ _ _ (by omega), ok_bind,
      indexRun_ok _ _ _ _ (by omega), ok_bind, indexRun_zero _ _ _ (by omega), ok_bind]
    refine ⟨rfl, ?_⟩
    simp only [List.length_append, List.length_map, List.length_take, List.length_drop]
    omega
  · rw [if_neg a, if_neg a]
    by_cases b : row.SH2 ≠ []
    · have e2 := l2 b
      rw [if_pos b, if_pos b, indexRun_zero _ _ _ (by omega), ok_bind,
        indexRun_ok _ _ _ _ (by omega), ok_bind, shPlaceholder_eq]
      refine ⟨rfl, ?_⟩
      simp only [List.length_append, List.length_map, List.length_take, List.length_drop,
        List.length_replicate]
      omega
    · rw [if_neg b, if_neg b]
      by_cases c : row.SH1 ≠ []
      · have e1 := l1 c
        rw [if_pos c, if_pos c, indexRun_zero _ _ _ (by omega), ok_bind, shPlaceholder_eq]
        refine ⟨rfl, ?_⟩
        simp only [List.length_append, List.length_map, List.length_take,
          List.length_replicate]
        omega
      · rw [if_neg c, if_neg c, shPlaceholder_eq]
        exact ⟨rfl, rfl⟩

/-- The degree 3 selection at `bothShRow`. -/
theorem writeSh_three_witness :
    NominalSh bothShRow ∧ writeSh 3 bothShRow = .ok (orderedSh3 bothShRow) ∧
      (orderedSh3 bothShRow).length = 45 :=
  ⟨⟨Or.inr rfl, Or.inr rfl, Or.inl rfl, fun h => absurd rfl h⟩,
    writeSh_three bothShRow ⟨Or.inr rfl, Or.inr rfl, Or.inl rfl, fun h => absurd rfl h⟩⟩


open GoFloat in
/-- Claim C19 (position decode is exact signed 24-bit fixed point).  For every
three bytes, with `s` the signed 24-bit integer they spell, the decoder with 12
fractional bits returns exactly `s / 4096`; the value lies in `[-2048, 2048)` and
the `float32` clipping leaves it unchanged. -/
theorem spzDecodePosition_signed24 (b0 b1 b2 : Nat) (h0 : b0 < 256) (h1 : b1 < 256)
    (h2 : b2 < 256) :
    spzDecodePosition [b0, b1, b2] 12 = .ok (fin ((signed24 b0 b1 b2 : ℚ) / 4096)) ∧
      (-2048 : ℚ) ≤ (signed24 b0 b1 b2 : ℚ) / 4096 ∧ (signed24 b0 b1 b2 : ℚ) / 4096 < 2048 ∧
      clipFloat32 (fin ((signed24 b0 b1 b2 : ℚ) / 4096)) =
        fin ((signed24 b0 b1 b2 : ℚ) / 4096) := by
  have hu : b0 + 256 * b1 + 65536 * b2 < 2 ^ 24 := by omega
  have hlo : -2 ^ 23 ≤ signed24 b0 b1 b2 := by
    unfold signed24
    split_ifs <;> omega
  have hhi : signed24 b0 b1 b2 < 2 ^ 23 := by
    unfold signed24
    split_ifs <;> omega
  have hq1 : (-2 ^ 23 : ℚ) ≤ signed24 b0 b1 b2 := by exact_mod_cast hlo
  have hq2 : (signed24 b0 b1 b2 : ℚ) < 2 ^ 23 := by exact_mod_cast hhi
  obtain ⟨hmul, hclip⟩ := clipFloat32_fixed (signed24 b0 b1 b2) hlo hhi
  refine ⟨?_, by norm_num at hq1 ⊢; linarith, by norm_num at hq2 ⊢; linarith, hclip⟩
  have hf : (b0 ||| b1 <<< 8 ||| b2 <<< 16) % 2 ^ 32 = b0 + 256 * b1 + 65536 * b2 := by
    rw [or3_eq b0 b1 b2 h0 h1]
    omega
  unfold spzDecodePosition
  simp only
  rw [hf, int32OfBits_signExtend _ hu, scale_12]
  show Except.ok (clipFloat32 (mul binary64 (ofInt binary64 (signed24 b0 b1 b2))
    (fin (1 / 4096)))) = _
  rw [hmul, hclip]

open GoFloat in
/-- Witness of C19 at the bytes `0x00 0xE8 0xFF` of the coordinate -1.5. -/
theorem spzDecodePosition_signed24_witness :
    (0 : Nat) < 256 ∧ (232 : Nat) < 256 ∧ (255 : Nat) < 256 ∧
      spzDecodePosition [0, 232, 255] 12 = .ok (fin ((signed24 0 232 255 : ℚ) / 4096)) ∧
      (-2048 : ℚ) ≤ (signed24 0 232 255 : ℚ) / 4096 ∧ (signed24 0 232 255 : ℚ) / 4096 < 2048 ∧
      clipFloat32 (fin ((signed24 0 232 255 : ℚ) / 4096)) =
        fin ((signed24 0 232 255 : ℚ) / 4096) :=
  ⟨by decide, by decide, by decide,
    spzDecodePosition_signed24 0 232 255 (by decide) (by decide) (by decide)⟩

/-- Claim C20 (the harmonics quantisers are stable under re-encoding).  For every
byte `v`, encoding the decoded image of an encoded coefficient gives the same
byte again, for band 1 and for bands 2 and 3. -/
theorem sh_reencode_stable (v : Nat) (hv : v < 256) :
    spzEncodeSH1 (spzDecodeSH1 (spzEncodeSH1 v)) = spzEncodeSH1 v ∧
      spzEncodeSH23 (spzDecodeSH23 (spzEncodeSH23 v)) = spzEncodeSH23 v := by
  have a1 : min 255 ((v + 4) / 8 * 8) < 256 := by omega
  have a2 : min 255 ((v + 8) / 16 * 16) < 256 := by omega
  unfold spzDecodeSH1 spzDecodeSH23
  rw [spzEncodeSH1_eq v hv, spzEncodeSH23_eq v hv, spzEncodeSH1_eq _ a1, spzEncodeSH23_eq _ a2]
  constructor <;> omega

/-- Witness of C20 at the byte 252, which both quantisers saturate to 255. -/
theorem sh_reencode_stable_witness :
    (252 : Nat) < 256 ∧ spzEncodeSH1 (spzDecodeSH1 (spzEncodeSH1 252)) = spzEncodeSH1 252 ∧
      spzEncodeSH23 (spzDecodeSH23 (spzEncodeSH23 252)) = spzEncodeSH23 252 :=
  ⟨by decide, sh_reencode_stable 252 (by decide)⟩

/-! ## Rotation V3 -/

namespace GoFloat

/-- The integer the square root rounds to: within `m + 1/4` of the scaled argument
after squaring. -/
theorem sqrtRound_spec (fmt : Format) (x : ℚ) (hx : 0 < x) :
    ∃ m : ℕ, sqrtRound fmt x =
        (m : ℚ) * 2 ^ (Max.max (binExp x / 2 - ((fmt.prec : ℤ) - 1)) fmt.emin) ∧
      |(m : ℚ) ^ 2 - x / 4 ^ (Max.max (binExp x / 2 - ((fmt.prec : ℤ) - 1)) fmt.emin)| ≤
        (m : ℚ) + 1 / 4 := by
  unfold sqrtRound
  rw [if_neg (not_le.mpr hx)]
  simp only
  set q := Max.max (binExp x / 2 - ((fmt.prec : ℤ) - 1)) fmt.emin with hq
  set t := x / 4 ^ q with ht
  have ht0 : 0 ≤ t := by positivity
  rw [natSqrt_eq]
  set s := Nat.sqrt ⌊t⌋₊ with hs
  have h1 : ((s : ℚ)) ^ 2 ≤ t := by
    have := Nat.sqrt_le' ⌊t⌋₊
    have h2 : ((s ^ 2 : ℕ) : ℚ) ≤ (⌊t⌋₊ : ℚ) := by exact_mod_cast this
    push_cast at h2
    exact le_trans h2 (Nat.floor_le ht0)
  have h2 : t < ((s : ℚ) + 1) ^ 2 := by
    have := Nat.lt_succ_sqrt' ⌊t⌋₊
    have h3 : ((⌊t⌋₊ : ℕ) : ℚ) + 1 ≤ (((Nat.sqrt ⌊t⌋₊).succ ^ 2 : ℕ) : ℚ) := by
      exact_mod_cast this
    push_cast at h3
    exact lt_of_lt_of_le (Nat.lt_floor_add_one t) h3
  have hs0 : (0 : ℚ) ≤ s := Nat.cast_nonneg s
  split_ifs with a b c
  · refine ⟨s, rfl, ?_⟩
    rw [abs_le]
    constructor <;> nlinarith
  · refine ⟨s + 1, rfl, ?_⟩
    push_cast
    rw [abs_le]
    constructor <;> nlinarith
  · refine ⟨s, rfl, ?_⟩
    rw [abs_le]
    have : 4 * t = (2 * (s : ℚ) + 1) ^ 2 := le_antisymm (not_lt.mp b) (not_lt.mp a)
    constructor <;> nlinarith
  · refine ⟨s + 1, rfl, ?_⟩
    push_cast
    rw [abs_le]
    have : 4 * t = (2 * (s : ℚ) + 1) ^ 2 := le_antisymm (not_lt.mp b) (not_lt.mp a)
    constructor <;> nlinarith

/-- Relative accuracy of the binary64 square root on the normal range. -/
theorem sqrtRound64_sq (x : ℚ) (hx : 0 < x) (hn : -1022 ≤ binExp x / 2) :
    0 < sqrtRound binary64 x ∧ |sqrtRound binary64 x ^ 2 - x| ≤ x / 2 ^ 51 := by
  obtain ⟨m, hm, hb⟩ := sqrtRound_spec binary64 x hx
  have hq : Max.max (binExp x / 2 - (((binary64).prec : ℤ) - 1)) (binary64).emin =
      binExp x / 2 - 52 := by
    show Max.max (binExp x / 2 - (((53 : ℕ) : ℤ) - 1)) (-1074) = binExp x / 2 - 52
    rw [max_eq_left (by omega)]
    norm_num
  rw [hq] at hm hb
  set q : ℤ := binExp x / 2 - 52 with hqd
  have h4 : (0 : ℚ) < 4 ^ q := zpow_pos (by norm_num) q
  have h2 : (0 : ℚ) < 2 ^ q := zpow_pos (by norm_num) q
  have h42 : (4 : ℚ) ^ q = 2 ^ q * 2 ^ q := by
    rw [show (4 : ℚ) = 2 * 2 by norm_num, mul_zpow]
  set t := x / 4 ^ q with ht
  have hxt : x = t * 4 ^ q := by rw [ht]; field_simp
  -- t ≥ 2 ^ 104
  have hxe := binExp_le x hx
  have ht104 : (2 : ℚ) ^ 104 ≤ t := by
    rw [ht, le_div_iff₀ h4]
    refine le_trans ?_ hxe
    rw [show (4 : ℚ) = 2 ^ (2 : ℤ) by norm_num, ← zpow_mul,
      show ((2 : ℚ) ^ 104) = 2 ^ (104 : ℤ) by norm_num, ← zpow_add₀ (by norm_num)]
    apply zpow_le_zpow_right₀ (by norm_num)
    omega
  have hm0 : (0 : ℚ) ≤ m := Nat.cast_nonneg m
  rw [abs_le] at hb
  have hmpos : (0 : ℚ) < m := by
    rcases Nat.eq_zero_or_pos m with h | h
    · rw [h] at hb
      norm_num at hb
      norm_num at ht104
      linarith
    · exact_mod_cast h
  have hbound : (m : ℚ) + 1 / 4 ≤ t / 2 ^ 51 := by
    rw [le_div_iff₀ (by positivity)]
    by_cases hle : m ≤ 2 ^ 52
    · have : (m : ℚ) ≤ 2 ^ 52 := by exact_mod_cast hle
      norm_num at ht104 ⊢
      nlinarith
    · have : (2 : ℚ) ^ 52 + 1 ≤ m := by
        have : 2 ^ 52 + 1 ≤ m := by omega
        exact_mod_cast this
      norm_num at this ⊢
      nlinarith
  constructor
  · rw [hm]
    positivity
  · have e1 : ((m : ℚ) * 2 ^ q) ^ 2 - x = ((m : ℚ) ^ 2 - t) * 4 ^ q := by
      rw [hxt, h42]
      ring
    have e2 : x / 2 ^ 51 = t / 2 ^ 51 * 4 ^ q := by
      rw [hxt]
      ring
    rw [hm, e1, e2, abs_mul, abs_of_pos h4]
    apply mul_le_mul_of_nonneg_right _ h4.le
    rw [abs_le]
    constructor <;> linarith [hb.1, hb.2]

/-- A binary64 operation on a result of moderate size is finite and accurate to
half a unit in the last place. -/
theorem ofRat64_near (x : ℚ) (E : ℤ) (hx : |x| < 2 ^ E) (h1 : -1000 ≤ E) (h2 : E ≤ 1000) :
    ofRat binary64 x = fin (roundTo binary64 x) ∧
      |roundTo binary64 x - x| ≤ 2 ^ (E - 54) := by
  have herr : |roundTo binary64 x - x| ≤ 2 ^ (E - 54) := by
    have := abs_roundTo_sub_le binary64 x E hx (by
      show (-1074 : ℤ) ≤ E - ((53 : ℕ) : ℤ)
      push_cast
      omega)
    have e : (2 : ℚ) ^ (E - ((binary64).prec : ℤ)) / 2 = 2 ^ (E - 54) := by
      show (2 : ℚ) ^ (E - ((53 : ℕ) : ℤ)) / 2 = 2 ^ (E - 54)
      rw [show E - ((53 : ℕ) : ℤ) = (E - 54) + 1 by push_cast; ring,
        zpow_add₀ (by norm_num : (2 : ℚ) ≠ 0)]
      norm_num
    rwa [e] at this
  refine ⟨ofRat_eq _ _ ?_, herr⟩
  have h3 : |roundTo binary64 x| ≤ |x| + 2 ^ (E - 54) := by
    have := abs_sub_abs_le_abs_sub (roundTo binary64 x) x
    linarith
  have h4 : (2 : ℚ) ^ (E - 54) ≤ 2 ^ E := zpow_le_zpow_right₀ (by norm_num) (by omega)
  have h5 : (2 : ℚ) ^ E + 2 ^ E ≤ 2 ^ (1024 : ℤ) := by
    have : (2 : ℚ) ^ E + 2 ^ E = 2 ^ (E + 1) := by
      rw [zpow_add₀ (by norm_num : (2 : ℚ) ≠ 0)]
      ring
    rw [this]
    exact zpow_le_zpow_right₀ (by norm_num) (by omega)
  show |roundTo binary64 x| < 2 ^ (1024 : ℤ)
  linarith

theorem add64_near (a b : ℚ) (E : ℤ) (hx : |a + b| < 2 ^ E) (h1 : -1000 ≤ E) (h2 : E ≤ 1000) :
    add binary64 (fin a) (fin b) = fin (roundTo binary64 (a + b)) ∧
      |roundTo binary64 (a + b) - (a + b)| ≤ 2 ^ (E - 54) :=
  ofRat64_near (a + b) E hx h1 h2

theorem mul64_near (a b : ℚ) (E : ℤ) (hx : |a * b| < 2 ^ E) (h1 : -1000 ≤ E) (h2 : E ≤ 1000) :
    mul binary64 (fin a) (fin b) = fin (roundTo binary64 (a * b)) ∧
      |roundTo binary64 (a * b) - a * b| ≤ 2 ^ (E - 54) :=
  ofRat64_near (a * b) E hx h1 h2

theorem div64_near (a b : ℚ) (hb : b ≠ 0) (E : ℤ) (hx : |a / b| < 2 ^ E) (h1 : -1000 ≤ E)
    (h2 : E ≤ 1000) :
    div binary64 (fin a) (fin b) = fin (roundTo binary64 (a / b)) ∧
      |roundTo binary64 (a / b) - a / b| ≤ 2 ^ (E - 54) := by
  rw [div_fin _ _ _ hb]
  exact ofRat64_near (a / b) E hx h1 h2

/-- The binary exponent of a number that is at least a power of two. -/
theorem le_binExp (x : ℚ) (e : ℤ) (h : (2 : ℚ) ^ e ≤ x) : e ≤ binExp x := by
  by_contra hlt
  have h1 := lt_binExp x
  have h2 : (2 : ℚ) ^ (binExp x + 1) ≤ 2 ^ e := zpow_le_zpow_right₀ (by norm_num) (by omega)
  linarith

end GoFloat

theorem spzEncodeRotationsV3_eq (rw rx ry rz : Nat) :
    spzEncodeRotationsV3 rw rx ry rz = uint32ToBytes (encoderWord rw rx ry rz) := rfl

theorem packStep_eq (index : Fin 4) (rotation : Fin 4 → GoFloat) (remaining : Nat) (i : Fin 4) :
    packStep index rotation remaining i =
      if i ≠ index then
        ((remaining <<< 10) % 2 ^ 32 ||| rotationField (rotation i)) % 2 ^ 32
      else remaining := by
  unfold packStep rotationField rotationSignBit rotationMagnitude
  simp only [Nat.or_assoc]

open GoFloat in
theorem rotationComponent_eq (b : ℕ) (hb : b < 256) :
    rotationComponent b = fin (byteComponent b) := by
  unfold rotationComponent byteComponent
  have h1 : ofInt binary64 (b : ℤ) = fin (b : ℚ) := by
    have := ofInt64_eq (b : ℤ) (by rw [abs_of_nonneg (by positivity)]; norm_num; omega)
    rwa [Int.cast_natCast] at this
  rw [h1, const64_small.2.2.1, const64_small.2.2.2.1,
    div64_fin_exact (b : ℚ) 128 (by norm_num) (b : ℤ) 7 (by push_cast; norm_num)
      (by rw [abs_of_nonneg (by positivity)]; norm_num; omega) (by norm_num)]
  unfold sub
  simp only [neg]
  rw [add64_fin_exact _ _ ((b : ℤ) - 128) 7 (by push_cast; ring)
    (by rw [abs_lt]; constructor <;> norm_num <;> omega) (by norm_num), ← sub_eq_add_neg]

theorem byteComponent_eq (b : ℕ) : byteComponent b = (((b : ℤ) - 128 : ℤ) : ℚ) / 128 := by
  unfold byteComponent
  push_cast
  ring


/-- Integer numerator of a rotation byte: `b - 128`. -/
theorem byteComponent_bounds (b : ℕ) (hb : b < 256) :
    -1 ≤ byteComponent b ∧ byteComponent b < 1 := by
  unfold byteComponent
  have h1 : (b : ℚ) < 256 := by exact_mod_cast hb
  have h0 : (0 : ℚ) ≤ b := Nat.cast_nonneg b
  constructor <;> linarith

open GoFloat in
theorem square_eq (b : ℕ) (hb : b < 256) :
    mul binary64 (fin (byteComponent b)) (fin (byteComponent b)) =
      fin (byteComponent b ^ 2) := by
  rw [mul64_fin_exact _ _ (((b : ℤ) - 128) ^ 2) 14 (by rw [byteComponent_eq]; push_cast; ring)
    (by
      rw [abs_of_nonneg (by positivity)]
      have h1 : ((b : ℤ) - 128) ^ 2 ≤ 128 ^ 2 := by
        apply sq_le_sq'  <;> omega
      omega) (by norm_num), pow_two]

open GoFloat in
theorem quaternionLength_eq (rw rx ry rz : ℕ) (hw : rw < 256) (hx : rx < 256) (hy : ry < 256)
    (hz : rz < 256) :
    quaternionLength (rotationComponent rw) (rotationComponent rx) (rotationComponent ry)
        (rotationComponent rz) =
      fin (sqrtRound binary64 (normSq (byteQuaternion rw rx ry rz))) := by
  unfold quaternionLength
  rw [rotationComponent_eq rw hw, rotationComponent_eq rx hx, rotationComponent_eq ry hy,
    rotationComponent_eq rz hz, square_eq rw hw, square_eq rx hx, square_eq ry hy,
    square_eq rz hz]
  have b1 : ∀ b : ℕ, b < 256 → ((b : ℤ) - 128) ^ 2 ≤ 16384 := by
    intro b hb
    have : ((b : ℤ) - 128) ^ 2 ≤ 128 ^ 2 := by apply sq_le_sq' <;> omega
    omega
  have p1 : ∀ b : ℕ, 0 ≤ ((b : ℤ) - 128) ^ 2 := fun b => by positivity
  have hw2 := b1 rw hw
  have hx2 := b1 rx hx
  have hy2 := b1 ry hy
  have hz2 := b1 rz hz
  have pw := p1 rw
  have px := p1 rx
  have py := p1 ry
  have pz := p1 rz
  rw [add64_fin_exact _ _ (((rw : ℤ) - 128) ^ 2 + ((rx : ℤ) - 128) ^ 2) 14
      (by simp only [byteComponent_eq]; push_cast; ring)
      (by rw [abs_of_nonneg (by positivity)]; omega) (by norm_num),
    add64_fin_exact _ _ (((rw : ℤ) - 128) ^ 2 + ((rx : ℤ) - 128) ^ 2 + ((ry : ℤ) - 128) ^ 2) 14
      (by simp only [byteComponent_eq]; push_cast; ring)
      (by rw [abs_of_nonneg (by positivity)]; omega) (by norm_num),
    add64_fin_exact _ _ (((rw : ℤ) - 128) ^ 2 + ((rx : ℤ) - 128) ^ 2 + ((ry : ℤ) - 128) ^ 2 +
        ((rz : ℤ) - 128) ^ 2) 14
      (by simp only [byteComponent_eq]; push_cast; ring)
      (by rw [abs_of_nonneg (by positivity)]; omega) (by norm_num)]
  simp only [sqrt]
  have hS : normSq (byteQuaternion rw rx ry rz) =
      byteComponent rw ^ 2 + byteComponent rx ^ 2 + byteComponent ry ^ 2 +
        byteComponent rz ^ 2 := by
    simp [normSq, byteQuaternion]
  rw [hS, if_neg (not_lt.mpr (by positivity))]

theorem byteQuaternion_bounds (rw rx ry rz : ℕ) (hw : rw < 256) (hx : rx < 256) (hy : ry < 256)
    (hz : rz < 256) (i : Fin 4) :
    -1 ≤ byteQuaternion rw rx ry rz i ∧ byteQuaternion rw rx ry rz i < 1 := by
  fin_cases i
  · exact byteComponent_bounds rw hw
  · exact byteComponent_bounds rx hx
  · exact byteComponent_bounds ry hy
  · exact byteComponent_bounds rz hz

theorem sq_le_normSq (q : Fin 4 → ℚ) (i : Fin 4) : q i ^ 2 ≤ normSq q := by
  unfold normSq
  fin_cases i <;> simp <;> nlinarith [sq_nonneg (q 0), sq_nonneg (q 1), sq_nonneg (q 2),
    sq_nonneg (q 3)]

theorem byteComponent_sq_ge (b : ℕ) (hb : b ≠ 128) : 1 / 16384 ≤ byteComponent b ^ 2 := by
  rw [byteComponent_eq]
  have h1 : (1 : ℤ) ≤ ((b : ℤ) - 128) ^ 2 := by
    have : (b : ℤ) - 128 ≠ 0 := by omega
    have := sq_pos_of_ne_zero this
    omega
  have h2 : (1 : ℚ) ≤ (((b : ℤ) - 128 : ℤ) : ℚ) ^ 2 := by exact_mod_cast h1
  rw [div_pow]
  push_cast at h2 ⊢
  linarith

theorem normSq_byteQuaternion_bounds (rw rx ry rz : ℕ) (hw : rw < 256) (hx : rx < 256)
    (hy : ry < 256) (hz : rz < 256) (hne : ¬ (rw = 128 ∧ rx = 128 ∧ ry = 128 ∧ rz = 128)) :
    1 / 16384 ≤ normSq (byteQuaternion rw rx ry rz) ∧ normSq (byteQuaternion rw rx ry rz) ≤ 4 := by
  constructor
  · have hex : rw ≠ 128 ∨ rx ≠ 128 ∨ ry ≠ 128 ∨ rz ≠ 128 := by omega
    rcases hex with h | h | h | h
    · exact le_trans (byteComponent_sq_ge rw h) (sq_le_normSq (byteQuaternion rw rx ry rz) 0)
    · exact le_trans (byteComponent_sq_ge rx h) (sq_le_normSq (byteQuaternion rw rx ry rz) 1)
    · exact le_trans (byteComponent_sq_ge ry h) (sq_le_normSq (byteQuaternion rw rx ry rz) 2)
    · exact le_trans (byteComponent_sq_ge rz h) (sq_le_normSq (byteQuaternion rw rx ry rz) 3)
  · have b := byteQuaternion_bounds rw rx ry rz hw hx hy hz
    have h0 := b 0
    have h1 := b 1
    have h2 := b 2
    have h3 := b 3
    unfold normSq
    nlinarith

open GoFloat in
/-- The computed length `qlen`: positive, and its square is the exact squared
length up to a relative error of `2 ^ (-51)`. -/
theorem qlen_spec (rw rx ry rz : ℕ) (hw : rw < 256) (hx : rx < 256)
    (hy : ry < 256) (hz : rz < 256) (hne : ¬ (rw = 128 ∧ rx = 128 ∧ ry = 128 ∧ rz = 128)) :
    0 < sqrtRound binary64 (normSq (byteQuaternion rw rx ry rz)) ∧
      |sqrtRound binary64 (normSq (byteQuaternion rw rx ry rz)) ^ 2 -
        normSq (byteQuaternion rw rx ry rz)| ≤ normSq (byteQuaternion rw rx ry rz) / 2 ^ 51 := by
  have hb := normSq_byteQuaternion_bounds rw rx ry rz hw hx hy hz hne
  apply sqrtRound64_sq _ (by linarith [hb.1])
  have := le_binExp (normSq (byteQuaternion rw rx ry rz)) (-14) (by
    rw [show (2 : ℚ) ^ (-14 : ℤ) = 1 / 16384 by norm_num]
    exact hb.1)
  omega

open GoFloat in
/-- A component divided by the computed length is below 2 in absolute value. -/
theorem abs_div_qlen_lt (rw rx ry rz : ℕ) (hw : rw < 256) (hx : rx < 256)
    (hy : ry < 256) (hz : rz < 256) (hne : ¬ (rw = 128 ∧ rx = 128 ∧ ry = 128 ∧ rz = 128))
    (c : ℚ) (hc : c ^ 2 ≤ normSq (byteQuaternion rw rx ry rz)) :
    |c / sqrtRound binary64 (normSq (byteQuaternion rw rx ry rz))| < 2 ^ (1 : ℤ) := by
  obtain ⟨hpos, herr⟩ := qlen_spec rw rx ry rz hw hx hy hz hne
  have hb := normSq_byteQuaternion_bounds rw rx ry rz hw hx hy hz hne
  set S := normSq (byteQuaternion rw rx ry rz) with hS
  set qf := sqrtRound binary64 S with hqf
  rw [abs_le] at herr
  rw [abs_div, abs_of_pos hpos, div_lt_iff₀ hpos]
  apply abs_lt_of_sq_lt_sq _ (by positivity)
  have h51 : S / 2 ^ 51 ≤ S / 2 := by
    apply div_le_div_of_nonneg_left (by linarith [hb.1]) (by norm_num) (by norm_num)
  norm_num
  nlinarith [herr.1]

open GoFloat in
/-- Each entry of the normalised slice is the binary64 quotient of the exact
component by the computed length. -/
theorem normalisedRotation_eq (rw rx ry rz : ℕ) (hw : rw < 256) (hx : rx < 256)
    (hy : ry < 256) (hz : rz < 256) (hne : ¬ (rw = 128 ∧ rx = 128 ∧ ry = 128 ∧ rz = 128))
    (i : Fin 4) :
    normalisedRotation rw rx ry rz i =
        fin (roundTo binary64 (byteQuaternion rw rx ry rz i /
          sqrtRound binary64 (normSq (byteQuaternion rw rx ry rz)))) ∧
      |roundTo binary64 (byteQuaternion rw rx ry rz i /
          sqrtRound binary64 (normSq (byteQuaternion rw rx ry rz))) -
        byteQuaternion rw rx ry rz i /
          sqrtRound binary64 (normSq (byteQuaternion rw rx ry rz))| ≤ 1 / 2 ^ 53 := by
  obtain ⟨hpos, -⟩ := qlen_spec rw rx ry rz hw hx hy hz hne
  have hq := quaternionLength_eq rw rx ry rz hw hx hy hz
  have hlt := abs_div_qlen_lt rw rx ry rz hw hx hy hz hne _
    (sq_le_normSq (byteQuaternion rw rx ry rz) i)
  have h := div64_near (byteQuaternion rw rx ry rz i) _ hpos.ne' 1 hlt (by norm_num) (by norm_num)
  rw [show (2 : ℚ) ^ ((1 : ℤ) - 54) = 1 / 2 ^ 53 by norm_num] at h
  refine ⟨?_, h.2⟩
  rw [← h.1, ← hq]
  fin_cases i
  · show div binary64 (rotationComponent rw) _ = div binary64 (fin (byteComponent rw)) _
    rw [rotationComponent_eq rw hw]
  · show div binary64 (rotationComponent rx) _ = div binary64 (fin (byteComponent rx)) _
    rw [rotationComponent_eq rx hx]
  · show div binary64 (rotationComponent ry) _ = div binary64 (fin (byteComponent ry)) _
    rw [rotationComponent_eq ry hy]
  · show div binary64 (rotationComponent rz) _ = div binary64 (fin (byteComponent rz)) _
    rw [rotationComponent_eq rz hz]

open GoFloat in
/-- The selection loop returns an index whose entry has the largest absolute value. -/
theorem largestIndex_max (rotation : Fin 4 → GoFloat) (r : Fin 4 → ℚ)
    (h : ∀ i, rotation i = fin (r i)) (j : Fin 4) : |r j| ≤ |r (largestIndex rotation)| := by
  unfold largestIndex
  simp only [List.foldl, h, GoFloat.abs, GoFloat.lt, decide_eq_true_eq]
  split_ifs <;> fin_cases j <;> simp only [Fin.zero_eta, Fin.mk_one, Fin.reduceFinMk] <;>
    first
      | exact le_rfl
      | linarith

theorem byteQuaternion_entry (rw rx ry rz : ℕ) (hw : rw < 256) (hx : rx < 256)
    (hy : ry < 256) (hz : rz < 256) (i : Fin 4) :
    ∃ b : ℕ, b < 256 ∧ byteQuaternion rw rx ry rz i = byteComponent b := by
  fin_cases i
  · exact ⟨rw, hw, rfl⟩
  · exact ⟨rx, hx, rfl⟩
  · exact ⟨ry, hy, rfl⟩
  · exact ⟨rz, hz, rfl⟩

/-- Two rotation bytes of different magnitude differ by at least `1/128`. -/
theorem byteComponent_gap (a b : ℕ) (h : |byteComponent a| < |byteComponent b|) :
    |byteComponent a| + 1 / 128 ≤ |byteComponent b| := by
  rw [byteComponent_eq, byteComponent_eq] at h ⊢
  rw [abs_div, abs_div, abs_of_pos (by norm_num : (0 : ℚ) < 128), ← Int.cast_abs,
    ← Int.cast_abs] at h ⊢
  have h1 : ((|(a : ℤ) - 128| : ℤ) : ℚ) < ((|(b : ℤ) - 128| : ℤ) : ℚ) := by
    have := (div_lt_div_iff_of_pos_right (by norm_num : (0 : ℚ) < 128)).mp h
    exact this
  have h2 : |(a : ℤ) - 128| + 1 ≤ |(b : ℤ) - 128| := by
    have : |(a : ℤ) - 128| < |(b : ℤ) - 128| := by exact_mod_cast h1
    omega
  have h3 : ((|(a : ℤ) - 128| : ℤ) : ℚ) + 1 ≤ ((|(b : ℤ) - 128| : ℤ) : ℚ) := by
    exact_mod_cast h2
  linarith

open GoFloat in
/-- The index chosen by the encoder points at an exact component of largest
absolute value: rounding cannot reorder components that differ by `1/128`. -/
theorem encoderIndex_max (rw rx ry rz : ℕ) (hw : rw < 256) (hx : rx < 256)
    (hy : ry < 256) (hz : rz < 256) (hne : ¬ (rw = 128 ∧ rx = 128 ∧ ry = 128 ∧ rz = 128))
    (j : Fin 4) :
    |byteQuaternion rw rx ry rz j| ≤
      |byteQuaternion rw rx ry rz (encoderIndex rw rx ry rz)| := by
  obtain ⟨hpos, herr⟩ := qlen_spec rw rx ry rz hw hx hy hz hne
  have hb := normSq_byteQuaternion_bounds rw rx ry rz hw hx hy hz hne
  have hn := normalisedRotation_eq rw rx ry rz hw hx hy hz hne
  have hmax := largestIndex_max (normalisedRotation rw rx ry rz) _ (fun i => (hn i).1) j
  change |_| ≤ |roundTo binary64 (byteQuaternion rw rx ry rz (encoderIndex rw rx ry rz) / _)|
    at hmax
  set L := encoderIndex rw rx ry rz with hL
  set q := byteQuaternion rw rx ry rz with hq
  set S := normSq q with hS
  set qf := sqrtRound binary64 S with hqf
  by_contra hlt
  rw [not_le] at hlt
  obtain ⟨a, -, ha⟩ := byteQuaternion_entry rw rx ry rz hw hx hy hz L
  obtain ⟨b, -, hb2⟩ := byteQuaternion_entry rw rx ry rz hw hx hy hz j
  change q L = _ at ha
  change q j = _ at hb2
  have hgap : |q L| + 1 / 128 ≤ |q j| := by
    rw [ha, hb2] at hlt ⊢
    exact byteComponent_gap a b hlt
  have e1 := (hn j).2
  have e2 := (hn L).2
  have a1 : |q j / qf| - 1 / 2 ^ 53 ≤ |roundTo binary64 (q j / qf)| := by
    have := abs_sub_abs_le_abs_sub (q j / qf) (roundTo binary64 (q j / qf))
    rw [abs_sub_comm] at this
    linarith
  have a2 : |roundTo binary64 (q L / qf)| ≤ |q L / qf| + 1 / 2 ^ 53 := by
    have := abs_sub_abs_le_abs_sub (roundTo binary64 (q L / qf)) (q L / qf)
    linarith
  rw [abs_div, abs_of_pos hpos] at a1 a2
  have a3 : |q j| / qf - |q L| / qf ≤ 2 / 2 ^ 53 := by linarith
  rw [← sub_div, div_le_iff₀ hpos] at a3
  rw [abs_le] at herr
  have hqf3 : qf ≤ 3 := by
    by_contra h3
    rw [not_le] at h3
    have h51 : S / 2 ^ 51 ≤ S := div_le_self (by linarith [hb.1]) (by norm_num)
    nlinarith [herr.2]
  norm_num at a3
  linarith

open GoFloat in
/-- The slice the packing loop works on: finite entries that are, up to a common
sign, the exact components divided by the computed length and rounded; the entry at
the chosen index is not negative. -/
theorem canonicalRotation_spec (rw rx ry rz : ℕ) (hw : rw < 256) (hx : rx < 256)
    (hy : ry < 256) (hz : rz < 256) (hne : ¬ (rw = 128 ∧ rx = 128 ∧ ry = 128 ∧ rz = 128)) :
    ∃ (σ : ℚ) (ρ : Fin 4 → ℚ), (σ = 1 ∨ σ = -1) ∧
      (∀ i, canonicalRotation rw rx ry rz i = fin (ρ i)) ∧
      (∀ i, |ρ i - σ * (byteQuaternion rw rx ry rz i /
        sqrtRound binary64 (normSq (byteQuaternion rw rx ry rz)))| ≤ 1 / 2 ^ 53) ∧
      0 ≤ ρ (encoderIndex rw rx ry rz) := by
  have hn := normalisedRotation_eq rw rx ry rz hw hx hy hz hne
  set q := byteQuaternion rw rx ry rz with hq
  set qf := sqrtRound binary64 (normSq q) with hqf
  unfold canonicalRotation
  rw [(hn _).1, const64_consts.2.2.1]
  simp only [GoFloat.lt, decide_eq_true_eq]
  by_cases hneg : roundTo binary64 (q (encoderIndex rw rx ry rz) / qf) < 0
  · rw [if_pos hneg]
    refine ⟨-1, fun i => -roundTo binary64 (q i / qf), Or.inr rfl, ?_, ?_, ?_⟩
    · intro i
      simp only [(hn i).1, GoFloat.neg]
    · intro i
      have := (hn i).2
      rw [show -roundTo binary64 (q i / qf) - -1 * (q i / qf) =
        -(roundTo binary64 (q i / qf) - q i / qf) by ring, abs_neg]
      exact this
    · simp only
      linarith
  · rw [if_neg hneg]
    refine ⟨1, fun i => roundTo binary64 (q i / qf), Or.inl rfl, ?_, ?_, ?_⟩
    · intro i
      exact (hn i).1
    · intro i
      rw [one_mul]
      exact (hn i).2
    · simp only
      linarith

open GoFloat in
theorem const64_SQRT1_2 : const64 SQRT1_2 = fin (6369051672525773 / 9007199254740992) := by
  decide!

open GoFloat in
theorem ofInt64_CMask : ofInt binary64 (CMask : ℤ) = fin 511 := by decide!

open GoFloat in
/-- The magnitude computed by the packing loop for a finite entry `r` of absolute
value at most `3/4`: the integer part of a value within `2 ^ (-42)` of
`511 * |r| / SQRT1_2 + 1/2`. -/
theorem rotationMagnitude_spec (r : ℚ) (hr : |r| ≤ 3 / 4) :
    511 * |r| / (6369051672525773 / 9007199254740992) - 1 / 2 - 1 / 2 ^ 42 <
        (rotationMagnitude (fin r) : ℚ) ∧
      (rotationMagnitude (fin r) : ℚ) ≤
        511 * |r| / (6369051672525773 / 9007199254740992) + 1 / 2 + 1 / 2 ^ 42 := by
  unfold rotationMagnitude
  simp only [GoFloat.abs]
  rw [const64_SQRT1_2, ofInt64_CMask, const64_small.2.2.2.2]
  have hr0 : 0 ≤ |r| := abs_nonneg r
  set a := |r| with ha
  have hx : |a / (6369051672525773 / 9007199254740992)| < 2 ^ (1 : ℤ) := by
    rw [abs_of_nonneg (by positivity), div_lt_iff₀ (by norm_num)]
    norm_num
    linarith
  obtain ⟨e1, b1⟩ := div64_near a (6369051672525773 / 9007199254740992) (by norm_num) 1 hx
    (by norm_num) (by norm_num)
  rw [e1]
  set x := roundTo binary64 (a / (6369051672525773 / 9007199254740992)) with hxd
  have hxa : a / (6369051672525773 / 9007199254740992) ≤ 107 / 100 := by
    rw [div_le_iff₀ (by norm_num)]
    norm_num
    linarith
  have hxa0 : 0 ≤ a / (6369051672525773 / 9007199254740992) := by positivity
  rw [abs_le] at b1
  norm_num at b1
  have hw : |511 * x| < 2 ^ (10 : ℤ) := by
    rw [abs_lt]
    norm_num
    constructor <;> linarith [b1.1, b1.2]
  obtain ⟨e2, b2⟩ := mul64_near 511 x 10 hw (by norm_num) (by norm_num)
  rw [e2]
  set w := roundTo binary64 (511 * x) with hwd
  rw [abs_le] at b2
  norm_num at b2
  have hz : |w + 1 / 2| < 2 ^ (10 : ℤ) := by
    rw [abs_lt]
    norm_num
    constructor <;> linarith [b1.1, b1.2, b2.1, b2.2]
  obtain ⟨e3, b3⟩ := add64_near w (1 / 2) 10 hz (by norm_num) (by norm_num)
  rw [e3]
  set z := roundTo binary64 (w + 1 / 2) with hzd
  rw [abs_le] at b3
  norm_num at b3
  have hz0 : 0 ≤ z := by linarith [b1.1, b1.2, b2.1, b2.2, b3.1, b3.2]
  have hz1 : z < 1024 := by linarith [b1.1, b1.2, b2.1, b2.2, b3.1, b3.2]
  have hf0 : 0 ≤ ⌊z⌋ := Int.floor_nonneg.mpr hz0
  have hf1 : ⌊z⌋ < 1024 := Int.floor_lt.mpr (by exact_mod_cast hz1)
  have ht : truncate z = ⌊z⌋ := by
    unfold truncate
    rw [if_pos hz0]
  simp only [toInt, ht]
  rw [if_pos ⟨by norm_num; omega, by norm_num; omega⟩]
  have hmod : ⌊z⌋ % 2 ^ 32 = ⌊z⌋ := Int.emod_eq_of_lt hf0 (by omega)
  rw [hmod]
  have hcast : (((⌊z⌋).toNat : ℕ) : ℚ) = ((⌊z⌋ : ℤ) : ℚ) := by
    have : (((⌊z⌋).toNat : ℕ) : ℤ) = ⌊z⌋ := Int.toNat_of_nonneg hf0
    exact_mod_cast this
  rw [hcast]
  have f1 := Int.floor_le z
  have f2 := Int.lt_floor_add_one z
  constructor <;> linarith [b1.1, b1.2, b2.1, b2.2, b3.1, b3.2]

theorem sq_add_sq_le_normSq (q : Fin 4 → ℚ) (i j : Fin 4) (h : i ≠ j) :
    q i ^ 2 + q j ^ 2 ≤ normSq q := by
  unfold normSq
  fin_cases i <;> fin_cases j <;> first
    | exact absurd rfl h
    | (simp only [Fin.zero_eta, Fin.mk_one, Fin.reduceFinMk]
       nlinarith [sq_nonneg (q 0), sq_nonneg (q 1), sq_nonneg (q 2), sq_nonneg (q 3)])

/-- A component other than the chosen one carries at most half of the squared
length. -/
theorem two_mul_sq_le_normSq (rw rx ry rz : ℕ) (hw : rw < 256) (hx : rx < 256)
    (hy : ry < 256) (hz : rz < 256) (hne : ¬ (rw = 128 ∧ rx = 128 ∧ ry = 128 ∧ rz = 128))
    (i : Fin 4) (hi : i ≠ encoderIndex rw rx ry rz) :
    2 * byteQuaternion rw rx ry rz i ^ 2 ≤ normSq (byteQuaternion rw rx ry rz) := by
  have h1 := encoderIndex_max rw rx ry rz hw hx hy hz hne i
  have h2 := sq_add_sq_le_normSq (byteQuaternion rw rx ry rz) i _ hi
  have h3 := sq_le_sq.mpr h1
  linarith

open GoFloat in
/-- Size of an exact quotient and of its rounded value for a component other than
the chosen one. -/
theorem other_entry_bounds (rw rx ry rz : ℕ) (hw : rw < 256) (hx : rx < 256)
    (hy : ry < 256) (hz : rz < 256) (hne : ¬ (rw = 128 ∧ rx = 128 ∧ ry = 128 ∧ rz = 128))
    (i : Fin 4) (hi : i ≠ encoderIndex rw rx ry rz) (σ ρ : ℚ) (hσ : σ = 1 ∨ σ = -1)
    (hρ : |ρ - σ * (byteQuaternion rw rx ry rz i /
        sqrtRound binary64 (normSq (byteQuaternion rw rx ry rz)))| ≤ 1 / 2 ^ 53) :
    |ρ| ≤ 7073 / 10000 ∧ ρ ^ 2 ≤ 1 / 2 + 1 / 2 ^ 50 := by
  obtain ⟨hpos, herr⟩ := qlen_spec rw rx ry rz hw hx hy hz hne
  have hb := normSq_byteQuaternion_bounds rw rx ry rz hw hx hy hz hne
  have h2 := two_mul_sq_le_normSq rw rx ry rz hw hx hy hz hne i hi
  set q := byteQuaternion rw rx ry rz with hq
  set S := normSq q with hS
  set qf := sqrtRound binary64 S with hqf
  rw [abs_le] at herr
  set t := q i / qf with ht
  have hqt : q i = t * qf := by rw [ht]; field_simp
  have hS0 : 0 < S := by linarith [hb.1]
  -- (1 - 2^-51) * S ≤ qf^2
  have h3 : S - S / 2 ^ 51 ≤ qf ^ 2 := by linarith [herr.1]
  have ht2 : t ^ 2 ≤ 1 / 2 + 1 / 2 ^ 51 := by
    have e : q i ^ 2 = t ^ 2 * qf ^ 2 := by rw [hqt]; ring
    rw [e] at h2
    have hq2 : 0 < qf ^ 2 := by positivity
    by_contra hc
    rw [not_le] at hc
    have : (1 / 2 + 1 / 2 ^ 51) * qf ^ 2 < t ^ 2 * qf ^ 2 := mul_lt_mul_of_pos_right hc hq2
    have h5 : (1 / 2 + 1 / 2 ^ 51) * (S - S / 2 ^ 51) ≤ (1 / 2 + 1 / 2 ^ 51) * qf ^ 2 :=
      mul_le_mul_of_nonneg_left h3 (by norm_num)
    have h6 : S / 2 < (1 / 2 + 1 / 2 ^ 51) * (S - S / 2 ^ 51) := by
      have : (1 / 2 + 1 / 2 ^ 51) * (S - S / 2 ^ 51) =
          S / 2 + S * (1 / 2 ^ 51 - 1 / 2 ^ 52 - 1 / 2 ^ 102) := by ring
      rw [this]
      have : (0 : ℚ) < 1 / 2 ^ 51 - 1 / 2 ^ 52 - 1 / 2 ^ 102 := by norm_num
      nlinarith
    linarith
  have hta : |t| ≤ 70711 / 100000 := by
    apply abs_le_of_sq_le_sq _ (by norm_num)
    refine le_trans ht2 (by norm_num)
  have hst : |σ * t| = |t| := by
    rcases hσ with h | h <;> rw [h] <;> simp
  have hρa : |ρ| ≤ |t| + 1 / 2 ^ 53 := by
    have := abs_sub_abs_le_abs_sub ρ (σ * t)
    rw [hst] at this
    linarith
  constructor
  · refine le_trans hρa ?_
    norm_num at hta ⊢
    linarith
  · have h0 : 0 ≤ |ρ| := abs_nonneg ρ
    have h1 : 0 ≤ |t| := abs_nonneg t
    have e1 : ρ ^ 2 = |ρ| ^ 2 := (sq_abs ρ).symm
    have e2 : t ^ 2 = |t| ^ 2 := (sq_abs t).symm
    rw [e1]
    rw [e2] at ht2
    have : |ρ| ^ 2 ≤ (|t| + 1 / 2 ^ 53) ^ 2 := by
      apply pow_le_pow_left₀ h0 hρa
    refine le_trans this ?_
    norm_num at hta ht2 ⊢
    nlinarith

open GoFloat in
/-- The magnitude of an entry of absolute value at most `0.7073` fits in 9 bits. -/
theorem rotationMagnitude_le (ρ : ℚ) (h : |ρ| ≤ 7073 / 10000) :
    rotationMagnitude (fin ρ) ≤ CMask := by
  have hm := (rotationMagnitude_spec ρ (by linarith)).2
  have h2 : 511 * |ρ| / (6369051672525773 / 9007199254740992) ≤ 5113 / 10 := by
    rw [div_le_iff₀ (by norm_num)]
    norm_num
    linarith
  have h3 : (rotationMagnitude (fin ρ) : ℚ) < 512 := by
    norm_num at hm
    linarith
  have h4 : rotationMagnitude (fin ρ) < 512 := by exact_mod_cast h3
  show _ ≤ 511
  omega

theorem otherIndices_eq (index : Fin 4) :
    ([0, 1, 2, 3] : List (Fin 4)).filter (fun i => i ≠ index) =
      [lowestOther index, middleOther index, highestOther index] := by
  revert index
  decide

theorem otherIndices_ne (index : Fin 4) :
    lowestOther index ≠ index ∧ middleOther index ≠ index ∧ highestOther index ≠ index ∧
      lowestOther index < middleOther index ∧ middleOther index < highestOther index := by
  revert index
  decide

theorem rotationSignBit_le (r : GoFloat) : rotationSignBit r ≤ 1 := by
  unfold rotationSignBit
  split_ifs <;> omega

/-- A field whose magnitude fits in 9 bits is `signBit * 512 + magnitude`. -/
theorem rotationField_eq (r : GoFloat) (h : rotationMagnitude r ≤ CMask) :
    rotationField r = rotationSignBit r * 512 + rotationMagnitude r := by
  unfold rotationField
  have h1 : rotationMagnitude r < 2 ^ 9 := by
    have : CMask = 511 := rfl
    omega
  rw [Nat.shiftLeft_eq, Nat.mul_comm, ← Nat.mul_add_lt_is_or h1]

theorem pack_or (remaining f : ℕ) (hf : f < 1024) (hr : remaining < 2 ^ 22) :
    ((remaining <<< 10) % 2 ^ 32 ||| f) % 2 ^ 32 = remaining * 1024 + f := by
  have hf2 : f < 2 ^ 10 := by omega
  have e : (remaining <<< 10) % 2 ^ 32 = 2 ^ 10 * remaining := by
    rw [Nat.shiftLeft_eq, Nat.mod_eq_of_lt (by omega), Nat.mul_comm]
  rw [e, ← Nat.mul_add_lt_is_or hf2, Nat.mod_eq_of_lt (by omega)]
  omega

theorem packStep_self (index : Fin 4) (rotation : Fin 4 → GoFloat) (remaining : ℕ) :
    packStep index rotation remaining index = remaining := by
  rw [packStep_eq, if_neg (not_not.mpr rfl)]

theorem packStep_other (index : Fin 4) (rotation : Fin 4 → GoFloat) (remaining : ℕ) (i : Fin 4)
    (hi : i ≠ index) (hf : rotationField (rotation i) < 1024) (hr : remaining < 2 ^ 22) :
    packStep index rotation remaining i = remaining * 1024 + rotationField (rotation i) := by
  rw [packStep_eq, if_pos hi, pack_or _ _ hf hr]

theorem fin4_cases (i : Fin 4) : i = 0 ∨ i = 1 ∨ i = 2 ∨ i = 3 := by
  revert i
  decide

/-- The packing loop: the index first, then the fields of the other components in
ascending index order, each shifted in from the right. -/
theorem packFold_eq (index : Fin 4) (rotation : Fin 4 → GoFloat)
    (hF : ∀ i, i ≠ index → rotationField (rotation i) < 1024) :
    [0, 1, 2, 3].foldl (packStep index rotation) index.val =
      ((index.val * 1024 + rotationField (rotation (lowestOther index))) * 1024 +
        rotationField (rotation (middleOther index))) * 1024 +
          rotationField (rotation (highestOther index)) := by
  simp only [List.foldl]
  rcases fin4_cases index with h | h | h | h <;> subst h
  · have a1 := hF 1 (by decide)
    have a2 := hF 2 (by decide)
    have a3 := hF 3 (by decide)
    rw [packStep_self, packStep_other _ _ _ 1 (by decide) a1 (Nat.lt_of_lt_of_le (Fin.is_lt _) (by norm_num)),
      packStep_other _ _ _ 2 (by decide) a2 (by norm_num; omega),
      packStep_other _ _ _ 3 (by decide) a3 (by norm_num; omega)]
    rfl
  · have a0 := hF 0 (by decide)
    have a2 := hF 2 (by decide)
    have a3 := hF 3 (by decide)
    rw [packStep_other _ _ _ 0 (by decide) a0 (Nat.lt_of_lt_of_le (Fin.is_lt _) (by norm_num)), packStep_self,
      packStep_other _ _ _ 2 (by decide) a2 (by norm_num; omega),
      packStep_other _ _ _ 3 (by decide) a3 (by norm_num; omega)]
    rfl
  · have a0 := hF 0 (by decide)
    have a1 := hF 1 (by decide)
    have a3 := hF 3 (by decide)
    rw [packStep_other _ _ _ 0 (by decide) a0 (Nat.lt_of_lt_of_le (Fin.is_lt _) (by norm_num)),
      packStep_other _ _ _ 1 (by decide) a1 (by norm_num; omega), packStep_self,
      packStep_other _ _ _ 3 (by decide) a3 (by norm_num; omega)]
    rfl
  · have a0 := hF 0 (by decide)
    have a1 := hF 1 (by decide)
    have a2 := hF 2 (by decide)
    rw [packStep_other _ _ _ 0 (by decide) a0 (Nat.lt_of_lt_of_le (Fin.is_lt _) (by norm_num)),
      packStep_other _ _ _ 1 (by decide) a1 (by norm_num; omega),
      packStep_other _ _ _ 2 (by decide) a2 (by norm_num; omega), packStep_self]
    rfl

theorem other_cases (index i : Fin 4) (h : i ≠ index) :
    i = lowestOther index ∨ i = middleOther index ∨ i = highestOther index := by
  revert index i
  decide

theorem leUint32At_uint32ToBytes (w : ℕ) (hw : w < 2 ^ 32) :
    leUint32At (uint32ToBytes w) 0 = w := by
  unfold leUint32At uint32ToBytes putUint32
  simp only [List.getD_cons_zero, List.getD_cons_succ, Nat.shiftRight_eq_div_pow]
  omega

theorem decoderWord_uint32ToBytes (w : ℕ) (hw : w < 2 ^ 32) :
    decoderWord (uint32ToBytes w) = w := by
  unfold decoderWord uint32ToBytes putUint32
  exact putUint32_parts w hw

open GoFloat in
/-- Every component other than the chosen one gets a magnitude of at most 9 bits. -/
theorem encoder_magnitude_le (rw rx ry rz : ℕ) (hw : rw < 256) (hx : rx < 256)
    (hy : ry < 256) (hz : rz < 256) (hne : ¬ (rw = 128 ∧ rx = 128 ∧ ry = 128 ∧ rz = 128))
    (i : Fin 4) (hi : i ≠ encoderIndex rw rx ry rz) :
    rotationMagnitude (canonicalRotation rw rx ry rz i) ≤ CMask := by
  obtain ⟨σ, ρ, hσ, hfin, herr, -⟩ := canonicalRotation_spec rw rx ry rz hw hx hy hz hne
  rw [hfin i]
  exact rotationMagnitude_le _
    (other_entry_bounds rw rx ry rz hw hx hy hz hne i hi σ (ρ i) hσ (herr i)).1

theorem encoder_field_lt (rw rx ry rz : ℕ) (hw : rw < 256) (hx : rx < 256)
    (hy : ry < 256) (hz : rz < 256) (hne : ¬ (rw = 128 ∧ rx = 128 ∧ ry = 128 ∧ rz = 128))
    (i : Fin 4) (hi : i ≠ encoderIndex rw rx ry rz) :
    rotationField (canonicalRotation rw rx ry rz i) =
        rotationSignBit (canonicalRotation rw rx ry rz i) * 512 +
          rotationMagnitude (canonicalRotation rw rx ry rz i) ∧
      rotationField (canonicalRotation rw rx ry rz i) < 1024 := by
  have h := encoder_magnitude_le rw rx ry rz hw hx hy hz hne i hi
  have e := rotationField_eq _ h
  have hs := rotationSignBit_le (canonicalRotation rw rx ry rz i)
  have hc : CMask = 511 := rfl
  refine ⟨e, ?_⟩
  omega

/-- The word the encoder builds, as a positional sum. -/
theorem encoderWord_eq (rw rx ry rz : ℕ) (hw : rw < 256) (hx : rx < 256)
    (hy : ry < 256) (hz : rz < 256) (hne : ¬ (rw = 128 ∧ rx = 128 ∧ ry = 128 ∧ rz = 128)) :
    encoderWord rw rx ry rz =
      (((encoderIndex rw rx ry rz).val * 1024 +
        rotationField (canonicalRotation rw rx ry rz (lowestOther (encoderIndex rw rx ry rz)))) *
          1024 +
        rotationField (canonicalRotation rw rx ry rz (middleOther (encoderIndex rw rx ry rz)))) *
          1024 +
        rotationField (canonicalRotation rw rx ry rz (highestOther (encoderIndex rw rx ry rz))) :=
  packFold_eq _ _ (fun i hi => (encoder_field_lt rw rx ry rz hw hx hy hz hne i hi).2)

theorem encoderWord_lt (rw rx ry rz : ℕ) (hw : rw < 256) (hx : rx < 256)
    (hy : ry < 256) (hz : rz < 256) (hne : ¬ (rw = 128 ∧ rx = 128 ∧ ry = 128 ∧ rz = 128)) :
    encoderWord rw rx ry rz < 2 ^ 32 := by
  rw [encoderWord_eq rw rx ry rz hw hx hy hz hne]
  obtain ⟨n1, n2, n3, -, -⟩ := otherIndices_ne (encoderIndex rw rx ry rz)
  have f1 := (encoder_field_lt rw rx ry rz hw hx hy hz hne _ n1).2
  have f2 := (encoder_field_lt rw rx ry rz hw hx hy hz hne _ n2).2
  have f3 := (encoder_field_lt rw rx ry rz hw hx hy hz hne _ n3).2
  have hL := (encoderIndex rw rx ry rz).is_lt
  omega

/-- The values the encoder computes on the rotation bytes `(128, 138, 148, 158)`. -/
theorem encoder_sample :
    spzEncodeRotationsV3 128 138 148 158 = [130, 5, 3, 192] ∧
      encoderIndex 128 138 148 158 = 3 ∧
      rotationField (canonicalRotation 128 138 148 158 0) = 0 ∧
      rotationField (canonicalRotation 128 138 148 158 1) = 193 ∧
      rotationField (canonicalRotation 128 138 148 158 2) = 386 := by
  decide!

/-- Counterexample to C16 as stated: on the rotation bytes `(128, 138, 148, 158)`
the encoder omits component 3 and the word is `0xC0030582`; bits 9-0 hold 386, the
field of component 2 (the highest-index non-omitted component), and bits 29-20 hold
0, the field of component 0, so the fields are not in descending index order from
the top. -/
theorem rotationV3_descending_layout_fails : ¬ DescendingLayout 128 138 148 158 := by
  decide!

/-- Positional reading of a word built from an index and three 10-bit fields. -/
theorem word_fields (index a b c : ℕ) (hi : index < 4) (ha : a < 1024) (hb : b < 1024)
    (hc : c < 1024) :
    ((index * 1024 + a) * 1024 + b) * 1024 + c < 2 ^ 32 ∧
      (((index * 1024 + a) * 1024 + b) * 1024 + c) >>> 30 = index ∧
      ((((index * 1024 + a) * 1024 + b) * 1024 + c) >>> 20) % 1024 = a ∧
      ((((index * 1024 + a) * 1024 + b) * 1024 + c) >>> 10) % 1024 = b ∧
      (((index * 1024 + a) * 1024 + b) * 1024 + c) % 1024 = c ∧
      (((index * 1024 + a) * 1024 + b) * 1024 + c) >>> 10 >>> 10 % 1024 = a := by
  simp only [Nat.shiftRight_eq_div_pow]
  refine ⟨?_, ?_, ?_, ?_, ?_, ?_⟩ <;> omega

theorem field_parts (f s m : ℕ) (h : f = s * 512 + m) (hs : s ≤ 1) (hm : m ≤ 511) :
    f % 512 = m ∧ (f >>> 9) % 2 = s := by
  simp only [Nat.shiftRight_eq_div_pow]
  constructor <;> omega

theorem shiftRight_mod (n : ℕ) : (n >>> 9) % 2 = ((n % 1024) >>> 9) % 2 ∧
    n % 512 = n % 1024 % 512 := by
  simp only [Nat.shiftRight_eq_div_pow]
  constructor <;> omega

/-- Claim C16 as amended (rotation V3 bit layout).  For rotation bytes that are not
all 128 the little-endian word produced by `spzEncodeRotationsV3` holds the
omitted index in bits 31-30 and the 10-bit fields `signBit << 9 | magnitude` of the
other components in ascending index order from the top: the lowest-index one in
bits 29-20, the middle one in bits 19-10, the highest-index one in bits 9-0. -/
theorem rotationV3_layout (rw rx ry rz : ℕ) (hw : rw < 256) (hx : rx < 256)
    (hy : ry < 256) (hz : rz < 256) (hne : ¬ (rw = 128 ∧ rx = 128 ∧ ry = 128 ∧ rz = 128)) :
    AscendingLayout rw rx ry rz := by
  unfold AscendingLayout V3Layout
  rw [spzEncodeRotationsV3_eq,
    leUint32At_uint32ToBytes _ (encoderWord_lt rw rx ry rz hw hx hy hz hne),
    encoderWord_eq rw rx ry rz hw hx hy hz hne]
  obtain ⟨n1, n2, n3, -, -⟩ := otherIndices_ne (encoderIndex rw rx ry rz)
  have h := word_fields _ _ _ _ (encoderIndex rw rx ry rz).is_lt
    (encoder_field_lt rw rx ry rz hw hx hy hz hne _ n1).2
    (encoder_field_lt rw rx ry rz hw hx hy hz hne _ n2).2
    (encoder_field_lt rw rx ry rz hw hx hy hz hne _ n3).2
  exact ⟨h.2.1, h.2.2.1, h.2.2.2.1, h.2.2.2.2.1⟩

theorem rotationV3_layout_witness :
    (128 < 256 ∧ 138 < 256 ∧ 148 < 256 ∧ 158 < 256 ∧
      ¬ ((128 : ℕ) = 128 ∧ (138 : ℕ) = 128 ∧ (148 : ℕ) = 128 ∧ (158 : ℕ) = 128)) ∧
      AscendingLayout 128 138 148 158 :=
  ⟨by decide, rotationV3_layout 128 138 148 158 (by decide) (by decide) (by decide) (by decide)
    (by decide)⟩

open GoFloat in
/-- Claim C18 (rotation V3 magnitudes fit their field).  For rotation bytes that
are not all 128 and a component `i` other than the one the encoder omits: the
exact normalised component is at most `1/sqrt 2` in absolute value (twice its
square is at most the squared length); the entry the encoder computes for it is
finite, with a square of at most `1/2 + 2 ^ (-50)`; its magnitude is at most
`CMask = 511` and its sign bit at most 1; its field is `signBit * 512 + magnitude`,
below `2 ^ 10`; and the packed word is below `2 ^ 32` with the index in its top two
bits. -/
theorem rotationV3_magnitude_fits (rw rx ry rz : ℕ) (hw : rw < 256) (hx : rx < 256)
    (hy : ry < 256) (hz : rz < 256) (hne : ¬ (rw = 128 ∧ rx = 128 ∧ ry = 128 ∧ rz = 128))
    (i : Fin 4) (hi : i ≠ encoderIndex rw rx ry rz) :
    2 * byteQuaternion rw rx ry rz i ^ 2 ≤ normSq (byteQuaternion rw rx ry rz) ∧
      (∃ ρ : ℚ, canonicalRotation rw rx ry rz i = fin ρ ∧ ρ ^ 2 ≤ 1 / 2 + 1 / 2 ^ 50) ∧
      rotationMagnitude (canonicalRotation rw rx ry rz i) ≤ CMask ∧
      rotationSignBit (canonicalRotation rw rx ry rz i) ≤ 1 ∧
      rotationField (canonicalRotation rw rx ry rz i) =
        rotationSignBit (canonicalRotation rw rx ry rz i) * 512 +
          rotationMagnitude (canonicalRotation rw rx ry rz i) ∧
      rotationField (canonicalRotation rw rx ry rz i) < 2 ^ 10 ∧
      encoderWord rw rx ry rz < 2 ^ 32 ∧
      encoderWord rw rx ry rz >>> 30 = (encoderIndex rw rx ry rz).val := by
  obtain ⟨σ, ρ, hσ, hfin, herr, -⟩ := canonicalRotation_spec rw rx ry rz hw hx hy hz hne
  have hf := encoder_field_lt rw rx ry rz hw hx hy hz hne i hi
  refine ⟨two_mul_sq_le_normSq rw rx ry rz hw hx hy hz hne i hi,
    ⟨ρ i, hfin i, (other_entry_bounds rw rx ry rz hw hx hy hz hne i hi σ (ρ i) hσ (herr i)).2⟩,
    encoder_magnitude_le rw rx ry rz hw hx hy hz hne i hi, rotationSignBit_le _, hf.1, hf.2,
    encoderWord_lt rw rx ry rz hw hx hy hz hne, ?_⟩
  rw [encoderWord_eq rw rx ry rz hw hx hy hz hne]
  obtain ⟨n1, n2, n3, -, -⟩ := otherIndices_ne (encoderIndex rw rx ry rz)
  exact (word_fields _ _ _ _ (encoderIndex rw rx ry rz).is_lt
    (encoder_field_lt rw rx ry rz hw hx hy hz hne _ n1).2
    (encoder_field_lt rw rx ry rz hw hx hy hz hne _ n2).2
    (encoder_field_lt rw rx ry rz hw hx hy hz hne _ n3).2).2.1

open GoFloat in
theorem rotationV3_magnitude_fits_witness :
    (128 < 256 ∧ 138 < 256 ∧ 148 < 256 ∧ 158 < 256 ∧
      ¬ ((128 : ℕ) = 128 ∧ (138 : ℕ) = 128 ∧ (148 : ℕ) = 128 ∧ (158 : ℕ) = 128) ∧
      (1 : Fin 4) ≠ encoderIndex 128 138 148 158) ∧
    (2 * byteQuaternion 128 138 148 158 1 ^ 2 ≤ normSq (byteQuaternion 128 138 148 158) ∧
      (∃ ρ : ℚ, canonicalRotation 128 138 148 158 1 = fin ρ ∧ ρ ^ 2 ≤ 1 / 2 + 1 / 2 ^ 50) ∧
      rotationMagnitude (canonicalRotation 128 138 148 158 1) ≤ CMask ∧
      rotationSignBit (canonicalRotation 128 138 148 158 1) ≤ 1 ∧
      rotationField (canonicalRotation 128 138 148 158 1) =
        rotationSignBit (canonicalRotation 128 138 148 158 1) * 512 +
          rotationMagnitude (canonicalRotation 128 138 148 158 1) ∧
      rotationField (canonicalRotation 128 138 148 158 1) < 2 ^ 10 ∧
      encoderWord 128 138 148 158 < 2 ^ 32 ∧
      encoderWord 128 138 148 158 >>> 30 = (encoderIndex 128 138 148 158).val) :=
  ⟨⟨by decide, by decide, by decide, by decide, by decide, by rw [encoder_sample.2.1]; decide⟩,
    rotationV3_magnitude_fits 128 138 148 158 (by decide) (by decide) (by decide) (by decide)
      (by decide) 1 (by rw [encoder_sample.2.1]; decide)⟩

theorem unpackStep_self (index : ℕ) (i : Fin 4) (h : i.val = index) (st : UnpackState) :
    unpackStep index st i = st := by
  unfold unpackStep
  rw [if_neg (not_not.mpr h)]

open GoFloat in
theorem unpackStep_other (index : ℕ) (st : UnpackState) (i : Fin 4) (h : i.val ≠ index) :
    unpackStep index st i =
      { remaining := st.remaining >>> 10
        sumSquares := add binary64 st.sumSquares
          (mul binary64 (unpackComponent st.remaining) (unpackComponent st.remaining))
        rotation := Function.update st.rotation i (unpackComponent st.remaining) } := by
  unfold unpackStep
  rw [if_pos h]
  rfl

open GoFloat in
/-- The decoding loop visits the three components other than `index` from the
highest to the lowest. -/
theorem unpackStateAt_eq (comp : ℕ) (index : Fin 4) (h : comp >>> 30 = index.val) :
    unpackStateAt comp (highestOther index) = ⟨comp, const64 0, fun _ => const64 0⟩ ∧
      unpackStateAt comp (middleOther index) =
        unpackStep index.val ⟨comp, const64 0, fun _ => const64 0⟩ (highestOther index) ∧
      unpackStateAt comp (lowestOther index) =
        unpackStep index.val (unpackStep index.val ⟨comp, const64 0, fun _ => const64 0⟩
          (highestOther index)) (middleOther index) ∧
      [3, 2, 1, 0].foldl (unpackStep index.val) ⟨comp, const64 0, fun _ => const64 0⟩ =
        unpackStep index.val (unpackStep index.val (unpackStep index.val
          ⟨comp, const64 0, fun _ => const64 0⟩ (highestOther index)) (middleOther index))
          (lowestOther index) := by
  unfold unpackStateAt
  rw [h]
  generalize (⟨comp, const64 0, fun _ => const64 0⟩ : UnpackState) = st
  rcases fin4_cases index with h | h | h | h <;> subst h
  · refine ⟨rfl, rfl, rfl, ?_⟩
    exact unpackStep_self 0 0 rfl _
  · refine ⟨rfl, rfl, ?_, ?_⟩
    · show unpackStep 1 (unpackStep 1 (unpackStep 1 st 3) 2) 1 = unpackStep 1 (unpackStep 1 st 3) 2
      exact unpackStep_self 1 1 rfl _
    · show unpackStep 1 (unpackStep 1 (unpackStep 1 (unpackStep 1 st 3) 2) 1) 0 =
        unpackStep 1 (unpackStep 1 (unpackStep 1 st 3) 2) 0
      rw [unpackStep_self 1 1 rfl]
  · refine ⟨rfl, ?_, ?_, ?_⟩
    · show unpackStep 2 (unpackStep 2 st 3) 2 = unpackStep 2 st 3
      exact unpackStep_self 2 2 rfl _
    · show unpackStep 2 (unpackStep 2 (unpackStep 2 st 3) 2) 1 = unpackStep 2 (unpackStep 2 st 3) 1
      rw [unpackStep_self 2 2 rfl]
    · show unpackStep 2 (unpackStep 2 (unpackStep 2 (unpackStep 2 st 3) 2) 1) 0 =
        unpackStep 2 (unpackStep 2 (unpackStep 2 st 3) 1) 0
      rw [unpackStep_self 2 2 rfl]
  · refine ⟨?_, ?_, ?_, ?_⟩
    · show unpackStep 3 st 3 = st
      exact unpackStep_self 3 3 rfl _
    · show unpackStep 3 (unpackStep 3 st 3) 2 = unpackStep 3 st 2
      rw [unpackStep_self 3 3 rfl]
    · show unpackStep 3 (unpackStep 3 (unpackStep 3 st 3) 2) 1 = unpackStep 3 (unpackStep 3 st 2) 1
      rw [unpackStep_self 3 3 rfl]
    · show unpackStep 3 (unpackStep 3 (unpackStep 3 (unpackStep 3 st 3) 2) 1) 0 =
        unpackStep 3 (unpackStep 3 (unpackStep 3 st 2) 1) 0
      rw [unpackStep_self 3 3 rfl]

/-- The bits the decoding loop has left when it reaches each of the three
components it visits. -/
theorem unpackStateAt_remaining (comp : ℕ) (index : Fin 4) (h : comp >>> 30 = index.val) :
    (unpackStateAt comp (highestOther index)).remaining = comp ∧
      (unpackStateAt comp (middleOther index)).remaining = comp >>> 10 ∧
      (unpackStateAt comp (lowestOther index)).remaining = comp >>> 10 >>> 10 := by
  obtain ⟨e1, e2, e3, -⟩ := unpackStateAt_eq comp index h
  obtain ⟨-, n2, n3, -, -⟩ := otherIndices_ne index
  have m2 : (middleOther index).val ≠ index.val := fun hc => n2 (Fin.ext hc)
  have m3 : (highestOther index).val ≠ index.val := fun hc => n3 (Fin.ext hc)
  rw [e1, e2, e3, unpackStep_other _ _ _ m3, unpackStep_other _ _ _ m2]
  exact ⟨rfl, rfl, rfl⟩

theorem and_CMask (n : ℕ) : n &&& CMask = n % 512 :=
  Nat.and_pow_two_sub_one_eq_mod n 9

/-- Claim C17 (rotation V3 encoder and decoder agree on the packing).  For rotation
bytes that are not all 128, the index `spzDecodeRotationsV3` extracts from the four
bytes produced by `spzEncodeRotationsV3` is the index chosen by the encoder, which
points at a component of largest absolute value, and for each other component `i`
the sign bit and the 9-bit magnitude the decoding loop reads at component `i` are
the sign bit and the magnitude the encoder computed for component `i`. -/
theorem rotationV3_packing_agrees (rw rx ry rz : ℕ) (hw : rw < 256) (hx : rx < 256)
    (hy : ry < 256) (hz : rz < 256) (hne : ¬ (rw = 128 ∧ rx = 128 ∧ ry = 128 ∧ rz = 128)) :
    decoderWord (spzEncodeRotationsV3 rw rx ry rz) >>> 30 = (encoderIndex rw rx ry rz).val ∧
      (∀ j, |byteQuaternion rw rx ry rz j| ≤
        |byteQuaternion rw rx ry rz (encoderIndex rw rx ry rz)|) ∧
      ∀ i, i ≠ encoderIndex rw rx ry rz →
        decoderSignBit (decoderWord (spzEncodeRotationsV3 rw rx ry rz)) i =
            rotationSignBit (canonicalRotation rw rx ry rz i) ∧
          decoderMagnitude (decoderWord (spzEncodeRotationsV3 rw rx ry rz)) i =
            rotationMagnitude (canonicalRotation rw rx ry rz i) := by
  have hlt := encoderWord_lt rw rx ry rz hw hx hy hz hne
  have hword := encoderWord_eq rw rx ry rz hw hx hy hz hne
  rw [spzEncodeRotationsV3_eq, decoderWord_uint32ToBytes _ hlt]
  obtain ⟨n1, n2, n3, -, -⟩ := otherIndices_ne (encoderIndex rw rx ry rz)
  obtain ⟨g1, f1⟩ := encoder_field_lt rw rx ry rz hw hx hy hz hne _ n1
  obtain ⟨g2, f2⟩ := encoder_field_lt rw rx ry rz hw hx hy hz hne _ n2
  obtain ⟨g3, f3⟩ := encoder_field_lt rw rx ry rz hw hx hy hz hne _ n3
  have hc : CMask = 511 := rfl
  have p1 := field_parts _ _ _ g1 (rotationSignBit_le _)
    (hc ▸ encoder_magnitude_le rw rx ry rz hw hx hy hz hne _ n1)
  have p2 := field_parts _ _ _ g2 (rotationSignBit_le _)
    (hc ▸ encoder_magnitude_le rw rx ry rz hw hx hy hz hne _ n2)
  have p3 := field_parts _ _ _ g3 (rotationSignBit_le _)
    (hc ▸ encoder_magnitude_le rw rx ry rz hw hx hy hz hne _ n3)
  obtain ⟨-, hidx, -, wb, wc, wa⟩ := word_fields _ _ _ _ (encoderIndex rw rx ry rz).is_lt f1 f2 f3
  rw [← hword] at hidx wa wb wc
  obtain ⟨r3, r2, r1⟩ := unpackStateAt_remaining _ _ hidx
  refine ⟨hidx, encoderIndex_max rw rx ry rz hw hx hy hz hne, ?_⟩
  intro i hi
  unfold decoderSignBit decoderMagnitude
  rw [and_CMask, Nat.and_one_is_mod]
  rcases other_cases _ i hi with h | h | h <;> rw [h]
  · rw [r1, (shiftRight_mod _).1, (shiftRight_mod _).2, wa]
    exact ⟨p1.2, p1.1⟩
  · rw [r2, (shiftRight_mod _).1, (shiftRight_mod _).2, wb]
    exact ⟨p2.2, p2.1⟩
  · rw [r3, (shiftRight_mod _).1, (shiftRight_mod _).2, wc]
    exact ⟨p3.2, p3.1⟩

theorem rotationV3_packing_agrees_witness :
    (128 < 256 ∧ 138 < 256 ∧ 148 < 256 ∧ 158 < 256 ∧
      ¬ ((128 : ℕ) = 128 ∧ (138 : ℕ) = 128 ∧ (148 : ℕ) = 128 ∧ (158 : ℕ) = 128)) ∧
    (decoderWord (spzEncodeRotationsV3 128 138 148 158) >>> 30 =
        (encoderIndex 128 138 148 158).val ∧
      (∀ j, |byteQuaternion 128 138 148 158 j| ≤
        |byteQuaternion 128 138 148 158 (encoderIndex 128 138 148 158)|) ∧
      ∀ i, i ≠ encoderIndex 128 138 148 158 →
        decoderSignBit (decoderWord (spzEncodeRotationsV3 128 138 148 158)) i =
            rotationSignBit (canonicalRotation 128 138 148 158 i) ∧
          decoderMagnitude (decoderWord (spzEncodeRotationsV3 128 138 148 158)) i =
            rotationMagnitude (canonicalRotation 128 138 148 158 i)) :=
  ⟨by decide, rotationV3_packing_agrees 128 138 148 158 (by decide) (by decide) (by decide)
    (by decide) (by decide)⟩

open GoFloat in
/-- The component the decoding loop computes from a field `s * 512 + m`: up to the
sign selected by `s`, a value within `2 ^ (-52)` of `SQRT1_2 * m / 511`. -/
theorem unpackComponent_spec (remaining s m : ℕ) (h : remaining % 1024 = s * 512 + m)
    (hs : s ≤ 1) (hm : m ≤ 511) :
    ∃ r : ℚ, |r - 6369051672525773 / 9007199254740992 * m / 511| ≤ 1 / 2 ^ 52 ∧
      unpackComponent remaining = fin (if s = 1 then -r else r) := by
  unfold unpackComponent
  have e1 : remaining &&& CMask = m := by
    rw [and_CMask]
    omega
  have e2 : (remaining >>> 9) &&& 1 = s := by
    rw [Nat.and_one_is_mod, Nat.shiftRight_eq_div_pow]
    omega
  simp only [e1, e2]
  have hmq : (m : ℚ) ≤ 511 := by exact_mod_cast hm
  have hm0 : (0 : ℚ) ≤ m := Nat.cast_nonneg m
  have h1 : ofInt binary64 (m : ℤ) = fin (m : ℚ) := by
    have := ofInt64_eq (m : ℤ) (by rw [abs_of_nonneg (by positivity)]; norm_num; omega)
    rwa [Int.cast_natCast] at this
  rw [h1, ofInt64_CMask, const64_SQRT1_2]
  have hd : |(m : ℚ) / 511| < 2 ^ (1 : ℤ) := by
    rw [abs_of_nonneg (by positivity), div_lt_iff₀ (by norm_num)]
    norm_num
    linarith
  obtain ⟨d1, d2⟩ := div64_near (m : ℚ) 511 (by norm_num) 1 hd (by norm_num) (by norm_num)
  rw [d1]
  set d := roundTo binary64 ((m : ℚ) / 511) with hdd
  rw [abs_le] at d2
  norm_num at d2
  have hd1 : (m : ℚ) / 511 ≤ 1 := by
    rw [div_le_iff₀ (by norm_num)]
    linarith
  have hd0 : (0 : ℚ) ≤ (m : ℚ) / 511 := by positivity
  have hr : |6369051672525773 / 9007199254740992 * d| < 2 ^ (1 : ℤ) := by
    rw [abs_lt]
    norm_num
    constructor <;> linarith [d2.1, d2.2]
  obtain ⟨r1, r2⟩ := mul64_near (6369051672525773 / 9007199254740992) d 1 hr (by norm_num)
    (by norm_num)
  rw [r1]
  set r := roundTo binary64 (6369051672525773 / 9007199254740992 * d) with hrd
  rw [abs_le] at r2
  norm_num at r2
  refine ⟨r, ?_, ?_⟩
  · rw [abs_le]
    norm_num
    constructor <;> linarith [d2.1, d2.2, r2.1, r2.2]
  · by_cases hs1 : s = 1
    · simp only [hs1, if_true, GoFloat.neg]
    · simp only [hs1, if_false]

open GoFloat in
/-- The byte `clipUint8(r*128.0 + 128.0)` of a value in `[-0.99, 1 + 2 ^ (-50)]`
maps back under `b/128 - 1` to a value in `[r - 1/128 - 2 ^ (-40), r + 2 ^ (-40)]`. -/
theorem rotationByte_spec (r : ℚ) (h1 : -99 / 100 ≤ r) (h2 : r ≤ 1 + 1 / 2 ^ 50) :
    rotationByte (fin r) < 256 ∧
      r - 1 / 128 - 1 / 2 ^ 40 ≤ byteComponent (rotationByte (fin r)) ∧
      byteComponent (rotationByte (fin r)) ≤ r + 1 / 2 ^ 40 := by
  unfold rotationByte byteComponent
  rw [const64_small.2.2.1]
  have ha : |r * 128| < 2 ^ (8 : ℤ) := by
    rw [abs_lt]
    norm_num at h2 ⊢
    constructor <;> linarith
  obtain ⟨a1, a2⟩ := mul64_near r 128 8 ha (by norm_num) (by norm_num)
  rw [a1]
  set a := roundTo binary64 (r * 128) with had
  rw [abs_le] at a2
  norm_num at a2 h2
  have hb : |a + 128| < 2 ^ (9 : ℤ) := by
    rw [abs_lt]
    norm_num
    constructor <;> linarith [a2.1, a2.2]
  obtain ⟨b1, b2⟩ := add64_near a 128 9 hb (by norm_num) (by norm_num)
  rw [b1]
  set v := roundTo binary64 (a + 128) with hvd
  rw [abs_le] at b2
  norm_num at b2
  have hv0 : 1 ≤ v := by linarith [a2.1, b2.1]
  unfold clipUint8
  have l0 : lt (fin v) (fin 0) = false := decide_eq_false (by linarith)
  rw [l0]
  by_cases hv : 255 < v
  · have l1 : lt (fin 255) (fin v) = true := decide_eq_true hv
    rw [l1]
    simp only [Bool.false_eq_true, if_false, if_true]
    norm_num
    constructor <;> linarith [a2.1, a2.2, b2.1, b2.2]
  · have l1 : lt (fin 255) (fin v) = false := decide_eq_false hv
    rw [l1]
    simp only [Bool.false_eq_true, if_false]
    rw [not_lt] at hv
    have hf0 : 0 ≤ ⌊v⌋ := Int.floor_nonneg.mpr (by linarith)
    have hf1 : ⌊v⌋ ≤ 255 := by
      have : ⌊v⌋ ≤ ⌊(255 : ℚ)⌋ := Int.floor_le_floor hv
      simpa using this
    have ht : truncate v = ⌊v⌋ := by
      unfold truncate
      rw [if_pos (by linarith)]
    have hu : toUint8 (fin v) = (⌊v⌋).toNat := by
      unfold toUint8
      simp only [toInt, ht]
      rw [if_pos ⟨by norm_num; omega, by norm_num; omega⟩]
      rw [Int.emod_eq_of_lt hf0 (by omega)]
    rw [hu]
    have hcast : (((⌊v⌋).toNat : ℕ) : ℚ) = ((⌊v⌋ : ℤ) : ℚ) := by
      have : (((⌊v⌋).toNat : ℕ) : ℤ) = ⌊v⌋ := Int.toNat_of_nonneg hf0
      exact_mod_cast this
    rw [hcast]
    have f1 := Int.floor_le v
    have f2 := Int.lt_floor_add_one v
    refine ⟨by omega, ?_, ?_⟩ <;> linarith [a2.1, a2.2, b2.1, b2.2]

theorem spzDecodeRotationsV3_uint32ToBytes (w : ℕ) (hw : w < 2 ^ 32) :
    spzDecodeRotationsV3 (uint32ToBytes w) =
      .ok (rotationByte (decodedRotation w 0), rotationByte (decodedRotation w 1),
        rotationByte (decodedRotation w 2), rotationByte (decodedRotation w 3)) := by
  have h := putUint32_parts w hw
  unfold spzDecodeRotationsV3 uint32ToBytes putUint32
  simp only [h]
  rfl

open GoFloat in
/-- A component written by the encoder and read back by the decoding loop moves by
at most `0.000693`. -/
theorem component_roundtrip (ρ : ℚ) (hρ : |ρ| ≤ 7073 / 10000) (remaining : ℕ)
    (h : remaining % 1024 = rotationField (fin ρ)) :
    ∃ y : ℚ, unpackComponent remaining = fin y ∧ |y - ρ| ≤ 693 / 1000000 := by
  have hm := rotationMagnitude_le ρ hρ
  have hs := rotationSignBit_le (fin ρ)
  rw [rotationField_eq _ hm] at h
  obtain ⟨r, hr, hy⟩ := unpackComponent_spec remaining _ _ h hs hm
  obtain ⟨m1, m2⟩ := rotationMagnitude_spec ρ (by linarith)
  set m := rotationMagnitude (fin ρ) with hmd
  have hsg : rotationSignBit (fin ρ) = if ρ < 0 then 1 else 0 := by
    unfold rotationSignBit
    rw [const64_consts.2.2.1]
    simp only [GoFloat.lt, decide_eq_true_eq]
  rw [hsg] at hy
  rw [abs_le] at hr
  norm_num at hr m1 m2
  -- |r - |ρ|| ≤ 0.000693
  have k1 : 511 * |ρ| / (6369051672525773 / 9007199254740992) =
      |ρ| * (511 * 9007199254740992 / 6369051672525773) := by ring
  have k2 : (6369051672525773 : ℚ) / 9007199254740992 * m / 511 =
      m * (6369051672525773 / (511 * 9007199254740992)) := by ring
  rw [k2] at hr
  rw [k1] at m1 m2
  have hr' : |r - (|ρ|)| ≤ 693 / 1000000 := by
    rw [abs_le]
    have ha0 : 0 ≤ |ρ| := abs_nonneg ρ
    constructor <;> linarith [hr.1, hr.2, m1, m2]
  by_cases hneg : ρ < 0
  · rw [if_pos hneg] at hy
    simp only [if_true] at hy
    refine ⟨-r, hy, ?_⟩
    rw [abs_of_neg hneg] at hr'
    rw [show -r - ρ = -(r - -ρ) by ring, abs_neg]
    exact hr'
  · rw [if_neg hneg] at hy
    simp only [zero_ne_one, if_false] at hy
    refine ⟨r, hy, ?_⟩
    rw [abs_of_nonneg (not_lt.mp hneg)] at hr'
    exact hr'

open GoFloat in
/-- The slice the decoder ends with, component by component. -/
theorem decodedRotation_eq (comp : ℕ) (index : Fin 4) (h : comp >>> 30 = index.val) :
    decodedRotation comp (highestOther index) = unpackComponent comp ∧
      decodedRotation comp (middleOther index) = unpackComponent (comp >>> 10) ∧
      decodedRotation comp (lowestOther index) = unpackComponent (comp >>> 10 >>> 10) ∧
      decodedRotation comp index =
        sqrt (max (sub binary64 (const64 1)
          (add binary64 (add binary64 (add binary64 (const64 0)
            (mul binary64 (unpackComponent comp) (unpackComponent comp)))
            (mul binary64 (unpackComponent (comp >>> 10)) (unpackComponent (comp >>> 10))))
            (mul binary64 (unpackComponent (comp >>> 10 >>> 10))
              (unpackComponent (comp >>> 10 >>> 10))))) (const64 0)) := by
  obtain ⟨-, -, -, e⟩ := unpackStateAt_eq comp index h
  obtain ⟨n1, n2, n3, l1, l2⟩ := otherIndices_ne index
  have m1 : (lowestOther index).val ≠ index.val := fun hc => n1 (Fin.ext hc)
  have m2 : (middleOther index).val ≠ index.val := fun hc => n2 (Fin.ext hc)
  have m3 : (highestOther index).val ≠ index.val := fun hc => n3 (Fin.ext hc)
  have d12 : lowestOther index ≠ middleOther index := ne_of_lt l1
  have d23 : middleOther index ≠ highestOther index := ne_of_lt l2
  have d13 : lowestOther index ≠ highestOther index := ne_of_lt (lt_trans l1 l2)
  unfold decodedRotation
  simp only [h, e]
  rw [unpackStep_other _ _ _ m3, unpackStep_other _ _ _ m2, unpackStep_other _ _ _ m1]
  simp only [if_neg m1, if_neg m2, if_neg m3, if_true]
  refine ⟨?_, ?_, ?_, trivial⟩
  · rw [Function.update_noteq d13.symm, Function.update_noteq d23.symm, Function.update_same]
  · rw [Function.update_noteq d12.symm, Function.update_same]
  · rw [Function.update_same]

open GoFloat in
/-- The running sum of three squares of components below `0.71` in absolute value
is finite and within `2 ^ (-50)` of the exact sum. -/
theorem sumSquares_spec (a b c : ℚ) (ha : |a| ≤ 71 / 100) (hb : |b| ≤ 71 / 100)
    (hc : |c| ≤ 71 / 100) :
    ∃ ss : ℚ, add binary64 (add binary64 (add binary64 (const64 0)
        (mul binary64 (fin a) (fin a))) (mul binary64 (fin b) (fin b)))
        (mul binary64 (fin c) (fin c)) = fin ss ∧
      |ss - (a ^ 2 + b ^ 2 + c ^ 2)| ≤ 1 / 2 ^ 50 := by
  have sq : ∀ x : ℚ, |x| ≤ 71 / 100 → 0 ≤ x * x ∧ x * x ≤ 5041 / 10000 := by
    intro x hx
    rw [abs_le] at hx
    constructor
    · exact mul_self_nonneg x
    · nlinarith [hx.1, hx.2]
  obtain ⟨a0, a1⟩ := sq a ha
  obtain ⟨b0, b1⟩ := sq b hb
  obtain ⟨c0, c1⟩ := sq c hc
  have lt1 : ∀ x : ℚ, 0 ≤ x → x ≤ 5041 / 10000 → |x| < 2 ^ (0 : ℤ) := by
    intro x h0 h1
    rw [abs_of_nonneg h0]
    norm_num
    linarith
  obtain ⟨ea, fa⟩ := mul64_near a a 0 (lt1 _ a0 a1) (by norm_num) (by norm_num)
  obtain ⟨eb, fb⟩ := mul64_near b b 0 (lt1 _ b0 b1) (by norm_num) (by norm_num)
  obtain ⟨ec, fc⟩ := mul64_near c c 0 (lt1 _ c0 c1) (by norm_num) (by norm_num)
  rw [ea, eb, ec, const64_consts.2.2.1]
  set A := roundTo binary64 (a * a) with hA
  set B := roundTo binary64 (b * b) with hB
  set C := roundTo binary64 (c * c) with hC
  rw [abs_le] at fa fb fc
  norm_num at fa fb fc
  have h1 : |0 + A| < 2 ^ (0 : ℤ) := by
    rw [abs_lt]
    norm_num
    constructor <;> linarith [fa.1, fa.2]
  obtain ⟨e1, f1⟩ := add64_near 0 A 0 h1 (by norm_num) (by norm_num)
  rw [e1]
  set s1 := roundTo binary64 (0 + A) with hs1
  rw [abs_le] at f1
  norm_num at f1
  have h2 : |s1 + B| < 2 ^ (1 : ℤ) := by
    rw [abs_lt]
    norm_num
    constructor <;> linarith [fa.1, fa.2, fb.1, fb.2, f1.1, f1.2]
  obtain ⟨e2, f2⟩ := add64_near s1 B 1 h2 (by norm_num) (by norm_num)
  rw [e2]
  set s2 := roundTo binary64 (s1 + B) with hs2
  rw [abs_le] at f2
  norm_num at f2
  have h3 : |s2 + C| < 2 ^ (1 : ℤ) := by
    rw [abs_lt]
    norm_num
    constructor <;> linarith [fa.1, fa.2, fb.1, fb.2, fc.1, fc.2, f1.1, f1.2, f2.1, f2.2]
  obtain ⟨e3, f3⟩ := add64_near s2 C 1 h3 (by norm_num) (by norm_num)
  rw [e3]
  set s3 := roundTo binary64 (s2 + C) with hs3
  rw [abs_le] at f3
  norm_num at f3
  refine ⟨s3, rfl, ?_⟩
  rw [abs_le]
  norm_num
  constructor <;>
    linarith [fa.1, fa.2, fb.1, fb.2, fc.1, fc.2, f1.1, f1.2, f2.1, f2.2, f3.1, f3.2]

open GoFloat in
/-- The restored component `sqrt(max(1 - sumSquares, 0))` for a sum of at most
`0.76`: positive, with a square within `2 ^ (-50)` of `1 - sumSquares`. -/
theorem own_spec (ss : ℚ) (h0 : -1 / 1000 ≤ ss) (h1 : ss ≤ 76 / 100) :
    ∃ o : ℚ, sqrt (max (sub binary64 (const64 1) (fin ss)) (const64 0)) = fin o ∧ 0 < o ∧
      |o ^ 2 - (1 - ss)| ≤ 1 / 2 ^ 50 := by
  rw [const64_small.2.2.2.1, const64_consts.2.2.1]
  unfold sub
  simp only [GoFloat.neg]
  have hd : |1 + -ss| < 2 ^ (1 : ℤ) := by
    rw [abs_lt]
    norm_num
    constructor <;> linarith
  obtain ⟨e1, f1⟩ := add64_near 1 (-ss) 1 hd (by norm_num) (by norm_num)
  rw [e1]
  set d := roundTo binary64 (1 + -ss) with hdd
  rw [abs_le] at f1
  norm_num at f1
  have hd0 : 1 / 8 ≤ d := by linarith [f1.1]
  have hd1 : d ≤ 101 / 100 := by linarith [f1.2]
  have hmax : max (fin d) (fin 0) = fin d := by
    simp only [GoFloat.max]
    rw [if_pos (by linarith)]
  rw [hmax]
  simp only [GoFloat.sqrt]
  rw [if_neg (not_lt.mpr (by linarith))]
  have hexp : -1022 ≤ binExp d / 2 := by
    have := le_binExp d (-3) (by
      rw [show (2 : ℚ) ^ (-3 : ℤ) = 1 / 8 by norm_num]
      exact hd0)
    omega
  obtain ⟨hpos, herr⟩ := sqrtRound64_sq d (by linarith) hexp
  refine ⟨_, rfl, hpos, ?_⟩
  rw [abs_le] at herr ⊢
  have hq : d / 2 ^ 51 ≤ (101 / 100) / 2 ^ 51 :=
    div_le_div_of_nonneg_right hd1 (by positivity)
  norm_num at hq ⊢
  constructor <;> linarith [herr.1, herr.2, f1.1, f1.2]

/-- Lagrange's identity around a nearby vector: with `e = p - n`,
`(n . p)^2 = |n|^2 |p|^2 - (|n|^2 |e|^2 - (n . e)^2)`. -/
theorem dot_sq_eq (n p : Fin 4 → ℚ) :
    dot n p ^ 2 = normSq n * normSq p -
      (normSq n * normSq (fun i => p i - n i) - dot n (fun i => p i - n i) ^ 2) := by
  unfold dot normSq
  ring

/-- A quaternion `p` whose components are within `0.00853` of those of `n` (within
`0.01392` for component `index`, which is at least `0.4859` in `p`) makes an angle
with `n` whose cosine exceeds `0.999`. -/
theorem quaternion_close (n p : Fin 4 → ℚ) (index : Fin 4) (hL : 4859 / 10000 ≤ p index)
    (heL : |p index - n index| ≤ 1392 / 100000)
    (he : ∀ i, i ≠ index → |p i - n i| ≤ 853 / 100000) (hn : 0 < normSq n) :
    (999 / 1000) ^ 2 * (normSq n * normSq p) < dot n p ^ 2 := by
  rw [dot_sq_eq]
  have hb : ∀ i, (p i - n i) ^ 2 ≤ if i = index then (1392 / 100000) ^ 2 else
      (853 / 100000 : ℚ) ^ 2 := by
    intro i
    by_cases hi : i = index
    · rw [if_pos hi, hi]
      exact sq_le_sq' (abs_le.mp heL).1 (abs_le.mp heL).2
    · rw [if_neg hi]
      exact sq_le_sq' (abs_le.mp (he i hi)).1 (abs_le.mp (he i hi)).2
  have hE : normSq (fun i => p i - n i) ≤ 413 / 1000000 := by
    unfold normSq
    have h0 := hb 0
    have h1 := hb 1
    have h2 := hb 2
    have h3 := hb 3
    rcases fin4_cases index with h | h | h | h <;> subst h <;>
      simp only [if_true, Fin.reduceEq, if_false] at h0 h1 h2 h3 <;>
      norm_num at h0 h1 h2 h3 ⊢ <;> linarith
  have hP : (4859 / 10000 : ℚ) ^ 2 ≤ normSq p := by
    have h1 : (4859 / 10000 : ℚ) ^ 2 ≤ p index ^ 2 :=
      pow_le_pow_left₀ (by norm_num) hL 2
    exact le_trans h1 (sq_le_normSq p index)
  have hD := sq_nonneg (dot n (fun i => p i - n i))
  norm_num at hP
  have key : 0 < normSq n * (1999 / 1000000 * normSq p - normSq (fun i => p i - n i)) :=
    mul_pos hn (by linarith)
  nlinarith

open GoFloat in
/-- The exact normalised quaternion `n` behind the slice of the packing loop: the
entries of the slice are within `2 ^ (-53)` of it, it is a scalar multiple of the
input quaternion, of squared length within `2 ^ (-50)` of 1, with component at the
chosen index at least `0.4999` and the other components at most `0.70711` in
absolute value. -/
theorem normalised_facts (rw rx ry rz : ℕ) (hw : rw < 256) (hx : rx < 256)
    (hy : ry < 256) (hz : rz < 256) (hne : ¬ (rw = 128 ∧ rx = 128 ∧ ry = 128 ∧ rz = 128)) :
    ∃ (k : ℚ) (ρ n : Fin 4 → ℚ), k ≠ 0 ∧
      (∀ i, byteQuaternion rw rx ry rz i = k * n i) ∧
      (∀ i, canonicalRotation rw rx ry rz i = fin (ρ i)) ∧
      (∀ i, |ρ i - n i| ≤ 1 / 2 ^ 53) ∧
      |normSq n - 1| ≤ 1 / 2 ^ 50 ∧
      4999 / 10000 ≤ n (encoderIndex rw rx ry rz) ∧
      (∀ i, i ≠ encoderIndex rw rx ry rz → |n i| ≤ 70711 / 100000) := by
  obtain ⟨σ, ρ, hσ, hfin, herr, hρL⟩ := canonicalRotation_spec rw rx ry rz hw hx hy hz hne
  obtain ⟨hpos, hq⟩ := qlen_spec rw rx ry rz hw hx hy hz hne
  have hb := normSq_byteQuaternion_bounds rw rx ry rz hw hx hy hz hne
  have hmax := encoderIndex_max rw rx ry rz hw hx hy hz hne
  set L := encoderIndex rw rx ry rz with hL
  set q := byteQuaternion rw rx ry rz with hqd
  set S := normSq q with hS
  set qf := sqrtRound binary64 S with hqf
  have hσ2 : σ * σ = 1 := by rcases hσ with h | h <;> rw [h] <;> norm_num
  have hσabs : |σ| = 1 := by rcases hσ with h | h <;> rw [h] <;> norm_num
  have hσ0 : σ ≠ 0 := by rcases hσ with h | h <;> rw [h] <;> norm_num
  have hnabs : ∀ i, |σ * (q i / qf)| = |q i| / qf := by
    intro i
    rw [abs_mul, hσabs, one_mul, abs_div, abs_of_pos hpos]
  have hnsq : ∀ i, (σ * (q i / qf)) ^ 2 = q i ^ 2 / qf ^ 2 := by
    intro i
    rw [mul_pow, div_pow, pow_two σ, hσ2, one_mul]
  have hN : normSq (fun i => σ * (q i / qf)) = S / qf ^ 2 := by
    rw [hS]
    unfold normSq
    simp only [hnsq]
    ring
  have hu : 0 < qf ^ 2 := by positivity
  have hSu : S = S / qf ^ 2 * qf ^ 2 := by field_simp
  rw [abs_le] at hq
  have hN0 : 0 ≤ S / qf ^ 2 := by
    apply div_nonneg (by linarith [hb.1]) hu.le
  have hN1 : S / qf ^ 2 - 1 ≤ S / qf ^ 2 / 2 ^ 51 := by
    generalize S / qf ^ 2 = N at hSu
    by_contra hc
    rw [not_le] at hc
    have := mul_lt_mul_of_pos_right hc hu
    linarith [hq.1]
  have hN2 : 1 - S / qf ^ 2 ≤ S / qf ^ 2 / 2 ^ 51 := by
    generalize S / qf ^ 2 = N at hSu
    by_contra hc
    rw [not_le] at hc
    have := mul_lt_mul_of_pos_right hc hu
    linarith [hq.2]
  have hNb : |normSq (fun i => σ * (q i / qf)) - 1| ≤ 1 / 2 ^ 50 := by
    rw [hN, abs_le]
    norm_num at hN1 hN2 ⊢
    constructor <;> linarith
  have hle : ∀ j, (σ * (q j / qf)) ^ 2 ≤ (σ * (q L / qf)) ^ 2 := by
    intro j
    rw [sq_le_sq, hnabs, hnabs]
    exact div_le_div_of_nonneg_right (hmax j) hpos.le
  have h4 : normSq (fun i => σ * (q i / qf)) ≤ 4 * (σ * (q L / qf)) ^ 2 := by
    unfold normSq
    linarith [hle 0, hle 1, hle 2, hle 3]
  have hLlow : -(1 / 2 ^ 53) ≤ σ * (q L / qf) := by
    have := (abs_le.mp (herr L)).2
    linarith
  rw [abs_le] at hNb
  have hnL : 4999 / 10000 ≤ σ * (q L / qf) := by
    by_contra hc
    rw [not_le] at hc
    norm_num at hNb hLlow
    nlinarith [hNb.1]
  refine ⟨σ * qf, ρ, fun i => σ * (q i / qf), mul_ne_zero hσ0 hpos.ne', ?_, hfin, herr,
    abs_le.mpr hNb, hnL, ?_⟩
  · intro i
    have : σ * qf * (σ * (q i / qf)) = (σ * σ) * q i := by
      field_simp
      ring
    rw [this, hσ2, one_mul]
  · intro i hi
    have h2 := sq_add_sq_le_normSq (fun i => σ * (q i / qf)) i L hi
    simp only at h2
    have h3 := hle i
    apply abs_le_of_sq_le_sq _ (by norm_num)
    norm_num at hNb ⊢
    linarith [hNb.2]

theorem normSq_reorder (n : Fin 4 → ℚ) (index : Fin 4) :
    normSq n = n index ^ 2 + n (lowestOther index) ^ 2 + n (middleOther index) ^ 2 +
      n (highestOther index) ^ 2 := by
  unfold normSq
  rcases fin4_cases index with h | h | h | h <;> subst h
  · show _ = n 0 ^ 2 + n 1 ^ 2 + n 2 ^ 2 + n 3 ^ 2
    rfl
  · show _ = n 1 ^ 2 + n 0 ^ 2 + n 2 ^ 2 + n 3 ^ 2
    ring
  · show _ = n 2 ^ 2 + n 0 ^ 2 + n 1 ^ 2 + n 3 ^ 2
    ring
  · show _ = n 3 ^ 2 + n 0 ^ 2 + n 1 ^ 2 + n 2 ^ 2
    ring

theorem sq_close (y n : ℚ) (h1 : |y - n| ≤ 7 / 10000) (h2 : |n| ≤ 70711 / 100000) :
    |y ^ 2 - n ^ 2| ≤ 1 / 1000 := by
  rw [abs_le] at h1 h2 ⊢
  constructor <;> nlinarith [h1.1, h1.2, h2.1, h2.2]

/-- The restored component is within `0.00603` of the exact one. -/
theorem restored_close (nL na nb nc ya yb yc ss o : ℚ)
    (hN : |nL ^ 2 + na ^ 2 + nb ^ 2 + nc ^ 2 - 1| ≤ 1 / 2 ^ 50) (hL : 4999 / 10000 ≤ nL)
    (ha : |ya ^ 2 - na ^ 2| ≤ 1 / 1000) (hb : |yb ^ 2 - nb ^ 2| ≤ 1 / 1000)
    (hc : |yc ^ 2 - nc ^ 2| ≤ 1 / 1000)
    (hss : |ss - (yc ^ 2 + yb ^ 2 + ya ^ 2)| ≤ 1 / 2 ^ 50) (ho : 0 < o)
    (hoo : |o ^ 2 - (1 - ss)| ≤ 1 / 2 ^ 50) :
    |o - nL| ≤ 603 / 100000 ∧ o ≤ 1 + 1 / 2 ^ 50 := by
  rw [abs_le] at hN ha hb hc hss hoo
  norm_num at hN hss hoo
  have hna := sq_nonneg ya
  have hnb := sq_nonneg yb
  have hnc := sq_nonneg yc
  have hD1 : o ^ 2 - nL ^ 2 ≤ 301 / 100000 := by linarith [hN.1, ha.1, hb.1, hc.1, hss.1, hoo.2]
  have hD2 : -(301 / 100000) ≤ o ^ 2 - nL ^ 2 := by
    linarith [hN.2, ha.2, hb.2, hc.2, hss.2, hoo.1]
  have hsum : 0 < o + nL := by linarith
  refine ⟨abs_le.mpr ⟨?_, ?_⟩, ?_⟩
  · by_contra h
    rw [not_le] at h
    have := mul_pos (sub_pos.mpr h) hsum
    linarith
  · by_contra h
    rw [not_le] at h
    have := mul_pos (sub_pos.mpr h) hsum
    linarith
  · by_contra h
    rw [not_le] at h
    norm_num at h
    have := mul_pos (sub_pos.mpr h) (by linarith : 0 < o + 1125899906842625 / 1125899906842624)
    linarith [hoo.2, hss.1]

open GoFloat in
/-- Decoding the encoded rotation: the result exists, and under `b/128 - 1` its
bytes are within `0.00853` (within `0.01392` at the index the encoder chose) of
the exact normalised quaternion, a non-zero multiple of the input quaternion. -/
theorem decoded_close (rw rx ry rz : ℕ) (hw : rw < 256) (hx : rx < 256)
    (hy : ry < 256) (hz : rz < 256) (hne : ¬ (rw = 128 ∧ rx = 128 ∧ ry = 128 ∧ rz = 128)) :
    ∃ (k : ℚ) (n : Fin 4 → ℚ) (p : Fin 4 → ℕ), k ≠ 0 ∧
      (∀ i, byteQuaternion rw rx ry rz i = k * n i) ∧ 0 < normSq n ∧
      spzDecodeRotationsV3 (spzEncodeRotationsV3 rw rx ry rz) = .ok (p 0, p 1, p 2, p 3) ∧
      (∀ i, p i < 256) ∧
      4859 / 10000 ≤ byteComponent (p (encoderIndex rw rx ry rz)) ∧
      |byteComponent (p (encoderIndex rw rx ry rz)) - n (encoderIndex rw rx ry rz)| ≤
        1392 / 100000 ∧
      ∀ i, i ≠ encoderIndex rw rx ry rz → |byteComponent (p i) - n i| ≤ 853 / 100000 := by
  obtain ⟨k, ρ, n, hk, hqn, hfin, herr, hN, hnL, hother⟩ :=
    normalised_facts rw rx ry rz hw hx hy hz hne
  have hlt := encoderWord_lt rw rx ry rz hw hx hy hz hne
  have hword := encoderWord_eq rw rx ry rz hw hx hy hz hne
  obtain ⟨n1, n2, n3, -, -⟩ := otherIndices_ne (encoderIndex rw rx ry rz)
  have f1 := (encoder_field_lt rw rx ry rz hw hx hy hz hne _ n1).2
  have f2 := (encoder_field_lt rw rx ry rz hw hx hy hz hne _ n2).2
  have f3 := (encoder_field_lt rw rx ry rz hw hx hy hz hne _ n3).2
  obtain ⟨-, hidx, -, wb, wc, wa⟩ := word_fields _ _ _ _ (encoderIndex rw rx ry rz).is_lt f1 f2 f3
  rw [← hword] at hidx wa wb wc
  obtain ⟨dc, db, da, dL⟩ := decodedRotation_eq _ _ hidx
  set L := encoderIndex rw rx ry rz with hL
  set W := encoderWord rw rx ry rz with hW
  have hρ : ∀ i, i ≠ L → |ρ i| ≤ 7073 / 10000 := by
    intro i hi
    have h1 := abs_sub_abs_le_abs_sub (ρ i) (n i)
    have h2 := herr i
    have h3 := hother i hi
    norm_num at h2
    linarith
  rw [hfin] at wa wb wc
  obtain ⟨ya, ua, va⟩ := component_roundtrip _ (hρ _ n1) _ wa
  obtain ⟨yb, ub, vb⟩ := component_roundtrip _ (hρ _ n2) _ wb
  obtain ⟨yc, uc, vc⟩ := component_roundtrip _ (hρ _ n3) _ wc
  have close : ∀ (y : ℚ) (i : Fin 4), |y - ρ i| ≤ 693 / 1000000 → |y - n i| ≤ 7 / 10000 := by
    intro y i h
    have h1 := abs_sub_le y (ρ i) (n i)
    have h2 := herr i
    norm_num at h2
    linarith
  have ka := close _ _ va
  have kb := close _ _ vb
  have kc := close _ _ vc
  have small : ∀ (y : ℚ) (i : Fin 4), i ≠ L → |y - n i| ≤ 7 / 10000 → |y| ≤ 71 / 100 := by
    intro y i hi h
    have h1 := abs_sub_abs_le_abs_sub y (n i)
    have h3 := hother i hi
    linarith
  have sa := small _ _ n1 ka
  have sb := small _ _ n2 kb
  have sc := small _ _ n3 kc
  obtain ⟨ss, hss1, hss2⟩ := sumSquares_spec yc yb ya sc sb sa
  rw [uc, ub, ua, hss1] at dL
  have qa := sq_close _ _ ka (hother _ n1)
  have qb := sq_close _ _ kb (hother _ n2)
  have qc := sq_close _ _ kc (hother _ n3)
  have hre := normSq_reorder n L
  rw [hre] at hN
  have hss_lo : -1 / 1000 ≤ ss := by
    have h1 := (abs_le.mp hss2).1
    have := sq_nonneg ya
    have := sq_nonneg yb
    have := sq_nonneg yc
    norm_num at h1
    linarith
  have hss_hi : ss ≤ 76 / 100 := by
    have h1 := (abs_le.mp hss2).2
    have h2 := (abs_le.mp hN).2
    have h3 := (abs_le.mp qa).2
    have h4 := (abs_le.mp qb).2
    have h5 := (abs_le.mp qc).2
    have h6 : (4999 / 10000 : ℚ) ^ 2 ≤ n L ^ 2 := pow_le_pow_left₀ (by norm_num) hnL 2
    norm_num at h1 h2 h6
    linarith
  obtain ⟨o, ho1, ho2, ho3⟩ := own_spec ss hss_lo hss_hi
  rw [ho1] at dL
  obtain ⟨oc, o1⟩ := restored_close _ _ _ _ ya yb yc ss o hN hnL qa qb qc hss2 ho2 ho3
  have ba := rotationByte_spec ya (by linarith [(abs_le.mp sa).1])
    (by linarith [(abs_le.mp sa).2, (by positivity : (0 : ℚ) ≤ 1 / 2 ^ 50)])
  have bb := rotationByte_spec yb (by linarith [(abs_le.mp sb).1])
    (by linarith [(abs_le.mp sb).2, (by positivity : (0 : ℚ) ≤ 1 / 2 ^ 50)])
  have bc := rotationByte_spec yc (by linarith [(abs_le.mp sc).1])
    (by linarith [(abs_le.mp sc).2, (by positivity : (0 : ℚ) ≤ 1 / 2 ^ 50)])
  have bL := rotationByte_spec o (by linarith) o1
  rw [← ua, ← da] at ba
  rw [← ub, ← db] at bb
  rw [← uc, ← dc] at bc
  rw [← dL] at bL
  have fin_other : ∀ (y : ℚ) (i : Fin 4) (b : ℚ), |y - n i| ≤ 7 / 10000 →
      y - 1 / 128 - 1 / 2 ^ 40 ≤ b → b ≤ y + 1 / 2 ^ 40 → |b - n i| ≤ 853 / 100000 := by
    intro y i b h h1 h2
    rw [abs_le] at h ⊢
    norm_num at h1 h2
    constructor <;> linarith [h.1, h.2]
  have ea := fin_other _ _ _ ka ba.2.1 ba.2.2
  have eb := fin_other _ _ _ kb bb.2.1 bb.2.2
  have ec := fin_other _ _ _ kc bc.2.1 bc.2.2
  have hNpos : 0 < normSq n := by
    rw [hre]
    have h2 := (abs_le.mp hN).1
    norm_num at h2
    linarith
  refine ⟨k, n, fun i => rotationByte (decodedRotation W i), hk, hqn, hNpos, ?_, ?_, ?_, ?_, ?_⟩
  · rw [spzEncodeRotationsV3_eq, spzDecodeRotationsV3_uint32ToBytes _ hlt]
  · intro i
    by_cases hi : i = L
    · rw [hi]
      exact bL.1
    · rcases other_cases _ i hi with h | h | h <;> rw [h]
      · exact ba.1
      · exact bb.1
      · exact bc.1
  · have h1 := bL.2.1
    have h2 := (abs_le.mp oc).1
    norm_num at h1
    show 4859 / 10000 ≤ byteComponent (rotationByte (decodedRotation W L))
    linarith
  · show |byteComponent (rotationByte (decodedRotation W L)) - n L| ≤ _
    have h1 := bL.2.1
    have h2 := bL.2.2
    rw [abs_le] at oc ⊢
    norm_num at h1 h2
    constructor <;> linarith [oc.1, oc.2]
  · intro i hi
    rcases other_cases _ i hi with h | h | h <;> rw [h]
    · exact ea
    · exact eb
    · exact ec

/-- The round trip of a rotation in squared form: the decoder returns four bytes
whose quaternion `q'` is not zero and satisfies
`0.999 ^ 2 * |q|^2 * |q'|^2 < (q . q')^2`. -/
theorem rotationV3_roundtrip_sq (rw rx ry rz : ℕ) (hw : rw < 256) (hx : rx < 256)
    (hy : ry < 256) (hz : rz < 256) (hne : ¬ (rw = 128 ∧ rx = 128 ∧ ry = 128 ∧ rz = 128)) :
    ∃ w x y z : ℕ,
      spzDecodeRotationsV3 (spzEncodeRotationsV3 rw rx ry rz) = .ok (w, x, y, z) ∧
      w < 256 ∧ x < 256 ∧ y < 256 ∧ z < 256 ∧
      0 < normSq (byteQuaternion w x y z) ∧
      (999 / 1000) ^ 2 * (normSq (byteQuaternion rw rx ry rz) * normSq (byteQuaternion w x y z)) <
        dot (byteQuaternion rw rx ry rz) (byteQuaternion w x y z) ^ 2 := by
  obtain ⟨k, n, p, hk, hqn, hNpos, hdec, hp, hL, heL, he⟩ :=
    decoded_close rw rx ry rz hw hx hy hz hne
  refine ⟨p 0, p 1, p 2, p 3, hdec, hp 0, hp 1, hp 2, hp 3, ?_, ?_⟩
  all_goals
    have hq' : ∀ i, byteQuaternion (p 0) (p 1) (p 2) (p 3) i = byteComponent (p i) := by
      intro i
      rcases fin4_cases i with h | h | h | h <;> subst h <;> rfl
    have hclose := quaternion_close n (byteQuaternion (p 0) (p 1) (p 2) (p 3))
      (encoderIndex rw rx ry rz) (by rw [hq']; exact hL) (by rw [hq']; exact heL)
      (fun i hi => by rw [hq']; exact he i hi) hNpos
  · have h1 : (4859 / 10000 : ℚ) ^ 2 ≤
        byteQuaternion (p 0) (p 1) (p 2) (p 3) (encoderIndex rw rx ry rz) ^ 2 :=
      pow_le_pow_left₀ (by norm_num) (by rw [hq']; exact hL) 2
    have h2 := sq_le_normSq (byteQuaternion (p 0) (p 1) (p 2) (p 3)) (encoderIndex rw rx ry rz)
    have : (0 : ℚ) < (4859 / 10000) ^ 2 := by norm_num
    linarith
  · have e1 : normSq (byteQuaternion rw rx ry rz) = k ^ 2 * normSq n := by
      unfold normSq
      rw [hqn 0, hqn 1, hqn 2, hqn 3]
      ring
    have e2 : dot (byteQuaternion rw rx ry rz) (byteQuaternion (p 0) (p 1) (p 2) (p 3)) =
        k * dot n (byteQuaternion (p 0) (p 1) (p 2) (p 3)) := by
      unfold dot
      rw [hqn 0, hqn 1, hqn 2, hqn 3]
      ring
    rw [e1, e2]
    have hk2 : 0 < k ^ 2 := by positivity
    have := mul_lt_mul_of_pos_left hclose hk2
    calc (999 / 1000) ^ 2 * (k ^ 2 * normSq n * normSq (byteQuaternion (p 0) (p 1) (p 2) (p 3)))
        = k ^ 2 * ((999 / 1000) ^ 2 *
            (normSq n * normSq (byteQuaternion (p 0) (p 1) (p 2) (p 3)))) := by ring
      _ < k ^ 2 * dot n (byteQuaternion (p 0) (p 1) (p 2) (p 3)) ^ 2 := this
      _ = (k * dot n (byteQuaternion (p 0) (p 1) (p 2) (p 3))) ^ 2 := by ring

/-- From the squared form to the cosine. -/
theorem cos_of_sq (A B D : ℚ) (hA : 0 < A) (hB : 0 < B)
    (h : (999 / 1000) ^ 2 * (A * B) < D ^ 2) :
    (999 / 1000 : ℝ) < |(D : ℝ)| / (Real.sqrt (A : ℝ) * Real.sqrt (B : ℝ)) := by
  have hA' : (0 : ℝ) < (A : ℝ) := by exact_mod_cast hA
  have hB' : (0 : ℝ) < (B : ℝ) := by exact_mod_cast hB
  have h' : ((999 / 1000 : ℝ)) ^ 2 * ((A : ℝ) * (B : ℝ)) < (D : ℝ) ^ 2 := by
    have h2 : (((999 / 1000 : ℚ) ^ 2 * (A * B) : ℚ) : ℝ) < ((D ^ 2 : ℚ) : ℝ) :=
      Rat.cast_lt.mpr h
    push_cast at h2
    exact h2
  have hsA := Real.sqrt_pos.mpr hA'
  have hsB := Real.sqrt_pos.mpr hB'
  rw [lt_div_iff₀ (mul_pos hsA hsB)]
  apply lt_of_pow_lt_pow_left₀ 2 (abs_nonneg _)
  rw [sq_abs, mul_pow, mul_pow, Real.sq_sqrt hA'.le, Real.sq_sqrt hB'.le]
  exact h'

/-- Claim C12 (rotation V3 round trip).  For rotation bytes that are not all 128,
decoding the encoded rotation succeeds, and with `q = (b/128 - 1)` on the input
bytes and `q'` the same mapping on the decoded bytes, `q'` is not zero and the
normalised absolute dot product `|q . q'| / (|q| |q'|)` is greater than `0.999`. -/
theorem rotationV3_roundtrip (rw rx ry rz : ℕ) (hw : rw < 256) (hx : rx < 256)
    (hy : ry < 256) (hz : rz < 256) (hne : ¬ (rw = 128 ∧ rx = 128 ∧ ry = 128 ∧ rz = 128)) :
    ∃ w x y z : ℕ,
      spzDecodeRotationsV3 (spzEncodeRotationsV3 rw rx ry rz) = .ok (w, x, y, z) ∧
      0 < normSq (byteQuaternion w x y z) ∧
      (999 / 1000 : ℝ) <
        |((dot (byteQuaternion rw rx ry rz) (byteQuaternion w x y z) : ℚ) : ℝ)| /
          (Real.sqrt ((normSq (byteQuaternion rw rx ry rz) : ℚ) : ℝ) *
            Real.sqrt ((normSq (byteQuaternion w x y z) : ℚ) : ℝ)) := by
  obtain ⟨w, x, y, z, hdec, -, -, -, -, hpos, hsq⟩ :=
    rotationV3_roundtrip_sq rw rx ry rz hw hx hy hz hne
  have hA : 0 < normSq (byteQuaternion rw rx ry rz) := by
    have := (normSq_byteQuaternion_bounds rw rx ry rz hw hx hy hz hne).1
    linarith
  exact ⟨w, x, y, z, hdec, hpos, cos_of_sq _ _ _ hA hpos hsq⟩

theorem rotationV3_roundtrip_witness :
    (128 < 256 ∧ 138 < 256 ∧ 148 < 256 ∧ 158 < 256 ∧
      ¬ ((128 : ℕ) = 128 ∧ (138 : ℕ) = 128 ∧ (148 : ℕ) = 128 ∧ (158 : ℕ) = 128)) ∧
    ∃ w x y z : ℕ,
      spzDecodeRotationsV3 (spzEncodeRotationsV3 128 138 148 158) = .ok (w, x, y, z) ∧
      0 < normSq (byteQuaternion w x y z) ∧
      (999 / 1000 : ℝ) <
        |((dot (byteQuaternion 128 138 148 158) (byteQuaternion w x y z) : ℚ) : ℝ)| /
          (Real.sqrt ((normSq (byteQuaternion 128 138 148 158) : ℚ) : ℝ) *
            Real.sqrt ((normSq (byteQuaternion w x y z) : ℚ) : ℝ)) :=
  ⟨by decide, rotationV3_roundtrip 128 138 148 158 (by decide) (by decide) (by decide)
    (by decide) (by decide)⟩

/-! ## Harmonics quantisers and rotation V2 -/

/-- Claim C21 (band-1 quantiser formula).  For every byte `v`,
`spzEncodeSH1 v = min 255 (8 * ⌊(v + 4) / 8⌋)`, and the result differs from `v` by
at most 4 in either direction. -/
theorem spzEncodeSH1_formula (v : ℕ) (hv : v < 256) :
    spzEncodeSH1 v = min 255 (8 * ((v + 4) / 8)) ∧ spzEncodeSH1 v ≤ v + 4 ∧
      v ≤ spzEncodeSH1 v + 4 := by
  rw [spzEncodeSH1_eq v hv]
  refine ⟨?_, ?_, ?_⟩ <;> omega

/-- Witness of C21 at the byte 4, a tie that moves by the full 4 to 8. -/
theorem spzEncodeSH1_formula_witness :
    (4 : ℕ) < 256 ∧ spzEncodeSH1 4 = min 255 (8 * ((4 + 4) / 8)) ∧ spzEncodeSH1 4 ≤ 4 + 4 ∧
      4 ≤ spzEncodeSH1 4 + 4 :=
  ⟨by decide, spzEncodeSH1_formula 4 (by decide)⟩

/-- Counterexample to C22 as stated: the byte 248 is quantised to 255 (the clamp of
256), which is not a multiple of 16. -/
theorem spzEncodeSH23_unaligned : spzEncodeSH23 248 = 255 ∧ ¬ (16 ∣ spzEncodeSH23 248) := by
  decide!

/-- Claim C22 as amended (band-2/3 quantiser alignment).  For every byte `v` below
248, `spzEncodeSH23 v` is a multiple of 16, the one nearest to `v` with ties
rounded up (`r - 8 ≤ v < r + 8`); for every byte from 248 to 255 the result is
the clamped value 255. -/
theorem spzEncodeSH23_aligned (v : ℕ) (hv : v < 256) :
    (v < 248 → 16 ∣ spzEncodeSH23 v ∧ spzEncodeSH23 v ≤ v + 8 ∧ v < spzEncodeSH23 v + 8) ∧
      (248 ≤ v → spzEncodeSH23 v = 255) := by
  rw [spzEncodeSH23_eq v hv]
  constructor
  · intro h
    have e : min 255 ((v + 8) / 16 * 16) = (v + 8) / 16 * 16 := by omega
    rw [e]
    exact ⟨Dvd.intro_left _ rfl, by omega, by omega⟩
  · intro h
    omega

/-- Witness of C22 at the byte 8, a tie that is rounded up to 16. -/
theorem spzEncodeSH23_aligned_witness :
    (8 : ℕ) < 256 ∧
      ((8 < 248 → 16 ∣ spzEncodeSH23 8 ∧ spzEncodeSH23 8 ≤ 8 + 8 ∧ 8 < spzEncodeSH23 8 + 8) ∧
        (248 ≤ 8 → spzEncodeSH23 8 = 255)) :=
  ⟨by decide, spzEncodeSH23_aligned 8 (by decide)⟩

theorem spzDecodeRotations_eq (rx ry rz : ℕ) :
    spzDecodeRotations rx ry rz =
      (rotationByte (reconstructedW rx ry rz), rotationByte (storedComponent rx),
        rotationByte (storedComponent ry), rotationByte (storedComponent rz)) := rfl

namespace GoFloat

theorem const64_1275 : const64 (1275 / 10) = fin (255 / 2) := by decide!

theorem roundHalfEven_ge (N : ℤ) (z : ℚ) (h : (N : ℚ) ≤ z) : N ≤ roundHalfEven z := by
  have hf : N ≤ ⌊z⌋ := Int.le_floor.mpr h
  unfold roundHalfEven
  simp only
  split_ifs <;> omega

/-- Rounding keeps the sign of a non-negative number. -/
theorem roundTo_nonneg (fmt : Format) (x : ℚ) (h : 0 ≤ x) : 0 ≤ roundTo fmt x := by
  unfold roundTo
  split_ifs with h0
  · exact le_rfl
  · simp only
    have h2 : (0 : ℚ) < 2 ^ Max.max (binExp |x| - ((fmt.prec : ℤ) - 1)) fmt.emin :=
      zpow_pos (by norm_num) _
    have h3 := roundHalfEven_ge 0 (x / 2 ^ Max.max (binExp |x| - ((fmt.prec : ℤ) - 1)) fmt.emin)
      (by push_cast; positivity)
    have h4 : (0 : ℚ) ≤ (roundHalfEven
      (x / 2 ^ Max.max (binExp |x| - ((fmt.prec : ℤ) - 1)) fmt.emin) : ℚ) := by exact_mod_cast h3
    positivity

theorem binExp_lt (x : ℚ) (E : ℤ) (h0 : 0 < x) (h : x < 2 ^ E) : binExp x < E := by
  have h1 := binExp_le x h0
  have h2 : (2 : ℚ) ^ binExp x < 2 ^ E := lt_of_le_of_lt h1 h
  exact (zpow_lt_zpow_iff_right₀ (by norm_num : (1 : ℚ) < 2)).mp h2

/-- Rounding to binary64 does not take a number that is at least 128 (and below
`2 ^ 60`) below 128. -/
theorem roundTo64_ge_128 (x : ℚ) (h1 : 128 ≤ x) (h2 : x < 2 ^ (60 : ℤ)) :
    128 ≤ roundTo binary64 x := by
  have hx0 : 0 < x := by linarith
  unfold roundTo
  rw [if_neg hx0.ne']
  simp only
  rw [abs_of_pos hx0]
  have hb := binExp_lt x 60 hx0 h2
  set q : ℤ := Max.max (binExp x - (((binary64).prec : ℤ) - 1)) (binary64).emin with hq
  have hq7 : q ≤ 7 := by
    rw [hq]
    apply max_le
    · show binExp x - (((53 : ℕ) : ℤ) - 1) ≤ 7
      push_cast
      omega
    · show (-1074 : ℤ) ≤ 7
      norm_num
  have h2q : (0 : ℚ) < 2 ^ q := zpow_pos (by norm_num) q
  obtain ⟨k, hk⟩ : ∃ k : ℕ, (7 : ℤ) - q = k := ⟨(7 - q).toNat, by omega⟩
  have e128 : (128 : ℚ) = ((2 ^ k : ℕ) : ℚ) * 2 ^ q := by
    push_cast
    rw [← zpow_natCast, ← hk, ← zpow_add₀ (by norm_num : (2 : ℚ) ≠ 0)]
    norm_num
  have hz : (((2 ^ k : ℕ) : ℤ) : ℚ) ≤ x / 2 ^ q := by
    rw [le_div_iff₀ h2q, Int.cast_natCast, ← e128]
    exact h1
  have hr := roundHalfEven_ge _ _ hz
  have hr2 : (((2 ^ k : ℕ) : ℤ) : ℚ) ≤ (roundHalfEven (x / 2 ^ q) : ℚ) := by exact_mod_cast hr
  rw [Int.cast_natCast] at hr2
  calc (128 : ℚ) = ((2 ^ k : ℕ) : ℚ) * 2 ^ q := e128
    _ ≤ (roundHalfEven (x / 2 ^ q) : ℚ) * 2 ^ q := mul_le_mul_of_nonneg_right hr2 h2q.le

theorem sqrtRound_nonneg (fmt : Format) (x : ℚ) : 0 ≤ sqrtRound fmt x := by
  by_cases hx : 0 < x
  · obtain ⟨m, hm, -⟩ := sqrtRound_spec fmt x hx
    rw [hm]
    positivity
  · unfold sqrtRound
    rw [if_pos (not_lt.mp hx)]

/-- A crude bound for the binary64 square root of a number of at most `3/2`. -/
theorem sqrtRound64_le_two (x : ℚ) (h : x ≤ 3 / 2) : sqrtRound binary64 x ≤ 2 := by
  by_cases hx : 0 < x
  · obtain ⟨m, hm, hb⟩ := sqrtRound_spec binary64 x hx
    have hbe := binExp_lt x 1 hx (by norm_num; linarith)
    set q : ℤ := Max.max (binExp x / 2 - (((binary64).prec : ℤ) - 1)) (binary64).emin with hq
    have hq52 : q ≤ -52 := by
      rw [hq]
      apply max_le
      · show binExp x / 2 - (((53 : ℕ) : ℤ) - 1) ≤ -52
        push_cast
        omega
      · show (-1074 : ℤ) ≤ -52
        norm_num
    have h2q : (0 : ℚ) < 2 ^ q := zpow_pos (by norm_num) q
    have h4q : (0 : ℚ) < 4 ^ q := zpow_pos (by norm_num) q
    have h42 : (4 : ℚ) ^ q = 2 ^ q * 2 ^ q := by
      rw [show (4 : ℚ) = 2 * 2 by norm_num, mul_zpow]
    have h2q1 : (2 : ℚ) ^ q ≤ 1 := by
      have : (2 : ℚ) ^ q ≤ 2 ^ (0 : ℤ) := zpow_le_zpow_right₀ (by norm_num) (by omega)
      simpa using this
    set t := x / 4 ^ q with ht
    have hxt : x = t * 4 ^ q := by rw [ht]; field_simp
    rw [abs_le] at hb
    have hm0 : (0 : ℚ) ≤ m := Nat.cast_nonneg m
    rw [hm]
    set r := (m : ℚ) * 2 ^ q with hr
    have hr0 : 0 ≤ r := by positivity
    -- r ^ 2 ≤ x + r * 2 ^ q + 4 ^ q / 4
    have hsq : r ^ 2 ≤ x + r * 2 ^ q + 2 ^ q * 2 ^ q / 4 := by
      have e : r ^ 2 = (m : ℚ) ^ 2 * (2 ^ q * 2 ^ q) := by rw [hr]; ring
      have e2 : x + r * 2 ^ q + 2 ^ q * 2 ^ q / 4 = (t + m + 1 / 4) * (2 ^ q * 2 ^ q) := by
        rw [hxt, h42, hr]
        ring
      rw [e, e2]
      apply mul_le_mul_of_nonneg_right _ (by positivity)
      linarith [hb.2]
    by_contra hc
    rw [not_le] at hc
    have h5 : r * 2 ^ q ≤ r := by
      calc r * 2 ^ q ≤ r * 1 := mul_le_mul_of_nonneg_left h2q1 hr0
        _ = r := mul_one r
    have h6 : (2 : ℚ) ^ q * 2 ^ q ≤ 1 := by
      calc (2 : ℚ) ^ q * 2 ^ q ≤ 1 * 1 := mul_le_mul h2q1 h2q1 h2q.le (by norm_num)
        _ = 1 := by norm_num
    nlinarith
  · unfold sqrtRound
    rw [if_pos (not_lt.mp hx)]
    norm_num

end GoFloat

open GoFloat in
/-- `clipUint8` on a non-negative finite value: the integer part, at most 255. -/
theorem clipUint8_floor (v : ℚ) (h : 0 ≤ v) : clipUint8 (fin v) = min 255 ⌊v⌋₊ := by
  unfold clipUint8
  have l0 : lt (fin v) (fin 0) = false := decide_eq_false (not_lt.mpr h)
  rw [l0]
  by_cases hv : 255 < v
  · have l1 : lt (fin 255) (fin v) = true := decide_eq_true hv
    rw [l1]
    simp only [Bool.false_eq_true, if_false, if_true]
    have : 255 ≤ ⌊v⌋₊ := Nat.le_floor (by push_cast; linarith)
    omega
  · have l1 : lt (fin 255) (fin v) = false := decide_eq_false hv
    rw [l1]
    simp only [Bool.false_eq_true, if_false]
    rw [not_lt] at hv
    have hf : ⌊v⌋₊ ≤ 255 := by
      have : ⌊v⌋₊ ≤ ⌊(255 : ℚ)⌋₊ := Nat.floor_mono hv
      simpa using this
    have hfl : ⌊v⌋ = (⌊v⌋₊ : ℤ) := (Int.natCast_floor_eq_floor h).symm
    have ht : truncate v = (⌊v⌋₊ : ℤ) := by
      unfold truncate
      rw [if_pos h, hfl]
    have hu : toUint8 (fin v) = ⌊v⌋₊ := by
      unfold toUint8
      simp only [toInt, ht]
      rw [if_pos ⟨by norm_num; omega, by norm_num; omega⟩]
      omega
    rw [hu]
    omega

open GoFloat in
theorem clipUint8_neg (v : ℚ) (h : v < 0) : clipUint8 (fin v) = 0 := by
  unfold clipUint8
  have l0 : lt (fin v) (fin 0) = true := decide_eq_true h
  rw [l0]
  rfl

open GoFloat in
/-- The value `r*128.0 + 128.0` for a finite `r` of absolute value at most 3: finite,
within `2 ^ (-43)` of the exact value, and at least 128 when `r` is not negative. -/
theorem rotationValue_spec (r : ℚ) (hr : |r| ≤ 3) :
    ∃ v : ℚ, add binary64 (mul binary64 (fin r) (const64 128)) (const64 128) = fin v ∧
      |v - (128 * r + 128)| ≤ 1 / 2 ^ 43 ∧ (0 ≤ r → 128 ≤ v) := by
  rw [const64_small.2.2.1]
  rw [abs_le] at hr
  have ha : |r * 128| < 2 ^ (9 : ℤ) := by
    rw [abs_lt]
    norm_num
    constructor <;> linarith [hr.1, hr.2]
  obtain ⟨a1, a2⟩ := mul64_near r 128 9 ha (by norm_num) (by norm_num)
  rw [a1]
  set a := roundTo binary64 (r * 128) with had
  rw [abs_le] at a2
  norm_num at a2
  have hb : |a + 128| < 2 ^ (10 : ℤ) := by
    rw [abs_lt]
    norm_num
    constructor <;> linarith [a2.1, a2.2, hr.1, hr.2]
  obtain ⟨b1, b2⟩ := add64_near a 128 10 hb (by norm_num) (by norm_num)
  rw [b1]
  rw [abs_le] at b2
  norm_num at b2
  refine ⟨_, rfl, ?_, ?_⟩
  · rw [abs_le]
    norm_num
    constructor <;> linarith [a2.1, a2.2, b2.1, b2.2]
  · intro h0
    have ha0 : 0 ≤ a := roundTo_nonneg _ _ (by positivity)
    apply roundTo64_ge_128 _ (by linarith)
    have := (abs_lt.mp hb).2
    refine lt_trans this ?_
    norm_num

open GoFloat in
/-- The component of a stored byte: finite and within `2 ^ (-51)` of `b/127.5 - 1`. -/
theorem storedComponent_spec (b : ℕ) (hb : b < 256) :
    ∃ c : ℚ, storedComponent b = fin c ∧ |c - ((b : ℚ) / (255 / 2) - 1)| ≤ 1 / 2 ^ 51 := by
  unfold storedComponent
  have h1 : ofInt binary64 (b : ℤ) = fin (b : ℚ) := by
    have := ofInt64_eq (b : ℤ) (by rw [abs_of_nonneg (by positivity)]; norm_num; omega)
    rwa [Int.cast_natCast] at this
  rw [h1, const64_1275, const64_small.2.2.2.1]
  have hbq : (b : ℚ) ≤ 255 := by
    have : b ≤ 255 := by omega
    exact_mod_cast this
  have hb0 : (0 : ℚ) ≤ b := Nat.cast_nonneg b
  have hd : |(b : ℚ) / (255 / 2)| < 2 ^ (2 : ℤ) := by
    rw [abs_of_nonneg (by positivity), div_lt_iff₀ (by norm_num)]
    norm_num
    linarith
  obtain ⟨d1, d2⟩ := div64_near (b : ℚ) (255 / 2) (by norm_num) 2 hd (by norm_num) (by norm_num)
  rw [d1]
  set d := roundTo binary64 ((b : ℚ) / (255 / 2)) with hdd
  rw [abs_le] at d2
  norm_num at d2
  have hq0 : (0 : ℚ) ≤ (b : ℚ) / (255 / 2) := by positivity
  have hq1 : (b : ℚ) / (255 / 2) ≤ 2 := by
    rw [div_le_iff₀ (by norm_num)]
    linarith
  unfold sub
  simp only [GoFloat.neg]
  have hs : |d + -1| < 2 ^ (1 : ℤ) := by
    rw [abs_lt]
    norm_num
    constructor <;> linarith [d2.1, d2.2]
  obtain ⟨s1, s2⟩ := add64_near d (-1) 1 hs (by norm_num) (by norm_num)
  rw [s1]
  rw [abs_le] at s2
  norm_num at s2
  refine ⟨_, rfl, ?_⟩
  rw [abs_le]
  norm_num at hq0 hq1 ⊢
  constructor <;> linarith [d2.1, d2.2, s2.1, s2.2]

open GoFloat in
/-- The decoder of version 2 returns each stored byte unchanged. -/
theorem storedByte_eq (b : ℕ) (hb : b < 256) : rotationByte (storedComponent b) = b := by
  obtain ⟨c, hc, hce⟩ := storedComponent_spec b hb
  have hbq : (b : ℚ) ≤ 255 := by
    have : b ≤ 255 := by omega
    exact_mod_cast this
  have hb0 : (0 : ℚ) ≤ b := Nat.cast_nonneg b
  have e : (b : ℚ) / (255 / 2) - 1 = 2 * b / 255 - 1 := by ring
  rw [e, abs_le] at hce
  norm_num at hce
  have hc3 : |c| ≤ 3 := by
    rw [abs_le]
    constructor <;> linarith [hce.1, hce.2]
  obtain ⟨v, hv, hve, -⟩ := rotationValue_spec c hc3
  unfold rotationByte
  rw [hc, hv]
  rw [abs_le] at hve
  norm_num at hve
  by_cases hneg : v < 0
  · rw [clipUint8_neg v hneg]
    by_contra hne
    have h1 : 1 ≤ b := by omega
    have h1q : (1 : ℚ) ≤ b := by exact_mod_cast h1
    linarith [hve.1, hce.1]
  · rw [not_lt] at hneg
    rw [clipUint8_floor v hneg]
    by_cases h255 : b = 255
    · rw [h255] at hce ⊢
      norm_num at hce
      have : 255 ≤ ⌊v⌋₊ := Nat.le_floor (by push_cast; linarith [hve.1, hce.1])
      omega
    · have h254 : b ≤ 254 := by omega
      have h254q : (b : ℚ) ≤ 254 := by exact_mod_cast h254
      have hfl : ⌊v⌋₊ = b := by
        rw [Nat.floor_eq_iff hneg]
        constructor
        · by_cases hz : b = 0
          · rw [hz]
            simpa using hneg
          · have h1 : 1 ≤ b := by omega
            have h1q : (1 : ℚ) ≤ b := by exact_mod_cast h1
            linarith [hve.1, hce.1]
        · linarith [hve.2, hce.2]
      rw [hfl]
      omega

open GoFloat in
/-- The reconstructed component of version 2: finite, not negative, at most 2. -/
theorem reconstructedW_spec (rx ry rz : ℕ) (hx : rx < 256) (hy : ry < 256) (hz : rz < 256) :
    ∃ w : ℚ, reconstructedW rx ry rz = fin w ∧ 0 ≤ w ∧ w ≤ 2 := by
  have comp : ∀ b : ℕ, b < 256 → ∃ c : ℚ, storedComponent b = fin c ∧
      0 ≤ c * c ∧ c * c ≤ 103 / 100 := by
    intro b hb
    obtain ⟨c, hc, hce⟩ := storedComponent_spec b hb
    have hbq : (b : ℚ) ≤ 255 := by
      have : b ≤ 255 := by omega
      exact_mod_cast this
    have hb0 : (0 : ℚ) ≤ b := Nat.cast_nonneg b
    have e : (b : ℚ) / (255 / 2) - 1 = 2 * b / 255 - 1 := by ring
    rw [e, abs_le] at hce
    norm_num at hce
    refine ⟨c, hc, mul_self_nonneg c, ?_⟩
    have h1 : -(101 / 100) ≤ c := by linarith [hce.1]
    have h2 : c ≤ 101 / 100 := by linarith [hce.2]
    nlinarith
  obtain ⟨c1, e1, p1, q1⟩ := comp rx hx
  obtain ⟨c2, e2, p2, q2⟩ := comp ry hy
  obtain ⟨c3, e3, p3, q3⟩ := comp rz hz
  unfold reconstructedW
  simp only [e1, e2, e3]
  have lt2 : ∀ x : ℚ, 0 ≤ x → x ≤ 103 / 100 → |x| < 2 ^ (1 : ℤ) := by
    intro x h0 h1
    rw [abs_of_nonneg h0]
    norm_num
    linarith
  obtain ⟨ea, fa⟩ := mul64_near c1 c1 1 (lt2 _ p1 q1) (by norm_num) (by norm_num)
  obtain ⟨eb, fb⟩ := mul64_near c2 c2 1 (lt2 _ p2 q2) (by norm_num) (by norm_num)
  obtain ⟨ec, fc⟩ := mul64_near c3 c3 1 (lt2 _ p3 q3) (by norm_num) (by norm_num)
  rw [ea, eb, ec]
  set A := roundTo binary64 (c1 * c1) with hA
  set B := roundTo binary64 (c2 * c2) with hB
  set C := roundTo binary64 (c3 * c3) with hC
  rw [abs_le] at fa fb fc
  norm_num at fa fb fc
  have h1 : |A + B| < 2 ^ (2 : ℤ) := by
    rw [abs_lt]
    norm_num
    constructor <;> linarith [fa.1, fa.2, fb.1, fb.2]
  obtain ⟨g1, f1⟩ := add64_near A B 2 h1 (by norm_num) (by norm_num)
  rw [g1]
  set s1 := roundTo binary64 (A + B) with hs1
  rw [abs_le] at f1
  norm_num at f1
  have h2 : |s1 + C| < 2 ^ (2 : ℤ) := by
    rw [abs_lt]
    norm_num
    constructor <;> linarith [fa.1, fa.2, fb.1, fb.2, fc.1, fc.2, f1.1, f1.2]
  obtain ⟨g2, f2⟩ := add64_near s1 C 2 h2 (by norm_num) (by norm_num)
  rw [g2]
  set s2 := roundTo binary64 (s1 + C) with hs2
  rw [abs_le] at f2
  norm_num at f2
  rw [const64_small.2.2.2.1, const64_consts.2.2.1]
  unfold sub
  simp only [GoFloat.neg]
  have h3 : |1 + -s2| < 2 ^ (2 : ℤ) := by
    rw [abs_lt]
    norm_num
    constructor <;> linarith [fa.1, fa.2, fb.1, fb.2, fc.1, fc.2, f1.1, f1.2, f2.1, f2.2]
  obtain ⟨g3, f3⟩ := add64_near 1 (-s2) 2 h3 (by norm_num) (by norm_num)
  rw [g3]
  set d := roundTo binary64 (1 + -s2) with hd
  rw [abs_le] at f3
  norm_num at f3
  have hd1 : d ≤ 3 / 2 := by
    linarith [fa.1, fa.2, fb.1, fb.2, fc.1, fc.2, f1.1, f1.2, f2.1, f2.2, f3.1, f3.2]
  simp only [GoFloat.max]
  by_cases hneg : d < 0
  · rw [if_pos hneg]
    simp only [GoFloat.sqrt]
    rw [if_neg (lt_irrefl 0)]
    exact ⟨_, rfl, sqrtRound_nonneg _ _, sqrtRound64_le_two _ (by norm_num)⟩
  · rw [if_neg hneg]
    simp only [GoFloat.sqrt]
    rw [if_neg hneg]
    exact ⟨_, rfl, sqrtRound_nonneg _ _, sqrtRound64_le_two _ hd1⟩

open GoFloat in
/-- The decoder of version 2 on stored bytes: the reconstructed component `w` is
finite and not negative, `w*128.0 + 128.0` is a finite `v` of at least 128, and the
result is the integer part of `v` capped at 255 followed by the three stored bytes. -/
theorem spzDecodeRotations_spec (rx ry rz : ℕ) (hx : rx < 256) (hy : ry < 256)
    (hz : rz < 256) :
    ∃ w v : ℚ, reconstructedW rx ry rz = fin w ∧ 0 ≤ w ∧
      add binary64 (mul binary64 (fin w) (const64 128)) (const64 128) = fin v ∧ 128 ≤ v ∧
      spzDecodeRotations rx ry rz = (min 255 ⌊v⌋₊, rx, ry, rz) := by
  obtain ⟨w, hw, hw0, hw2⟩ := reconstructedW_spec rx ry rz hx hy hz
  obtain ⟨v, hv, -, hv128⟩ := rotationValue_spec w (by
    rw [abs_le]
    constructor <;> linarith)
  refine ⟨w, v, hw, hw0, hv, hv128 hw0, ?_⟩
  rw [spzDecodeRotations_eq, storedByte_eq rx hx, storedByte_eq ry hy, storedByte_eq rz hz, hw]
  unfold rotationByte
  rw [hv, clipUint8_floor v (by linarith [hv128 hw0])]

/-- The integer part of the exact value `(b/127.5 - 1) * 128 + 128`, capped at 255,
is the byte `b`. -/
theorem exact_truncation (b : ℕ) (hb : b < 256) :
    min 255 ⌊((b : ℚ) / (255 / 2) - 1) * 128 + 128⌋₊ = b := by
  have e : ((b : ℚ) / (255 / 2) - 1) * 128 + 128 = b + b / 255 := by ring
  rw [e]
  have hb0 : (0 : ℚ) ≤ b := Nat.cast_nonneg b
  by_cases h255 : b = 255
  · rw [h255]
    have : ⌊((255 : ℕ) : ℚ) + ((255 : ℕ) : ℚ) / 255⌋₊ = 256 := by
      rw [Nat.floor_eq_iff (by positivity)]
      norm_num
    rw [this]
    rfl
  · have h254 : b ≤ 254 := by omega
    have h254q : (b : ℚ) ≤ 254 := by exact_mod_cast h254
    have hfl : ⌊(b : ℚ) + b / 255⌋₊ = b := by
      rw [Nat.floor_eq_iff (by positivity)]
      constructor
      · have : (0 : ℚ) ≤ b / 255 := by positivity
        linarith
      · have : (b : ℚ) / 255 < 1 := by
          rw [div_lt_iff₀ (by norm_num)]
          linarith
        linarith
    rw [hfl]
    omega

open GoFloat in
/-- Claim C23 (rotation V2 decode reconstructs a non-negative `w`).  For all stored
bytes `rx`, `ry`, `rz`, the value `r0 = sqrt(max(0, 1 - (x^2 + y^2 + z^2)))` the
decoder computes from `x, y, z = byte/127.5 - 1` is finite and not negative, the
`W` byte returned by `spzDecodeRotations` is its byte image, and that byte is at
least 128 (and at most 255), so it is never zero. -/
theorem spzDecodeRotations_w_ge (rx ry rz : ℕ) (hx : rx < 256) (hy : ry < 256)
    (hz : rz < 256) :
    (∃ w : ℚ, reconstructedW rx ry rz = fin w ∧ 0 ≤ w ∧
      (spzDecodeRotations rx ry rz).1 = rotationByte (fin w)) ∧
      128 ≤ (spzDecodeRotations rx ry rz).1 ∧ (spzDecodeRotations rx ry rz).1 ≤ 255 := by
  obtain ⟨w, v, hw, hw0, hv, hv128, hdec⟩ := spzDecodeRotations_spec rx ry rz hx hy hz
  refine ⟨⟨w, hw, hw0, ?_⟩, ?_, ?_⟩
  · rw [spzDecodeRotations_eq, hw]
  · rw [hdec]
    have : 128 ≤ ⌊v⌋₊ := Nat.le_floor (by push_cast; exact hv128)
    show 128 ≤ min 255 ⌊v⌋₊
    omega
  · rw [hdec]
    show min 255 ⌊v⌋₊ ≤ 255
    omega

open GoFloat in
/-- Witness of C23 on the stored bytes `(200, 100, 50)`. -/
theorem spzDecodeRotations_w_ge_witness :
    ((200 : ℕ) < 256 ∧ (100 : ℕ) < 256 ∧ (50 : ℕ) < 256) ∧
      ((∃ w : ℚ, reconstructedW 200 100 50 = fin w ∧ 0 ≤ w ∧
        (spzDecodeRotations 200 100 50).1 = rotationByte (fin w)) ∧
        128 ≤ (spzDecodeRotations 200 100 50).1 ∧ (spzDecodeRotations 200 100 50).1 ≤ 255) :=
  ⟨by decide, spzDecodeRotations_w_ge 200 100 50 (by decide) (by decide) (by decide)⟩

open GoFloat in
/-- Counterexample to C24 as stated: on the stored bytes `(200, 100, 50)` the
decoder returns `(193, 200, 100, 50)`; the `x` component is `200/127.5 - 1`, for
which `c*128 + 128` is `200.78...`, and rounding to nearest gives 201, as the same
decoder with rounded output bytes shows. -/
theorem spzDecodeRotations_not_rounded :
    spzDecodeRotations 200 100 50 = (193, 200, 100, 50) ∧
      roundedDecodeRotations 200 100 50 = (193, 201, 100, 50) ∧
      roundHalfAway (((200 : ℚ) / (255 / 2) - 1) * 128 + 128) = 201 ∧
      spzDecodeRotations 200 100 50 ≠ roundedDecodeRotations 200 100 50 := by
  decide!

open GoFloat in
/-- Claim C24 as amended (rotation V2 decode output bytes are truncated).  For all
stored bytes `rx`, `ry`, `rz`, each of the four bytes returned by
`spzDecodeRotations` is the integer part of `c*128 + 128` capped at 255: for `w`,
of the finite float64 value `v` of `r0*128.0 + 128.0`; for `x`, `y`, `z`, with
`c = byte/127.5 - 1`, this integer part is the stored byte itself, also in exact
arithmetic, so the three stored bytes are returned unchanged. -/
theorem spzDecodeRotations_truncated (rx ry rz : ℕ) (hx : rx < 256) (hy : ry < 256)
    (hz : rz < 256) :
    (∃ w v : ℚ, reconstructedW rx ry rz = fin w ∧
      add binary64 (mul binary64 (fin w) (const64 128)) (const64 128) = fin v ∧ 0 ≤ v ∧
      spzDecodeRotations rx ry rz = (min 255 ⌊v⌋₊, rx, ry, rz)) ∧
      min 255 ⌊((rx : ℚ) / (255 / 2) - 1) * 128 + 128⌋₊ = rx ∧
      min 255 ⌊((ry : ℚ) / (255 / 2) - 1) * 128 + 128⌋₊ = ry ∧
      min 255 ⌊((rz : ℚ) / (255 / 2) - 1) * 128 + 128⌋₊ = rz := by
  obtain ⟨w, v, hw, -, hv, hv128, hdec⟩ := spzDecodeRotations_spec rx ry rz hx hy hz
  exact ⟨⟨w, v, hw, hv, by linarith, hdec⟩, exact_truncation rx hx, exact_truncation ry hy,
    exact_truncation rz hz⟩

open GoFloat in
/-- Witness of C24 as amended on the stored bytes `(200, 100, 50)`. -/
theorem spzDecodeRotations_truncated_witness :
    ((200 : ℕ) < 256 ∧ (100 : ℕ) < 256 ∧ (50 : ℕ) < 256) ∧
      ((∃ w v : ℚ, reconstructedW 200 100 50 = fin w ∧
        add binary64 (mul binary64 (fin w) (const64 128)) (const64 128) = fin v ∧ 0 ≤ v ∧
        spzDecodeRotations 200 100 50 = (min 255 ⌊v⌋₊, 200, 100, 50)) ∧
        min 255 ⌊(((200 : ℕ) : ℚ) / (255 / 2) - 1) * 128 + 128⌋₊ = 200 ∧
        min 255 ⌊(((100 : ℕ) : ℚ) / (255 / 2) - 1) * 128 + 128⌋₊ = 100 ∧
        min 255 ⌊(((50 : ℕ) : ℚ) / (255 / 2) - 1) * 128 + 128⌋₊ = 50) :=
  ⟨by decide, spzDecodeRotations_truncated 200 100 50 (by decide) (by decide) (by decide)⟩

/-! ## The colour codec on every byte; the writer on `SH3` without `SH2` -/

open GoFloat in
theorem const64_color : const64 SH_C0 = fin (5081767996463981 / 18014398509481984) ∧
    const64 (COLOR_SCALE * 255) = fin 510 ∧ const64 (1 / 2 * 255) = fin (255 / 2) := by
  decide!

open GoFloat in
/-- The value the colour encoder hands to `clipUint8Round`: finite and within
`2 ^ (-30)` of `(v/255 - 1/2) / SH_C0 * 510 + 127.5`. -/
theorem encodeColor_value (v : ℕ) (hv : v < 256) :
    ∃ x : ℚ, spzEncodeColor v = clipUint8Round (fin x) ∧
      |x - (((v : ℚ) / 255 - 1 / 2) / (5081767996463981 / 18014398509481984) * 510 + 255 / 2)| ≤
        1 / 2 ^ 30 := by
  unfold spzEncodeColor
  simp only
  have h1 : ofInt binary64 (v : ℤ) = fin (v : ℚ) := by
    have := ofInt64_eq (v : ℤ) (by rw [abs_of_nonneg (by positivity)]; norm_num; omega)
    rwa [Int.cast_natCast] at this
  rw [h1, const64_consts.2.2.2, const64_small.2.2.2.2, const64_color.1, const64_color.2.1,
    const64_color.2.2]
  have hvq : (v : ℚ) ≤ 255 := by
    have : v ≤ 255 := by omega
    exact_mod_cast this
  have hv0 : (0 : ℚ) ≤ v := Nat.cast_nonneg v
  have q0 : (0 : ℚ) ≤ (v : ℚ) / 255 := by positivity
  have q1 : (v : ℚ) / 255 ≤ 1 := by
    rw [div_le_iff₀ (by norm_num)]
    linarith
  have ha : |(v : ℚ) / 255| < 2 ^ (1 : ℤ) := by
    rw [abs_of_nonneg q0]
    norm_num
    linarith
  obtain ⟨a1, a2⟩ := div64_near (v : ℚ) 255 (by norm_num) 1 ha (by norm_num) (by norm_num)
  rw [a1]
  set a := roundTo binary64 ((v : ℚ) / 255) with had
  rw [abs_le] at a2
  norm_num at a2
  unfold sub
  simp only [GoFloat.neg]
  have hb : |a + -(1 / 2)| < 2 ^ (0 : ℤ) := by
    rw [abs_lt]
    norm_num
    constructor <;> linarith [a2.1, a2.2]
  obtain ⟨b1, b2⟩ := add64_near a (-(1 / 2)) 0 hb (by norm_num) (by norm_num)
  rw [b1]
  set b := roundTo binary64 (a + -(1 / 2)) with hbd
  rw [abs_le] at b2
  norm_num at b2
  have hf : |b / (5081767996463981 / 18014398509481984)| < 2 ^ (1 : ℤ) := by
    rw [abs_div, abs_of_pos (by norm_num : (0 : ℚ) < 5081767996463981 / 18014398509481984),
      div_lt_iff₀ (by norm_num)]
    rw [abs_lt]
    norm_num
    constructor <;> linarith [a2.1, a2.2, b2.1, b2.2]
  obtain ⟨f1, f2⟩ := div64_near b (5081767996463981 / 18014398509481984) (by norm_num) 1 hf
    (by norm_num) (by norm_num)
  rw [f1]
  set f := roundTo binary64 (b / (5081767996463981 / 18014398509481984)) with hfd
  rw [abs_le] at f2
  have e1 : b / (5081767996463981 / 18014398509481984) =
      b * (18014398509481984 / 5081767996463981) := by ring
  have e2 : ((v : ℚ) / 255 - 1 / 2) / (5081767996463981 / 18014398509481984) * 510 + 255 / 2 =
      ((v : ℚ) / 255 - 1 / 2) * (18014398509481984 / 5081767996463981) * 510 + 255 / 2 := by
    ring
  rw [e1] at f2
  norm_num at f2
  have hm : |f * 510| < 2 ^ (10 : ℤ) := by
    rw [abs_lt]
    norm_num
    constructor <;> linarith [a2.1, a2.2, b2.1, b2.2, f2.1, f2.2]
  obtain ⟨m1, m2⟩ := mul64_near f 510 10 hm (by norm_num) (by norm_num)
  rw [m1]
  set m := roundTo binary64 (f * 510) with hmd
  rw [abs_le] at m2
  norm_num at m2
  have hx : |m + 255 / 2| < 2 ^ (11 : ℤ) := by
    rw [abs_lt]
    norm_num
    constructor <;> linarith [a2.1, a2.2, b2.1, b2.2, f2.1, f2.2, m2.1, m2.2]
  obtain ⟨x1, x2⟩ := add64_near m (255 / 2) 11 hx (by norm_num) (by norm_num)
  rw [x1]
  rw [abs_le] at x2
  norm_num at x2
  refine ⟨_, rfl, ?_⟩
  rw [e2, abs_le]
  norm_num
  constructor <;> linarith [a2.1, a2.2, b2.1, b2.2, f2.1, f2.2, m2.1, m2.2, x2.1, x2.2]

open GoFloat in
theorem clipUint8Round_low (x : ℚ) (h : x ≤ -1) : clipUint8Round (fin x) = 0 := by
  unfold clipUint8Round
  rw [const64_consts.2.2.1, const64_consts.2.2.2]
  have hr : roundHalfAway x ≤ -1 := by
    unfold roundHalfAway
    rw [if_neg (by linarith)]
    have : (1 : ℤ) ≤ ⌊-x + 1 / 2⌋ := Int.le_floor.mpr (by push_cast; linarith)
    omega
  have hrq : ((roundHalfAway x : ℤ) : ℚ) ≤ -1 := by exact_mod_cast hr
  simp only [GoFloat.round, GoFloat.min]
  rw [if_neg (by linarith)]
  simp only [GoFloat.max]
  rw [if_pos (by linarith)]
  exact toUint8_natCast 0 (by norm_num)

open GoFloat in
theorem clipUint8Round_high (x : ℚ) (h : 256 ≤ x) : clipUint8Round (fin x) = 255 := by
  unfold clipUint8Round
  rw [const64_consts.2.2.1, const64_consts.2.2.2]
  have hr : 256 ≤ roundHalfAway x := by
    unfold roundHalfAway
    rw [if_pos (by linarith)]
    exact Int.le_floor.mpr (by push_cast; linarith)
  have hrq : (256 : ℚ) ≤ ((roundHalfAway x : ℤ) : ℚ) := by exact_mod_cast hr
  simp only [GoFloat.round, GoFloat.min]
  rw [if_pos (by linarith)]
  simp only [GoFloat.max]
  rw [if_neg (by norm_num)]
  exact toUint8_natCast 255 (by norm_num)

/-- The colour encoder saturates: bytes up to 109 are stored as 0, bytes from 146
as 255. -/
theorem spzEncodeColor_saturates (v : ℕ) (hv : v < 256) :
    (v ≤ 109 → spzEncodeColor v = 0) ∧ (146 ≤ v → spzEncodeColor v = 255) := by
  obtain ⟨x, hx, he⟩ := encodeColor_value v hv
  have e2 : ((v : ℚ) / 255 - 1 / 2) / (5081767996463981 / 18014398509481984) * 510 + 255 / 2 =
      ((v : ℚ) / 255 - 1 / 2) * (18014398509481984 / 5081767996463981) * 510 + 255 / 2 := by
    ring
  rw [e2, abs_le] at he
  norm_num at he
  constructor
  · intro h
    have hq : (v : ℚ) ≤ 109 := by exact_mod_cast h
    rw [hx]
    apply clipUint8Round_low
    linarith [he.2]
  · intro h
    have hq : (146 : ℚ) ≤ v := by exact_mod_cast h
    rw [hx]
    apply clipUint8Round_high
    linarith [he.1]

/-- The colour codec on the bytes the encoder does not saturate, and the decoder on
the two saturated values. -/
theorem color_middle : (∀ k, k < 36 →
    spzDecodeColor (spzEncodeColor (110 + k)) = colorImage (110 + k)) ∧
    spzDecodeColor 0 = 109 ∧ spzDecodeColor 255 = 145 := by
  decide!

/-- The colour codec on every byte, in closed form. -/
theorem color_table (v : ℕ) (hv : v < 256) :
    spzDecodeColor (spzEncodeColor v) = colorImage v := by
  obtain ⟨hlow, hhigh⟩ := spzEncodeColor_saturates v hv
  obtain ⟨hmid, d0, d255⟩ := color_middle
  by_cases h1 : v ≤ 109
  · rw [hlow h1, d0]
    unfold colorImage
    rw [if_pos (by omega)]
  · by_cases h2 : 146 ≤ v
    · rw [hhigh h2, d255]
      unfold colorImage
      rw [if_neg (by omega), if_pos (by omega)]
    · have := hmid (v - 110) (by omega)
      rw [show 110 + (v - 110) = v by omega] at this
      exact this

theorem colorImage_facts : ∀ v, v < 256 →
    (109 ≤ colorImage v ∧ colorImage v ≤ 145 ∧ (v ≤ 110 → colorImage v = 109) ∧
      (145 ≤ v → colorImage v = 145) ∧
      (110 ≤ v → v ≤ 145 → colorImage v = v ∨ colorImage v + 1 = v) ∧
      (colorImage v = v ↔ v ∈ colorFixedBytes)) := by
  decide!

/-- Claim C11 as amended (the colour round trip is lossy).  For every byte `v`,
`spzDecodeColor (spzEncodeColor v)` lies in `[109, 145]`: it is 109 for
`v ≤ 110`, 145 for `v ≥ 145`, and `v` or `v - 1` in between; it equals `v` for
exactly the 19 bytes 109, 111-116, 122-127, 134-138 and 145. -/
theorem color_roundtrip_lossy (v : ℕ) (hv : v < 256) :
    109 ≤ spzDecodeColor (spzEncodeColor v) ∧ spzDecodeColor (spzEncodeColor v) ≤ 145 ∧
      (v ≤ 110 → spzDecodeColor (spzEncodeColor v) = 109) ∧
      (145 ≤ v → spzDecodeColor (spzEncodeColor v) = 145) ∧
      (110 ≤ v → v ≤ 145 → spzDecodeColor (spzEncodeColor v) = v ∨
        spzDecodeColor (spzEncodeColor v) + 1 = v) ∧
      (spzDecodeColor (spzEncodeColor v) = v ↔ v ∈ colorFixedBytes) := by
  rw [color_table v hv]
  exact colorImage_facts v hv

/-- Witness of the amended C11 at the byte 128, which comes back as 127. -/
theorem color_roundtrip_lossy_witness :
    (128 : ℕ) < 256 ∧
      (109 ≤ spzDecodeColor (spzEncodeColor 128) ∧ spzDecodeColor (spzEncodeColor 128) ≤ 145 ∧
        (128 ≤ 110 → spzDecodeColor (spzEncodeColor 128) = 109) ∧
        (145 ≤ 128 → spzDecodeColor (spzEncodeColor 128) = 145) ∧
        (110 ≤ 128 → 128 ≤ 145 → spzDecodeColor (spzEncodeColor 128) = 128 ∨
          spzDecodeColor (spzEncodeColor 128) + 1 = 128) ∧
        (spzDecodeColor (spzEncodeColor 128) = 128 ↔ 128 ∈ colorFixedBytes)) :=
  ⟨by decide, color_roundtrip_lossy 128 (by decide)⟩

/-- Claim C15, evaluated at the failing input.  The row `sh3OnlyRow` has buffers
that are empty or of nominal length: `SH1` and `SH2` empty, `SH3` of 21 bytes.
For this combination 45 placeholder bytes are claimed; the degree 3 branch of the
writer indexes the empty `SH2` and panics. -/
theorem writeSh_three_panics :
    NominalLengths sh3OnlyRow ∧ sh3OnlyRow.SH1 = [] ∧ sh3OnlyRow.SH2 = [] ∧
      sh3OnlyRow.SH3.length = 21 ∧ statedSh3 sh3OnlyRow = List.replicate 45 128 ∧
      writeSh 3 sh3OnlyRow = .error .panic := by
  refine ⟨⟨Or.inl rfl, Or.inl rfl, Or.inr rfl⟩, rfl, rfl, rfl, ?_, ?_⟩ <;> decide!

/-- Claim C6, evaluated at the failing input.  The cloud `sh3OnlyCloud` has a valid
header (version 2, degree 3, 12 fractional bits), `NumPoints = len(Data) = 1` and
harmonics buffers that are empty or of nominal length; the writer panics on it
while indexing the empty `SH2`, so there are no bytes to decode and no opacity
comes back. -/
theorem WriteSpz_sh3_only_panics :
    sh3OnlyCloud.Magic = SPZ_MAGIC ∧ sh3OnlyCloud.Version = 2 ∧ sh3OnlyCloud.ShDegree = 3 ∧
      sh3OnlyCloud.FractionalBits = 12 ∧ sh3OnlyCloud.NumPoints = sh3OnlyCloud.Data.length ∧
      (∀ row ∈ sh3OnlyCloud.Data, NominalLengths row) ∧
      WriteSpz sh3OnlyCloud = .error .panic := by
  refine ⟨rfl, rfl, rfl, rfl, rfl, ?_, ?_⟩
  · intro row hr
    rw [show sh3OnlyCloud.Data = [sh3OnlyRow] from rfl, List.mem_singleton] at hr
    rw [hr]
    exact ⟨Or.inl rfl, Or.inl rfl, Or.inr rfl⟩
  · decide!

/-- Below degree 3 the writer does not look at `SH3`. -/
theorem writeSh_erase_sh3 (degree : Nat) (row : SplatData) (h : degree ≠ 3) :
    writeSh degree row = writeSh degree { row with SH3 := [] } := by
  unfold writeSh
  split
  · rfl
  · rfl
  · exact absurd rfl h
  · rfl

theorem writeSh_ok_guarded (degree : Nat) (row : SplatData) (hg : ShGuarded degree row) :
    ∃ bs, writeSh degree row = .ok bs ∧ bs.length = shBytes degree := by
  obtain ⟨⟨h1, h2, h3⟩, h32⟩ := hg
  by_cases hd : degree = 3
  · exact writeSh_ok degree row ⟨h1, h2, h3, h32 hd⟩
  · rw [writeSh_erase_sh3 degree row hd]
    exact writeSh_ok degree { row with SH3 := [] } ⟨h1, h2, Or.inl rfl, fun h => absurd rfl h⟩

theorem WriteSpz_ok_guarded (c : SpzData) (hsh : ∀ row ∈ c.Data, ShGuarded c.ShDegree row) :
    ∃ shs, WriteSpz c = .ok (c.ToBytes ++ (fixedSections c ++ shs)) ∧
      shs.length = c.Data.length * shBytes c.ShDegree := by
  obtain ⟨shs, hshs, hl⟩ := appendRows_ok (writeSh c.ShDegree) (shBytes c.ShDegree) c.Data
    (fun row hr => writeSh_ok_guarded _ row (hsh row hr))
  refine ⟨shs, ?_, hl⟩
  unfold WriteSpz
  simp only []
  rw [hshs, ok_bind]
  simp only [fixedSections, List.append_assoc]
  rfl

/-- Decoding the buffer the writer built, for every cloud with a valid header,
`NumPoints = len(Data)` and rows the writer can emit at the degree of the cloud. -/
theorem ReadSpz_WriteSpz_guarded (c : SpzData) (hmagic : c.Magic = SPZ_MAGIC)
    (hversion : c.Version = 2 ∨ c.Version = 3) (hdeg : c.ShDegree ≤ 3)
    (hfb : c.FractionalBits = 12) (hnum : c.NumPoints = c.Data.length)
    (hrange : c.NumPoints < 2 ^ 32) (hsh : ∀ row ∈ c.Data, ShGuarded c.ShDegree row) :
    ∃ bts r, WriteSpz c = .ok bts ∧ ReadSpz bts = .ok r ∧
      r.Magic = c.Magic ∧ r.Version = c.Version ∧ r.NumPoints = c.NumPoints ∧
      r.ShDegree = c.ShDegree ∧ r.FractionalBits = c.FractionalBits ∧
      r.Data.length = c.Data.length ∧
      (r.Data.map fun p => p.ColorA) = (c.Data.map fun row => row.ColorA) := by
  obtain ⟨shs, hwrite, hshs⟩ := WriteSpz_ok_guarded c hsh
  have hparse := ParseSpzHeader_ToBytes_eq c hrange hmagic hversion hdeg hfb
  have hn := hnum
  have hfix := fixedSections_length c
  suffices hread : ∃ r, ReadSpz (c.ToBytes ++ (fixedSections c ++ shs)) = .ok r ∧
      r.Magic = c.Magic ∧ r.Version = c.Version ∧ r.NumPoints = c.NumPoints ∧
      r.ShDegree = c.ShDegree ∧ r.FractionalBits = c.FractionalBits ∧
      r.Data.length = c.Data.length ∧
      (r.Data.map fun p => p.ColorA) = (c.Data.map fun row => row.ColorA) by
    obtain ⟨r, hr⟩ := hread
    exact ⟨_, r, hwrite, hr⟩
  rw [ReadSpz_append _ _ _ (ToBytes_length c) hparse]
  by_cases hd : (fixedSections c ++ shs).length > 0
  · have hexp : (fixedSections c ++ shs).length = expectedSize { c with Data := [] } := by
      rw [List.length_append, hfix, hshs, expectedSize, rotationSize_eq, shDim_eq]
      simp only [shBytes, hn]
      have hv : (if c.Version ≥ 3 then 4 else 3) = (if c.Version < 3 then 3 else 4) := by
        split_ifs <;> first | rfl | omega
      rw [hv]
      ring
    obtain ⟨pts, hpts, hl, hall⟩ := readSpzDatas_ok _ _ hexp
    rw [if_pos hd, hpts]
    refine ⟨_, rfl, rfl, rfl, rfl, rfl, rfl, ?_, ?_⟩
    · exact hl.trans hn
    · apply List.ext_getElem?
      intro j
      by_cases hj : j < c.Data.length
      · obtain ⟨q, hq, hqa, -⟩ := hall j (by rw [← hn] at hj; exact hj)
        have ha : q.ColorA = (c.Data.map fun row => row.ColorA).getD j 0 := by
          rw [hqa]
          show (fixedSections c ++ shs).getD (c.NumPoints * 9 + j) 0 = _
          rw [hn]
          exact fixedSections_alpha c shs j hj
        show (List.map (fun p => p.ColorA) pts)[j]? = _
        rw [List.getElem?_map, hq, Option.map_some', ha, List.getD_eq_getElem?_getD,
          List.getElem?_eq_getElem (by rw [List.length_map]; exact hj)]
        rfl
      · have h1 : (List.map (fun p => p.ColorA) pts).length ≤ j := by
          rw [List.length_map, hl, hn]; omega
        have h2 : (List.map (fun row => row.ColorA) c.Data).length ≤ j := by
          rw [List.length_map]; omega
        show (List.map (fun p => p.ColorA) pts)[j]? = _
        rw [List.getElem?_eq_none h1, List.getElem?_eq_none h2]
  · have h0 : c.Data.length = 0 := by
      rw [List.length_append, hfix] at hd
      omega
    have hnil : c.Data = [] := List.length_eq_zero.mp h0
    rw [if_neg hd]
    refine ⟨_, rfl, rfl, rfl, rfl, rfl, rfl, ?_, ?_⟩
    · rw [h0]; rfl
    · rw [hnil]

/-- Opacity comes back index by index for every cloud with a valid header,
`NumPoints = len(Data)` and harmonics buffers that are empty or of nominal length,
at every degree, as long as at degree 3 no row carries `SH3` without `SH2`. -/
theorem opacity_preserved_guarded (c : SpzData) (hmagic : c.Magic = SPZ_MAGIC)
    (hversion : c.Version = 2 ∨ c.Version = 3) (hdeg : c.ShDegree ≤ 3)
    (hfb : c.FractionalBits = 12) (hnum : c.NumPoints = c.Data.length)
    (hrange : c.NumPoints < 2 ^ 32) (hsh : ∀ row ∈ c.Data, NominalLengths row)
    (h3 : c.ShDegree = 3 → ∀ row ∈ c.Data, row.SH3 ≠ [] → row.SH2 ≠ []) :
    ∃ bts r, WriteSpz c = .ok bts ∧ ReadSpz bts = .ok r ∧
      r.Data.length = c.Data.length ∧
      ∀ i : Nat, (r.Data[i]?).map (fun p : SplatData => p.ColorA) =
        (c.Data[i]?).map (fun row : SplatData => row.ColorA) := by
  obtain ⟨bts, r, h1, h2, -, -, -, -, -, h8, h9⟩ := ReadSpz_WriteSpz_guarded c hmagic hversion
    hdeg hfb hnum hrange (fun row hr => ⟨hsh row hr, fun hd => h3 hd row hr⟩)
  refine ⟨bts, r, h1, h2, h8, fun i => ?_⟩
  rw [← List.getElem?_map, ← List.getElem?_map, h9]

end Spz
